import Mathlib

/-!
# llmsh: prediction cache, usage ledger and orchestrator

A shallow embedding of the Go sources of `llmsh` (`pkg/cache/sqlite.go`,
`pkg/tracker/token.go`, `pkg/context/filter.go`, `pkg/llm/openai.go`,
`cmd/predict.go`, `cmd/complete.go`, `cmd/nl2cmd.go`) and the properties
established about them.

Conventions of the embedding

* Go `string` values are Lean `String`s.
* The wall clock is an explicit argument: an instant is an `Int` number of
  nanoseconds since the Unix epoch, and `unixSeconds` is Go's `Time.Unix()`.
* The SQLite table `predictions` is the list of its rows in rowid order; the
  columns `created_at`, `hit_count`, `last_used` are SQLite `INTEGER`s, embedded
  as `Int`.  The database handle is open and the statements succeed.
* Go `int` arithmetic of the ledger aggregation and the negation of a
  `time.Duration` are 64-bit two's complement, written with an explicit
  `int64wrap`.
* A `time.Time` is its instant and the zone offset of its location; calendar
  dates are proleptic Gregorian, as in Go's `time` package.
* The ledger file is given by what `os.ReadFile` and `json.Unmarshal` make of it.
* The digest function is a parameter of `generateCacheKey`; SHA-256 itself is
  embedded as `sha256Hex` for the fingerprints of concrete inputs.
-/

namespace Llmsh

/-! ## Time -/

/-- Go's `Time.Unix()`: whole seconds since the epoch (rounded down) of an
instant given in nanoseconds since the epoch. -/
def unixSeconds (nanos : Int) : Int := nanos / 1000000000

/-- The value of a Go `int64` (also of an `int` on a 64-bit platform and of a
`time.Duration`: 64 bits, two's complement) that holds the integer `x` after
wrap-around. -/
def int64wrap (x : Int) : Int := (x + 2 ^ 63) % 2 ^ 64 - 2 ^ 63

/-! ## pkg/cache/sqlite.go -/

/-- One row of the table `predictions`; also the value `Cache.Get` returns
(`CreatedAt` and `LastUsed` are the epoch seconds that `time.Unix(_, 0)` wraps). -/
structure CacheEntry where
  ContextHash : String
  Command : String
  CreatedAt : Int
  HitCount : Int
  LastUsed : Int
deriving DecidableEq, Repr

/-- The contents of the table `predictions`, in rowid order. -/
abbrev Cache := List CacheEntry

/-- The schema's `context_hash TEXT PRIMARY KEY`: no two rows share a key. -/
def Cache.uniqueKeys (c : Cache) : Prop := (c.map CacheEntry.ContextHash).Nodup

instance (c : Cache) : Decidable (Cache.uniqueKeys c) := by
  unfold Cache.uniqueKeys; infer_instance

/-- The `UPDATE predictions SET hit_count = hit_count + 1, last_used = ?
WHERE context_hash = ?` of `Cache.Get`. -/
def Cache.touch (c : Cache) (nowUnix : Int) (contextHash : String) : Cache :=
  c.map fun r =>
    if r.ContextHash = contextHash then
      { r with HitCount := r.HitCount + 1, LastUsed := nowUnix }
    else r

/-- The function `Cache.Get`: the row selected by `WHERE context_hash = ?` as it was before
the update (or `none`, Go's `nil`, when no row is selected), and the table after
the update. -/
def Cache.Get (c : Cache) (now : Int) (contextHash : String) : Option CacheEntry × Cache :=
  match c.find? (fun r => r.ContextHash = contextHash) with
  | none => (none, c)
  | some entry => (some entry, Cache.touch c (unixSeconds now) contextHash)

/-- The function `Cache.Set`: `INSERT OR REPLACE INTO predictions (...) VALUES (?, ?, ?, 0, ?)`.
The row that conflicts on the primary key is deleted and the new row is inserted
(with a fresh, largest rowid). -/
def Cache.Set (c : Cache) (now : Int) (contextHash command : String) : Cache :=
  c.filter (fun r => r.ContextHash ≠ contextHash) ++
    [{ ContextHash := contextHash, Command := command, CreatedAt := unixSeconds now,
       HitCount := 0, LastUsed := unixSeconds now }]

/-- The query `SELECT ... FROM predictions ORDER BY last_used DESC`.  SQLite leaves the
order of rows with equal `last_used` unspecified; here they keep their rowid
order. -/
def Cache.orderByLastUsedDesc (c : Cache) : List CacheEntry :=
  c.insertionSort (fun a b => a.LastUsed ≥ b.LastUsed)

/-- The local variable `cutoff := time.Now().Add(-maxAge).Unix()` of
`Cache.Cleanup`.  The argument `maxAge` is a `time.Duration`, an `int64` count of
nanoseconds, so the unary minus is that of `int64`: it wraps, and the negation of
the most negative duration is that duration itself.  `Time.Add` adds the
duration to the instant; it saturates only beyond the range of 64-bit seconds
counted from the year 1, which a clock reading plus a duration (at most about
292 years) does not reach, so the addition is exact. -/
def Cache.cutoff (now maxAge : Int) : Int :=
  unixSeconds (now + int64wrap (-maxAge))

/-- The first statement of `Cache.Cleanup`:
`DELETE FROM predictions WHERE last_used < ?`, bound to `cutoff`. -/
def Cache.deleteExpired (c : Cache) (now maxAge : Int) : Cache :=
  c.filter (fun r => ¬ (r.LastUsed < Cache.cutoff now maxAge))

/-- The second statement of `Cache.Cleanup`: `DELETE FROM predictions WHERE
context_hash NOT IN (SELECT context_hash FROM predictions ORDER BY last_used
DESC LIMIT maxEntries)`. -/
def Cache.deleteOverflow (c : Cache) (maxEntries : Int) : Cache :=
  let keep := ((Cache.orderByLastUsedDesc c).take maxEntries.toNat).map CacheEntry.ContextHash
  c.filter (fun r => r.ContextHash ∈ keep)

/-- The function `Cache.Cleanup`: the TTL deletion, then, only `if maxEntries > 0`, the
capacity deletion.  (`VACUUM` does not change the rows.) -/
def Cache.Cleanup (c : Cache) (now maxAge maxEntries : Int) : Cache :=
  let c1 := Cache.deleteExpired c now maxAge
  if maxEntries > 0 then Cache.deleteOverflow c1 maxEntries else c1

/-- The function `Cache.Stats`: `SELECT COUNT(*), COALESCE(SUM(hit_count), 0) FROM predictions`. -/
def Cache.Stats (c : Cache) : Int × Int :=
  (c.length, (c.map CacheEntry.HitCount).sum)

/-- A run of `n` successive `Cache.Get` calls on one key at the instants `times`: the
entries returned, in call order, and the final table. -/
def Cache.getMany (c : Cache) (contextHash : String) :
    List Int → List (Option CacheEntry) × Cache
  | [] => ([], c)
  | t :: ts =>
    let r := Cache.Get c t contextHash
    let rest := Cache.getMany r.2 contextHash ts
    (r.1 :: rest.1, rest.2)

/-- A table of three rows used to exercise `Cache.Cleanup`: `build` is the
oldest row and has the most hits, `test` and `push` are more recent. -/
def Cache.sample : Cache :=
  [⟨"build", "make", 10, 7, 40⟩, ⟨"test", "make test", 60, 0, 60⟩,
   ⟨"push", "git push", 80, 1, 90⟩]

/-! ## pkg/tracker/token.go -/

/-- A Go `time.Time`, as far as the ledger uses it: the instant, in nanoseconds
since the Unix epoch, and the offset east of UTC, in seconds, that the location
of the value has at that instant. -/
structure Time where
  unixNano : Int
  offset : Int
deriving DecidableEq, Repr

/-- The type `Record`, one token usage record. -/
structure Record where
  ID : String
  Timestamp : Time
  Method : String
  Provider : String
  Model : String
  InputTokens : Int
  OutputTokens : Int
  CacheCreationTokens : Int
  CacheReadTokens : Int
deriving DecidableEq, Repr

/-- A Go `map[string]*T`: the keys with the struct each pointer refers to, in
order of first insertion.  Go leaves the iteration order of a map unspecified;
nothing proved below depends on the order. -/
abbrev GoMap (α : Type) := List (String × α)

/-- The lookup `m[k]`: `none` is the nil pointer a missing key yields. -/
def GoMap.get {α : Type} (m : GoMap α) (k : String) : Option α := List.lookup k m

/-- The statement `if m[k] == nil { m[k] = &v }`. -/
def GoMap.ensure {α : Type} (m : GoMap α) (k : String) (v : α) : GoMap α :=
  match m.get k with
  | none => m ++ [(k, v)]
  | some _ => m

/-- Updates through the pointer `m[k]`, such as `m[k].Count++`. -/
def GoMap.modify {α : Type} (m : GoMap α) (k : String) (f : α → α) : GoMap α :=
  m.map fun p => (p.1, if p.1 = k then f p.2 else p.2)

/-- The type `MethodStats`. -/
structure MethodStats where
  Method : String
  Count : Int
  InputTokens : Int
  OutputTokens : Int
deriving DecidableEq, Repr

/-- The body of the loop of `AggregateByMethod`. -/
def AggregateByMethod.step (stats : GoMap MethodStats) (r : Record) : GoMap MethodStats :=
  let stats := stats.ensure r.Method
    { Method := r.Method, Count := 0, InputTokens := 0, OutputTokens := 0 }
  stats.modify r.Method fun s =>
    { s with Count := int64wrap (s.Count + 1),
             InputTokens := int64wrap (s.InputTokens + r.InputTokens),
             OutputTokens := int64wrap (s.OutputTokens + r.OutputTokens) }

/-- The function `AggregateByMethod`: one pass over the records, from the empty map. -/
def AggregateByMethod (records : List Record) : GoMap MethodStats :=
  records.foldl AggregateByMethod.step []

/-- The type `ProviderModelStats`. -/
structure ProviderModelStats where
  Provider : String
  Model : String
  Count : Int
  InputTokens : Int
  OutputTokens : Int
  CacheReadTokens : Int
deriving DecidableEq, Repr

/-- The body of the first loop of `AggregateByProviderModel`; the map key is
`r.Provider + ":" + r.Model`. -/
def AggregateByProviderModel.step (statsMap : GoMap ProviderModelStats) (r : Record) :
    GoMap ProviderModelStats :=
  let key := r.Provider ++ ":" ++ r.Model
  let statsMap := statsMap.ensure key
    { Provider := r.Provider, Model := r.Model, Count := 0, InputTokens := 0,
      OutputTokens := 0, CacheReadTokens := 0 }
  statsMap.modify key fun s =>
    { s with Count := int64wrap (s.Count + 1),
             InputTokens := int64wrap (s.InputTokens + r.InputTokens),
             OutputTokens := int64wrap (s.OutputTokens + r.OutputTokens),
             CacheReadTokens := int64wrap (s.CacheReadTokens + r.CacheReadTokens) }

/-- The function `AggregateByProviderModel`: the values of the map built by the first loop,
collected into a slice by the second loop. -/
def AggregateByProviderModel (records : List Record) : List ProviderModelStats :=
  (records.foldl AggregateByProviderModel.step []).map Prod.snd

/-- A usage record with the given method, provider, model and input/output token
counts (the other fields are irrelevant to the aggregations by method and by
provider and model). -/
def Record.sample (method provider model : String) (input output : Int) : Record :=
  { ID := "", Timestamp := ⟨0, 0⟩, Method := method, Provider := provider, Model := model,
    InputTokens := input, OutputTokens := output, CacheCreationTokens := 0,
    CacheReadTokens := 0 }

/-! ## crypto/sha256 and encoding/hex

The digest `generateCacheKey` computes belongs to Go's standard library.  It is
embedded here from its specification (FIPS 180-4) to have the fingerprint of
concrete inputs; the statements about `generateCacheKey` hold for every digest
function. -/

/-- The 32-bit word that holds `x` after wrap-around. -/
def word32 (x : Nat) : Nat := x % 4294967296

/-- Rotation of a 32-bit word to the right by `n` bits. -/
def rotr (n x : Nat) : Nat := word32 ((x >>> n) ||| (x <<< (32 - n)))

/-- Whether `n`, below 324, is a prime number: trial division by the numbers
from 2 to 17. -/
def sha256.isPrime (n : Nat) : Bool :=
  Nat.ble 2 n && (List.range 18).all fun d => Nat.ble d 1 || Nat.ble n d || n % d != 0

/-- The first sixty-four prime numbers: 2, 3, 5, and so on to 311. -/
def sha256.primes : List Nat := (List.range 312).filter sha256.isPrime

/-- The integer part of the root of order `k` of `n`, found bit by bit from bit
`bits - 1` down (the root is below `2 ^ bits`); `r` is the part found so far. -/
def sha256.root (k n : Nat) : Nat → Nat → Nat
  | 0, r => r
  | bits + 1, r => sha256.root k n bits (if Nat.ble ((r + 2 ^ bits) ^ k) n then r + 2 ^ bits else r)

/-- The round constants of SHA-256: the first 32 bits of the fractional parts
of the cube roots of the first sixty-four prime numbers. -/
def sha256.K : List Nat :=
  sha256.primes.map fun p => word32 (sha256.root 3 (p * 2 ^ 96) 36 0)

/-- The initial hash value of SHA-256: the first 32 bits of the fractional
parts of the square roots of the first eight prime numbers. -/
def sha256.init : List Nat :=
  (sha256.primes.take 8).map fun p => word32 (sha256.root 2 (p * 2 ^ 64) 36 0)

/-- The message with its padding: the byte `0x80`, zero bytes up to 56 modulo
64, and the length of the message in bits as 8 bytes, most significant first. -/
def sha256.pad (msg : List Nat) : List Nat :=
  let bits := 8 * msg.length
  msg ++ [0x80] ++ List.replicate ((119 - msg.length % 64) % 64) 0 ++
    (List.range 8).map fun i => (bits >>> (8 * (7 - i))) % 256

/-- The first `n` big-endian 32-bit words of a byte sequence. -/
def sha256.words : Nat → List Nat → List Nat
  | 0, _ => []
  | n + 1, b0 :: b1 :: b2 :: b3 :: rest =>
    (b0 <<< 24 ||| b1 <<< 16 ||| b2 <<< 8 ||| b3) :: sha256.words n rest
  | _ + 1, _ => []

/-- The message schedule, most recent word first: `n` more words are added to
the words `w`. -/
def sha256.schedule : Nat → List Nat → List Nat
  | 0, w => w
  | n + 1, w =>
    let w2 := w.getD 1 0
    let w7 := w.getD 6 0
    let w15 := w.getD 14 0
    let w16 := w.getD 15 0
    let s0 := rotr 7 w15 ^^^ rotr 18 w15 ^^^ (w15 >>> 3)
    let s1 := rotr 17 w2 ^^^ rotr 19 w2 ^^^ (w2 >>> 10)
    sha256.schedule n (word32 (s1 + w7 + s0 + w16) :: w)

/-- One round of the compression function on the working variables `a` to `h`,
with the round constant and the schedule word. -/
def sha256.round (s : List Nat) (kw : Nat × Nat) : List Nat :=
  match s with
  | [a, b, c, d, e, f, g, h] =>
    let S1 := rotr 6 e ^^^ rotr 11 e ^^^ rotr 25 e
    let ch := (e &&& f) ^^^ ((e ^^^ 4294967295) &&& g)
    let t1 := h + S1 + ch + kw.1 + kw.2
    let S0 := rotr 2 a ^^^ rotr 13 a ^^^ rotr 22 a
    let maj := (a &&& b) ^^^ (a &&& c) ^^^ (b &&& c)
    let t2 := S0 + maj
    [word32 (t1 + t2), a, b, c, word32 (d + t1), e, f, g]
  | _ => s

/-- The compression of one 64-byte block into the hash value `hash`. -/
def sha256.block (hash : List Nat) (bytes : List Nat) : List Nat :=
  let w := (sha256.schedule 48 (sha256.words 16 bytes).reverse).reverse
  let s := (sha256.K.zip w).foldl sha256.round hash
  List.zipWith (fun x y => word32 (x + y)) hash s

/-- The compression of the first `n` 64-byte blocks of `bytes`, in order. -/
def sha256.blocks : Nat → List Nat → List Nat → List Nat
  | 0, hash, _ => hash
  | n + 1, hash, bytes => sha256.blocks n (sha256.block hash (bytes.take 64)) (bytes.drop 64)

/-- The function `sha256.Sum256` of `crypto/sha256`: the digest of a byte
sequence, as 32 bytes. -/
def sha256.Sum256 (msg : List Nat) : List Nat :=
  let padded := sha256.pad msg
  (sha256.blocks (padded.length / 64) sha256.init padded).flatMap fun x =>
    [(x >>> 24) % 256, (x >>> 16) % 256, (x >>> 8) % 256, x % 256]

/-- The hexadecimal digit of a value below 16, in lower case. -/
def hexDigit (n : Nat) : Char := "0123456789abcdef".data.getD n '0'

/-- The function `hex.EncodeToString` of `encoding/hex`. -/
def hex.EncodeToString (bytes : List Nat) : String :=
  String.mk (bytes.flatMap fun b => [hexDigit (b / 16), hexDigit (b % 16)])

/-- The UTF-8 encoding of a character. -/
def utf8Bytes (c : Char) : List Nat :=
  let n := c.toNat
  if n < 0x80 then [n]
  else if n < 0x800 then [0xc0 + n / 64, 0x80 + n % 64]
  else if n < 0x10000 then [0xe0 + n / 4096, 0x80 + n / 64 % 64, 0x80 + n % 64]
  else [0xf0 + n / 262144, 0x80 + n / 4096 % 64, 0x80 + n / 64 % 64, 0x80 + n % 64]

/-- The hex SHA-256 digest of the bytes of a string (Go strings are byte
sequences; a Lean `String` stands for its UTF-8 encoding):
`hex.EncodeToString(h.Sum(nil))` after the bytes were written to `h`. -/
def sha256Hex (s : String) : String :=
  hex.EncodeToString (sha256.Sum256 (s.data.flatMap utf8Bytes))

/-! ## cmd/predict.go: the cache key -/

/-- The bytes `generateCacheKey` writes to the hash, in order: every history
entry (`h.Write([]byte(cmd))` in the loop), then `cwd`, then `gitBranch`, with
nothing in between. -/
def cacheKeyInput (history : List String) (cwd gitBranch : String) : String :=
  String.join history ++ cwd ++ gitBranch

/-- The function `generateCacheKey`: the first 32 characters of the hex SHA-256 digest of the
bytes written.  The digest `sha256hex` (Go's `crypto/sha256` followed by
`hex.EncodeToString`) is a library function and is taken as a parameter. -/
def generateCacheKey (sha256hex : String → String) (history : List String)
    (cwd gitBranch : String) : String :=
  (sha256hex (cacheKeyInput history cwd gitBranch)).take 32

/-- A collision of the truncated digest: two different byte strings whose hex
digests have the same first 32 characters, which are all that
`generateCacheKey` returns. -/
def digestCollision (sha256hex : String → String) (a b : String) : Prop :=
  a ≠ b ∧ (sha256hex a).take 32 = (sha256hex b).take 32

instance (sha256hex : String → String) (a b : String) :
    Decidable (digestCollision sha256hex a b) := by
  unfold digestCollision; infer_instance

/-! ## pkg/context/filter.go

Go's `regexp` package is a library; the part of it that the ten patterns of
`sensitivePatterns` use is embedded here: character classes, concatenation,
alternation and greedy repetition, with Go's leftmost-first match semantics
(the match a backtracking search finds first). -/

/-- A character class: inclusive ranges, possibly negated (`[^...]`). -/
structure CharClass where
  negated : Bool
  ranges : List (Char × Char)

/-- Whether the class contains the character. -/
def CharClass.test (cls : CharClass) (c : Char) : Bool :=
  (cls.ranges.any fun r => Nat.ble r.1.toNat c.toNat && Nat.ble c.toNat r.2.toNat)
    != cls.negated

/-- Regular expressions: the empty expression, a character class, `ab`, `a|b`
and the greedy `a*`. -/
inductive Regex where
  | empty : Regex
  | cls : CharClass → Regex
  | seq : Regex → Regex → Regex
  | alt : Regex → Regex → Regex
  | star : Regex → Regex

/-- The ways `a*` can match a prefix of the input, each given by the input left
over, in order of preference: greedy, so one more iteration of `a` (`step`) is
preferred to stopping.  An iteration has to consume input. -/
def Regex.starEnds (step : List Char → List (List Char)) : Nat → List Char → List (List Char)
  | 0, s => [s]
  | n + 1, s =>
    ((step s).filter fun s1 => s1.length < s.length).flatMap (Regex.starEnds step n) ++ [s]

/-- The ways the expression can match a prefix of the input, each given by the
input left over, in the order of preference of a backtracking search: the first
alternative before the second, a longer repetition before a shorter one. -/
def Regex.ends : Regex → List Char → List (List Char)
  | .empty, s => [s]
  | .cls _, [] => []
  | .cls c, x :: s => if c.test x then [s] else []
  | .seq a b, s => (Regex.ends a s).flatMap (Regex.ends b)
  | .alt a b, s => Regex.ends a s ++ Regex.ends b s
  | .star a, s => Regex.starEnds (Regex.ends a) (s.length + 1) s

/-- The leftmost-first match in the input: the text before the match, the
match, and the text after it. -/
def Regex.find (r : Regex) : List Char → Option (List Char × List Char × List Char)
  | [] =>
    match (r.ends []).head? with
    | some _ => some ([], [], [])
    | none => none
  | c :: s =>
    match (r.ends (c :: s)).head? with
    | some rest => some ([], (c :: s).take ((c :: s).length - rest.length), rest)
    | none => (Regex.find r s).map fun m => (c :: m.1, m.2.1, m.2.2)

/-- The loop of Go's `Regexp.ReplaceAllString` on the input from the search
position on (`rest`): `pending` is the text between the end of the last match
and the search position, `atStart` tells that the search position is 0.  The
text before each match is copied, the replacement is inserted (but not for an
empty match right after the previous match), and the search goes on after the
match, at least one character further.  The patterns have no anchors and no
word boundaries, so a search from a position is a search in the text that
remains. -/
def Regex.replaceAllFrom (r : Regex) (repl : List Char) :
    Nat → Bool → List Char → List Char → List Char
  | 0, _, pending, rest => pending ++ rest
  | fuel + 1, atStart, pending, rest =>
    match r.find rest with
    | none => pending ++ rest
    | some (pre, m, post) =>
      let inserted :=
        if !(pending.isEmpty && pre.isEmpty && m.isEmpty) || (atStart && pre.isEmpty)
        then repl else []
      if pre.isEmpty && m.isEmpty then
        match rest with
        | [] => pending ++ inserted
        | c :: rest1 => pending ++ inserted ++ Regex.replaceAllFrom r repl fuel false [c] rest1
      else
        pending ++ pre ++ inserted ++ Regex.replaceAllFrom r repl fuel false [] post

/-- The call `re.ReplaceAllString(src, repl)` for a replacement text without `$`. -/
def Regex.ReplaceAllString (r : Regex) (src repl : String) : String :=
  String.mk (Regex.replaceAllFrom r repl.data (src.data.length + 1) true [] src.data)

/-- The call `re.MatchString(s)`: whether the expression matches somewhere in `s`. -/
def Regex.MatchString (r : Regex) (s : String) : Bool := (r.find s.data).isSome

/-- The pattern of one character. -/
def Regex.chr (c : Char) : Regex := .cls ⟨false, [(c, c)]⟩

/-- The characters a pattern character matches under the flag `(?i)`: its orbit
under Unicode simple case folding.  For an ASCII letter these are its two cases,
and further U+212A (Kelvin sign) for `k` and U+017F (long s) for `s`. -/
def foldOrbit (c : Char) : List (Char × Char) :=
  if c.isAlpha then
    [(c.toUpper, c.toUpper), (c.toLower, c.toLower)] ++
      (if c.toLower = 'k' then [(Char.ofNat 0x212A, Char.ofNat 0x212A)]
       else if c.toLower = 's' then [(Char.ofNat 0x17F, Char.ofNat 0x17F)] else [])
  else [(c, c)]

/-- The pattern of one character under the flag `(?i)`. -/
def Regex.chrI (c : Char) : Regex := .cls ⟨false, foldOrbit c⟩

/-- The pattern of a literal text. -/
def Regex.lit (s : String) : Regex := s.data.foldr (fun c r => .seq (.chr c) r) .empty

/-- The pattern of a literal text under the flag `(?i)`. -/
def Regex.litI (s : String) : Regex := s.data.foldr (fun c r => .seq (.chrI c) r) .empty

/-- The pattern `a+`. -/
def Regex.plus (a : Regex) : Regex := .seq a (.star a)

/-- The pattern `a?`. -/
def Regex.opt (a : Regex) : Regex := .alt a .empty

/-- The pattern `a{n}`. -/
def Regex.rep : Nat → Regex → Regex
  | 0, _ => .empty
  | n + 1, a => .seq a (Regex.rep n a)

/-- The pattern `a{n,}`. -/
def Regex.atLeast (n : Nat) (a : Regex) : Regex := .seq (Regex.rep n a) (.star a)

/-- The pattern of a concatenation. -/
def Regex.cat (rs : List Regex) : Regex := rs.foldr .seq .empty

/-- The class `\s`: `[\t\n\f\r ]`. -/
def spaceRanges : List (Char × Char) :=
  [(Char.ofNat 9, Char.ofNat 10), (Char.ofNat 12, Char.ofNat 13), (' ', ' ')]

/-- The pattern `\s`. -/
def Regex.space : Regex := .cls ⟨false, spaceRanges⟩

/-- The pattern `[=:]`. -/
def Regex.assign : Regex := .cls ⟨false, [('=', '='), (':', ':')]⟩

/-- The pattern `['"]`. -/
def Regex.quote : Regex := .cls ⟨false, [(Char.ofNat 39, Char.ofNat 39), ('"', '"')]⟩

/-- The pattern `[a-zA-Z0-9_-]`. -/
def Regex.tokenChar : Regex :=
  .cls ⟨false, [('a', 'z'), ('A', 'Z'), ('0', '9'), ('_', '_'), ('-', '-')]⟩

/-- The pattern `[a-zA-Z0-9_-]` under the flag `(?i)`: case folding adds U+017F
and U+212A to the class. -/
def Regex.tokenCharI : Regex :=
  .cls ⟨false, [('a', 'z'), ('A', 'Z'), ('0', '9'), ('_', '_'), ('-', '-'),
    (Char.ofNat 0x17F, Char.ofNat 0x17F), (Char.ofNat 0x212A, Char.ofNat 0x212A)]⟩

/-- The pattern `[^\s'"]`. -/
def Regex.valueChar : Regex :=
  .cls ⟨true, spaceRanges ++ [(Char.ofNat 39, Char.ofNat 39), ('"', '"')]⟩

/-- The pattern `\s*[=:]\s*['"]?`, which follows the keyword in four of the
patterns. -/
def Regex.assignment : Regex :=
  .cat [.star .space, .assign, .star .space, .opt .quote]

/-- The variable `sensitivePatterns`, in the order of the source. -/
def sensitivePatterns : List Regex :=
  [ -- (?i)(api[_-]?key|token)\s*[=:]\s*['"]?([a-zA-Z0-9_-]{20,})
    .cat [.alt (.cat [.litI "api", .opt (.cls ⟨false, [('_', '_'), ('-', '-')]⟩), .litI "key"])
            (.litI "token"),
          .assignment, .atLeast 20 .tokenCharI],
    -- AKIA[0-9A-Z]{16}
    .cat [.lit "AKIA", .rep 16 (.cls ⟨false, [('0', '9'), ('A', 'Z')]⟩)],
    -- (?i)(password|passwd|pwd)\s*[=:]\s*['"]?([^\s'"]+)
    .cat [.alt (.litI "password") (.alt (.litI "passwd") (.litI "pwd")),
          .assignment, .plus .valueChar],
    -- -----BEGIN\s+.*PRIVATE\s+KEY-----
    .cat [.lit "-----BEGIN", .plus .space, .star (.cls ⟨true, [(Char.ofNat 10, Char.ofNat 10)]⟩),
          .lit "PRIVATE", .plus .space, .lit "KEY-----"],
    -- eyJ[a-zA-Z0-9_-]*\.eyJ[a-zA-Z0-9_-]*\.[a-zA-Z0-9_-]*
    .cat [.lit "eyJ", .star .tokenChar, .lit ".eyJ", .star .tokenChar, .lit ".",
          .star .tokenChar],
    -- (?i)(mysql|postgres|mongodb|redis)://[^:]+:[^@]+@
    .cat [.alt (.litI "mysql") (.alt (.litI "postgres") (.alt (.litI "mongodb") (.litI "redis"))),
          .lit "://", .plus (.cls ⟨true, [(':', ':')]⟩), .lit ":",
          .plus (.cls ⟨true, [('@', '@')]⟩), .lit "@"],
    -- (?i)bearer\s+[a-zA-Z0-9_-]{20,}
    .cat [.litI "bearer", .plus .space, .atLeast 20 .tokenCharI],
    -- (?i)BEGIN\s+(RSA|DSA|EC|OPENSSH)\s+PRIVATE\s+KEY
    .cat [.litI "BEGIN", .plus .space,
          .alt (.litI "RSA") (.alt (.litI "DSA") (.alt (.litI "EC") (.litI "OPENSSH"))),
          .plus .space, .litI "PRIVATE", .plus .space, .litI "KEY"],
    -- (?i)(secret|credential)\s*[=:]\s*['"]?([^\s'"]+)
    .cat [.alt (.litI "secret") (.litI "credential"), .assignment, .plus .valueChar],
    -- (?i)(oauth|access_token|refresh_token)\s*[=:]\s*['"]?([a-zA-Z0-9_-]{20,})
    .cat [.alt (.litI "oauth") (.alt (.litI "access_token") (.litI "refresh_token")),
          .assignment, .atLeast 20 .tokenCharI] ]

/-- The function `filterCommand`: every pattern in turn replaces its matches in the result of
the patterns before it. -/
def filterCommand (cmd : String) : String :=
  sensitivePatterns.foldl (fun result pattern => pattern.ReplaceAllString result "[REDACTED]") cmd

/-- The function `FilterSensitive`: `filterCommand` on every element. -/
def FilterSensitive (commands : List String) : List String :=
  commands.map filterCommand

/-- The function `IsSensitive`: whether some pattern matches the command. -/
def IsSensitive (cmd : String) : Bool :=
  sensitivePatterns.any fun pattern => pattern.MatchString cmd

/-! ## cmd/root.go, cmd/predict.go, cmd/complete.go, cmd/nl2cmd.go: the prompts -/

/-- The type `Request`, the JSON request read from standard input. -/
structure Request where
  Method : String
  History : List String
  CWD : String
  GitBranch : String
  OSInfo : String
  Prefix : String
  Description : String
  Timestamp : Int

/-- The numbered lines `"  %d. %s\n"` the prompt builders write for the history
entries they show, numbered from 1. -/
def numberedLines (shown : List String) : String :=
  String.join ((List.enumFrom 1 shown).map fun p => "  " ++ Nat.repr p.1 ++ ". " ++ p.2 ++ "\n")

/-- The function `buildPredictPrompt`: the last 10 history entries are shown, most recent
first. -/
def buildPredictPrompt (history : List String) (cwd gitBranch osInfo : String) : String :=
  "You are a shell command prediction assistant.\n\n" ++
  "Context:\n" ++
  (if osInfo ≠ "" then "- OS: " ++ osInfo ++ "\n" else "") ++
  "- Working directory: " ++ cwd ++ "\n" ++
  (if gitBranch ≠ "" then "- Git branch: " ++ gitBranch ++ "\n" else "") ++
  (if history.length > 0 then
    "- Recent commands:\n" ++ numberedLines (history.drop (history.length - 10)).reverse
   else "") ++
  "\nPredict the next most likely command the user will execute.\n" ++
  "Rules:\n" ++
  "- Return ONLY the command, no explanation\n" ++
  "- Consider the workflow pattern\n" ++
  "- Be concise and practical\n" ++
  "- Do not include markdown code blocks\n\n" ++
  "Command:"

/-- The function `buildCompletePrompt`: the last 5 history entries are shown, oldest first. -/
def buildCompletePrompt (pfx : String) (history : List String) (cwd osInfo : String) : String :=
  "You are a shell command completion assistant.\n\n" ++
  "Context:\n" ++
  (if osInfo ≠ "" then "- OS: " ++ osInfo ++ "\n" else "") ++
  "- Current directory: " ++ cwd ++ "\n" ++
  "- Partial command: " ++ pfx ++ "\n" ++
  (if history.length > 0 then
    "- Recent commands:\n" ++ numberedLines (history.drop (history.length - 5))
   else "") ++
  "\nComplete the partial command to a full, valid command.\n" ++
  "Rules:\n" ++
  "- Return ONLY the completed command\n" ++
  "- Ensure it starts with or relates to the given prefix\n" ++
  "- Be practical and safe\n" ++
  "- Do not include markdown code blocks\n\n" ++
  "Completed command:"

/-- The function `buildNL2CmdPrompt`: the last 3 history entries are shown, oldest first. -/
def buildNL2CmdPrompt (description cwd : String) (history : List String) (osInfo : String) :
    String :=
  "You are a shell command generator.\n\n" ++
  "Task: Convert natural language description to a shell command.\n" ++
  "Context:\n" ++
  (if osInfo ≠ "" then "- OS: " ++ osInfo ++ "\n" else "") ++
  "- Current directory: " ++ cwd ++ "\n" ++
  "- Description: " ++ description ++ "\n" ++
  (if history.length > 0 then
    "- Recent commands (for context):\n" ++ numberedLines (history.drop (history.length - 3))
   else "") ++
  "\nGenerate a safe, practical shell command that accomplishes the task.\n" ++
  "Rules:\n" ++
  "- Return ONLY the command, no explanation\n" ++
  "- Ensure the command is safe (no destructive operations without confirmation)\n" ++
  "- Use common Unix/Linux tools\n" ++
  "- Be concise and practical\n" ++
  "- Do not include markdown code blocks\n\n" ++
  "Command:"

/-- The prompt `runPredict` passes to `client.Predict` (when the cache does not
answer): built from the filtered history. -/
def runPredict.prompt (req : Request) : String :=
  buildPredictPrompt (FilterSensitive req.History) req.CWD req.GitBranch req.OSInfo

/-- The prompt `runComplete` passes to `client.Complete`, or `none` when the
request is refused because `len(req.Prefix)` is below
`cfg.Prediction.MinPrefixLength`: built from the filtered history. -/
def runComplete.prompt (minPrefixLength : Int) (req : Request) : Option String :=
  if (req.Prefix.utf8ByteSize : Int) < minPrefixLength then none
  else some (buildCompletePrompt req.Prefix (FilterSensitive req.History) req.CWD req.OSInfo)

/-- The prompt `runNL2Cmd` passes to `client.Generate`, or `none` when the
request is refused because the description is empty: built from `req.History`
as it was received. -/
def runNL2Cmd.prompt (req : Request) : Option String :=
  if req.Description = "" then none
  else some (buildNL2CmdPrompt req.Description req.CWD req.History req.OSInfo)

/-- A request whose history holds a password assignment. -/
def Request.sample : Request :=
  { Method := "nl2cmd", History := ["export DB_PASSWORD=hunter2"], CWD := "/repo",
    GitBranch := "", OSInfo := "", Prefix := "psql", Description := "list files",
    Timestamp := 0 }

/-! ## Sequences of cache operations -/

/-- An operation on the cache: a call of `Cache.Set`, `Cache.Get` or
`Cache.Cleanup` with its arguments. -/
inductive Cache.Op where
  | Set (contextHash command : String) : Cache.Op
  | Get (contextHash : String) : Cache.Op
  | Cleanup (maxAge maxEntries : Int) : Cache.Op
deriving DecidableEq, Repr

/-- The table after one operation that reads the clock at the instant `now`. -/
def Cache.step (c : Cache) (now : Int) : Cache.Op → Cache
  | .Set contextHash command => Cache.Set c now contextHash command
  | .Get contextHash => (Cache.Get c now contextHash).2
  | .Cleanup maxAge maxEntries => Cache.Cleanup c now maxAge maxEntries

/-- The table after a sequence of operations, each with its clock reading. -/
def Cache.run (c : Cache) (ops : List (Int × Cache.Op)) : Cache :=
  ops.foldl (fun c op => Cache.step c op.1 op.2) c

/-- The invariant of the table at a time when the clock has last read `T`: keys
are unique and every row has `created_at <= last_used <= T` (in seconds) and a
hit count that is not negative. -/
def Cache.Inv (c : Cache) (T : Int) : Prop :=
  Cache.uniqueKeys c ∧
  ∀ e ∈ c, e.CreatedAt ≤ e.LastUsed ∧ e.LastUsed ≤ unixSeconds T ∧ 0 ≤ e.HitCount

/-- Go's `strings.Contains(s, substr)`. -/
def stringsContains (s substr : String) : Prop := substr.data <:+: s.data

instance (s substr : String) : Decidable (stringsContains s substr) := by
  unfold stringsContains; infer_instance

/-! ## pkg/llm/openai.go: removeCodeBlock -/

/-- Go's `unicode.IsSpace`: the Latin-1 white space `\t`, `\n`, `\v`, `\f`, `\r`,
space, U+0085, U+00A0, and the other characters with the Unicode property
White_Space. -/
def unicodeIsSpace (c : Char) : Bool :=
  let n := c.toNat
  (9 ≤ n && n ≤ 13) || n == 32 || n == 0x85 || n == 0xA0 || n == 0x1680 ||
  (0x2000 ≤ n && n ≤ 0x200A) || n == 0x2028 || n == 0x2029 || n == 0x202F ||
  n == 0x205F || n == 0x3000

/-- Go's `strings.TrimSpace` on the characters of a string: leading and trailing
white space removed. -/
def trimSpace (s : List Char) : List Char :=
  (s.dropWhile unicodeIsSpace).rdropWhile unicodeIsSpace

/-- Puts a character in front of the first line of a list of lines. -/
def consToFirst (c : Char) : List (List Char) → List (List Char)
  | [] => [[c]]
  | l :: ls => (c :: l) :: ls

/-- Go's `strings.Split(s, "\n")` on the characters of a string: the lines
between the newlines, one more than there are newlines. -/
def splitNewline : List Char → List (List Char)
  | [] => [[]]
  | c :: s => if c = '\n' then [] :: splitNewline s else consToFirst c (splitNewline s)

/-- Go's `strings.Join(lines, "\n")` on lists of characters. -/
def joinNewline (lines : List (List Char)) : List Char := List.intercalate ['\n'] lines

/-- The code fence, three backticks. -/
def fence : List Char := ['`', '`', '`']

/-- The body of `removeCodeBlock` on the characters of the reply. -/
def removeCodeBlockChars (cmd : List Char) : List Char :=
  let cmd := trimSpace cmd
  let cmd :=
    if fence.isPrefixOf cmd then
      let lines := splitNewline cmd
      if lines.length > 2 then
        let lines := lines.drop 1
        let lines :=
          if trimSpace (lines.getLastD []) = fence then lines.dropLast else lines
        joinNewline lines
      else cmd
    else cmd
  trimSpace cmd

/-- The function `removeCodeBlock`: when the trimmed reply starts with a code
fence and has more than two lines, the first line is removed, and so is the last
line if it is a code fence; the result is trimmed. -/
def removeCodeBlock (cmd : String) : String := String.mk (removeCodeBlockChars cmd.data)

/-- Go's `strings.TrimSpace`. -/
def stringsTrimSpace (s : String) : String := String.mk (trimSpace s.data)

/-- Go's `strings.HasPrefix`. -/
def stringsHasPrefix (s pfx : String) : Bool := pfx.data.isPrefixOf s.data

/-- Go's `strings.HasSuffix`. -/
def stringsHasSuffix (s sfx : String) : Bool := sfx.data.isSuffixOf s.data

/-! ## pkg/tracker/token.go: aggregation by day -/

/-- The proleptic Gregorian calendar date (year, month, day) of the day that
lies `z` days after 1970-01-01, as Go's `time` package computes it. -/
def civilFromDays (z : Int) : Int × Int × Int :=
  let z := z + 719468
  let era := z / 146097
  let doe := z % 146097
  let yoe := (doe - doe / 1460 + doe / 36524 - doe / 146096) / 365
  let doy := doe - (365 * yoe + yoe / 4 - yoe / 100)
  let mp := (5 * doy + 2) / 153
  let d := doy - (153 * mp + 2) / 5 + 1
  let m := if mp < 10 then mp + 3 else mp - 9
  (yoe + era * 400 + (if m ≤ 2 then 1 else 0), m, d)

/-- Go's `t.Date()`: the calendar date of the instant in the location of `t`. -/
def Time.Date (t : Time) : Int × Int × Int :=
  civilFromDays ((unixSeconds t.unixNano + t.offset) / 86400)

/-- The decimal digits of `n`, most significant first, none for 0; `fuel` bounds
the number of digits. -/
def decimalDigits : Nat → Nat → List Nat
  | 0, _ => []
  | fuel + 1, n => if n = 0 then [] else decimalDigits fuel (n / 10) ++ [n % 10]

/-- The character of a decimal digit. -/
def digitChar (d : Nat) : Char := Char.ofNat (48 + d)

/-- Go's `appendInt(b, x, width)` of package `time`: a minus sign for a negative
`x`, then its decimal digits, padded with zeros on the left to `width` digits. -/
def appendInt (x : Int) (width : Nat) : List Char :=
  let digits := decimalDigits x.natAbs x.natAbs
  (if x < 0 then ['-'] else []) ++
    (List.replicate (width - digits.length) 0 ++ digits).map digitChar

/-- The call `t.Format("2006-01-02")`: year, month and day with 4, 2 and 2
digits. -/
def formatDay (t : Time) : String :=
  String.mk (appendInt t.Date.1 4 ++ ['-'] ++ appendInt t.Date.2.1 2 ++ ['-'] ++
    appendInt t.Date.2.2 2)

/-- The type `DayStats`. -/
structure DayStats where
  Day : String
  Count : Int
  InputTokens : Int
  OutputTokens : Int
  CacheReadTokens : Int
deriving DecidableEq, Repr

/-- The body of the loop of `AggregateByDay`. -/
def AggregateByDay.step (stats : GoMap DayStats) (r : Record) : GoMap DayStats :=
  let day := formatDay r.Timestamp
  let stats := stats.ensure day
    { Day := day, Count := 0, InputTokens := 0, OutputTokens := 0, CacheReadTokens := 0 }
  stats.modify day fun s =>
    { s with Count := int64wrap (s.Count + 1),
             InputTokens := int64wrap (s.InputTokens + r.InputTokens),
             OutputTokens := int64wrap (s.OutputTokens + r.OutputTokens),
             CacheReadTokens := int64wrap (s.CacheReadTokens + r.CacheReadTokens) }

/-- The function `AggregateByDay`: one pass over the records, from the empty
map. -/
def AggregateByDay (records : List Record) : GoMap DayStats :=
  records.foldl AggregateByDay.step []

/-- A usage record with the given timestamp and input token count. -/
def Record.at (t : Time) (input : Int) : Record :=
  { ID := "", Timestamp := t, Method := "predict", Provider := "p", Model := "m",
    InputTokens := input, OutputTokens := 1, CacheCreationTokens := 0, CacheReadTokens := 0 }

/-- The digits `appendInt` writes for the absolute value `n`: the decimal digits
after the padding zeros. -/
def paddedDigits (n width : Nat) : List Nat :=
  List.replicate (width - (decimalDigits n n).length) 0 ++ decimalDigits n n

/-- Three records used to exercise `AggregateByDay`: one at 2024-11-01 23:59:59
UTC, one at the same instant in a location one hour east (where the date is
2024-11-02), and one at 2024-11-02 00:00:00 UTC. -/
def Record.sampleDays : List Record :=
  [Record.at ⟨1730505599000000000, 0⟩ 5, Record.at ⟨1730505599000000000, 3600⟩ 7,
   Record.at ⟨1730505600000000000, 0⟩ 11]

/-! ## pkg/tracker/token.go: the persisted ledger -/

/-- The type `Storage`, the JSON document of the ledger. -/
structure Storage where
  Version : String
  Records : List Record
deriving DecidableEq, Repr

/-- The file at `dbPath` as `os.ReadFile` and `json.Unmarshal` see it.  The
packages `os` and `encoding/json` are libraries: a file that `json.Unmarshal`
accepts is given by what it decodes to (the version, if the document has one,
and the records in order), and writing `json.MarshalIndent(storage)` leaves the
file that decodes to `storage` again (zone offsets are whole minutes, as RFC
3339 writes them). -/
inductive LedgerFile where
  /-- No file: `os.ReadFile` fails and `os.IsNotExist(err)` holds. -/
  | missing : LedgerFile
  /-- The file exists and `os.ReadFile` fails. -/
  | unreadable : LedgerFile
  /-- The file is read and `json.Unmarshal` returns an error; `left` is what the
  call leaves in the destination `&Storage{Version: "1.0"}` of `RecordUsage`. -/
  | invalid (left : Storage) : LedgerFile
  /-- The file is read and `json.Unmarshal` succeeds. -/
  | document (version : Option String) (records : List Record) : LedgerFile
deriving DecidableEq, Repr

/-- The errors of the ledger operations, by the call that returns them. -/
inductive LedgerError where
  | read : LedgerError
  | unmarshal : LedgerError
  | marshal : LedgerError
  | mkdir : LedgerError
  | write : LedgerError
deriving DecidableEq, Repr

/-- What the operating system answers during one call of `RecordUsage`: the
reading `time.Now().UnixNano()` of `generateID`, the reading `time.Now()` for
the timestamp, and whether `os.MkdirAll` and `os.WriteFile` succeed. -/
structure LedgerEnv where
  idNow : Int
  now : Time
  mkdirOk : Bool
  writeOk : Bool

/-- The function `generateID`: `fmt.Sprintf("%d", time.Now().UnixNano())`. -/
def generateID (unixNano : Int) : String := String.mk (appendInt unixNano 1)

/-- Whether `json.MarshalIndent(storage)` succeeds: `Time.MarshalJSON` refuses a
year outside 0..9999. -/
def marshalOk (storage : Storage) : Bool :=
  storage.Records.all fun r => decide (0 ≤ r.Timestamp.Date.1) && decide (r.Timestamp.Date.1 ≤ 9999)

/-- The function `RecordUsage`: the new file on success, the error otherwise.
The record gets its id and timestamp, the existing document is read (a failure
to read or to decode it is ignored), the record is appended and the whole
document is written back. -/
def RecordUsage (env : LedgerEnv) (file : LedgerFile) (r : Record) :
    Except LedgerError LedgerFile :=
  let r := { r with ID := generateID env.idNow, Timestamp := env.now }
  let storage : Storage :=
    match file with
    | .missing => { Version := "1.0", Records := [] }
    | .unreadable => { Version := "1.0", Records := [] }
    | .invalid left => left
    | .document version records => { Version := version.getD "1.0", Records := records }
  let storage := { storage with Records := storage.Records ++ [r] }
  if !marshalOk storage then .error .marshal
  else if !env.mkdirOk then .error .mkdir
  else if !env.writeOk then .error .write
  else .ok (.document (some storage.Version) storage.Records)

/-- The function `LoadRecords`. -/
def LoadRecords (file : LedgerFile) : Except LedgerError Storage :=
  match file with
  | .missing => .ok { Version := "1.0", Records := [] }
  | .unreadable => .error .read
  | .invalid _ => .error .unmarshal
  | .document version records => .ok { Version := version.getD "", Records := records }

/-- A usage record as `runPredict` passes it to `RecordUsage`, before the id
and the timestamp are assigned. -/
def Record.usage (method provider model : String) (input output : Int) : Record :=
  { ID := "", Timestamp := ⟨0, 0⟩, Method := method, Provider := provider, Model := model,
    InputTokens := input, OutputTokens := output, CacheCreationTokens := 0,
    CacheReadTokens := 0 }

/-! ## cmd/predict.go: runPredict -/

/-- The fields of the configuration that `runPredict` reads: `cfg.Cache.Enabled`,
`cfg.Tracking.Enabled` and `cfg.LLM.DefaultProvider`. -/
structure Config where
  CacheEnabled : Bool
  TrackingEnabled : Bool
  DefaultProvider : String

/-- The type `llm.Usage`. -/
structure Usage where
  InputTokens : Int
  OutputTokens : Int
  CacheCreationTokens : Int
  CacheReadTokens : Int
deriving DecidableEq, Repr

/-- The type `llm.Result`. -/
structure LLMResult where
  Command : String
  Model : String
  Usage : Usage
deriving DecidableEq, Repr

/-- The type `PredictResult`; the field `Confidence` is never set and is left
out of the JSON. -/
structure PredictResult where
  Command : String
  Cached : Bool
deriving DecidableEq, Repr

/-- The type `TokenUsage`. -/
structure TokenUsage where
  InputTokens : Int
  OutputTokens : Int
  CacheCreationTokens : Int
  CacheReadTokens : Int
deriving DecidableEq, Repr

/-- The type `Response`; `Tokens = none` is the nil pointer, for which the JSON
has no `tokens` field. -/
structure Response where
  Result : Option PredictResult
  Tokens : Option TokenUsage
  Error : String
deriving DecidableEq, Repr

/-- The clock readings of one run of `runPredict`: the one of `Cache.Get`, the
one of `Cache.Set`, and the answers of the operating system to `RecordUsage`. -/
structure PredictEnv where
  tGet : Int
  tSet : Int
  ledger : LedgerEnv

/-- What one run of `runPredict` does: the response written to standard output
(`none` when nothing is written), the prompts passed to the LLM collaborator, the
cache table afterwards (`none` when the cache cannot be opened) and the result of
the call of `RecordUsage` (`none` when it is not called). -/
structure PredictOutcome where
  response : Option Response
  llmCalls : List String
  cache : Option Cache
  ledgerCall : Option (Except LedgerError LedgerFile)

/-- The function `runPredict`, after the request and the configuration are read.
`llm` is `client.Predict` (`none` for an error) and `cacheDB` is the table that
`cache.Open` gives (`none` when it fails). -/
def runPredict (cfg : Config) (sha256hex : String → String) (llm : String → Option LLMResult)
    (env : PredictEnv) (cacheDB : Option Cache) (ledger : LedgerFile) (req : Request) :
    PredictOutcome :=
  let filteredHistory := FilterSensitive req.History
  let cacheKey := generateCacheKey sha256hex filteredHistory req.CWD req.GitBranch
  let hit : Option (CacheEntry × Cache) :=
    if cfg.CacheEnabled then
      match cacheDB with
      | some c =>
        match Cache.Get c env.tGet cacheKey with
        | (some cached, c1) => some (cached, c1)
        | (none, _) => none
      | none => none
    else none
  match hit with
  | some (cached, c1) =>
    { response := some { Result := some { Command := cached.Command, Cached := true },
                         Tokens := none, Error := "" },
      llmCalls := [], cache := some c1, ledgerCall := none }
  | none =>
    let prompt := buildPredictPrompt filteredHistory req.CWD req.GitBranch req.OSInfo
    match llm prompt with
    | none => { response := none, llmCalls := [prompt], cache := cacheDB, ledgerCall := none }
    | some result =>
      { response := some
          { Result := some { Command := result.Command, Cached := false },
            Tokens := some
              { InputTokens := result.Usage.InputTokens,
                OutputTokens := result.Usage.OutputTokens,
                CacheCreationTokens := result.Usage.CacheCreationTokens,
                CacheReadTokens := result.Usage.CacheReadTokens },
            Error := "" },
        llmCalls := [prompt],
        cache :=
          if cfg.CacheEnabled then
            cacheDB.map fun c => Cache.Set c env.tSet cacheKey result.Command
          else cacheDB,
        ledgerCall :=
          if cfg.TrackingEnabled then
            some (RecordUsage env.ledger ledger
              { ID := "", Timestamp := ⟨0, 0⟩, Method := "predict",
                Provider := cfg.DefaultProvider, Model := result.Model,
                InputTokens := result.Usage.InputTokens,
                OutputTokens := result.Usage.OutputTokens,
                CacheCreationTokens := result.Usage.CacheCreationTokens,
                CacheReadTokens := result.Usage.CacheReadTokens })
          else none }

/-- A stand-in for the digest in examples: the text itself (any function will
do, the properties of `runPredict` hold for every digest). -/
def sampleDigest (s : String) : String := s

/-- A predict request with two history entries. -/
def Request.samplePredict : Request :=
  { Method := "predict", History := ["git status", "git add ."], CWD := "/repo",
    GitBranch := "main", OSInfo := "", Prefix := "", Description := "", Timestamp := 0 }

/-! ## Runs of token characters and whole-text matches -/

/-- The class `[a-zA-Z0-9_-]` of the characters of a token. -/
def tokenClass : CharClass :=
  ⟨false, [('a', 'z'), ('A', 'Z'), ('0', '9'), ('_', '_'), ('-', '-')]⟩

/-- Whether the character is drawn from `[A-Za-z0-9_-]`. -/
def isTokenChar (c : Char) : Bool := tokenClass.test c

/-- The number of token characters at the start of a text. -/
def leadRun (x : List Char) : Nat := (x.takeWhile isTokenChar).length

/-- The length of the longest run of token characters in a text. -/
def maxRun : List Char → Nat
  | [] => 0
  | c :: x => max (leadRun (c :: x)) (maxRun x)

/-- Whether the expression matches the whole text. -/
def Regex.fullMatch (r : Regex) (w : List Char) : Bool := (r.ends w).any List.isEmpty

/-- Whether no part of the text `x` is matched by the expression. -/
def Regex.noInfixMatch (r : Regex) (x : List Char) : Bool :=
  (List.range (x.length + 1)).all fun i =>
    (List.range (x.length + 1)).all fun j => !(r.fullMatch ((x.drop i).take j))

/-- The text in front of the token in the command of the bearer-token example. -/
def bearerPrefix : List Char := "curl -H 'Authorization: Bearer ".data

/-- The replacement text of the filter. -/
def redactedMarker : List Char := "[REDACTED]".data

/-! ## Properties of the prediction cache -/

theorem Cache.find?_Set (c : Cache) (now : Int) (k cmd : String) :
    (Cache.Set c now k cmd).find? (fun r => r.ContextHash = k)
      = some ⟨k, cmd, unixSeconds now, 0, unixSeconds now⟩ := by
  unfold Cache.Set
  rw [List.find?_append]
  have h : (c.filter (fun r => r.ContextHash ≠ k)).find? (fun r => r.ContextHash = k) = none := by
    rw [List.find?_eq_none]
    intro r hr
    simpa using (List.mem_filter.1 hr).2
  rw [h]
  simp

theorem Cache.touch_append (a b : Cache) (t : Int) (k : String) :
    Cache.touch (a ++ b) t k = Cache.touch a t k ++ Cache.touch b t k := by
  simp [Cache.touch]

theorem Cache.touch_others (a : Cache) (t : Int) (k : String)
    (h : ∀ r ∈ a, r.ContextHash ≠ k) : Cache.touch a t k = a := by
  unfold Cache.touch
  conv_rhs => rw [← List.map_id a]
  apply List.map_congr_left
  intro r hr
  simp [h r hr]

theorem Cache.Get_snoc (others : Cache) (e : CacheEntry) (t : Int) (k : String)
    (ho : ∀ r ∈ others, r.ContextHash ≠ k) (he : e.ContextHash = k) :
    Cache.Get (others ++ [e]) t k
      = (some e, others ++ [{ e with HitCount := e.HitCount + 1, LastUsed := unixSeconds t }]) := by
  have hf : (others ++ [e]).find? (fun r => r.ContextHash = k) = some e := by
    rw [List.find?_append]
    have h : others.find? (fun r => r.ContextHash = k) = none := by
      rw [List.find?_eq_none]
      intro r hr
      simpa using ho r hr
    rw [h]
    simp [he]
  unfold Cache.Get
  rw [hf]
  simp only [Cache.touch_append, Cache.touch_others others _ k ho]
  simp [Cache.touch, he]

/-- What `n` successive lookups of the key of the last row return and leave. -/
theorem Cache.getMany_snoc (others : Cache) (k : String)
    (ho : ∀ r ∈ others, r.ContextHash ≠ k) (times : List Int) :
    ∀ e : CacheEntry, e.ContextHash = k →
      ((Cache.getMany (others ++ [e]) k times).1.length = times.length ∧
       (∀ i, i < times.length → ∃ en,
          (Cache.getMany (others ++ [e]) k times).1[i]? = some (some en) ∧
          en.HitCount = e.HitCount + i ∧ en.Command = e.Command ∧ en.ContextHash = k) ∧
       (Cache.getMany (others ++ [e]) k times).2
          = others ++ [{ e with HitCount := e.HitCount + times.length,
                                LastUsed := ((times.getLast?).map unixSeconds).getD e.LastUsed }]) := by
  induction times with
  | nil => intro e _; simp [Cache.getMany]
  | cons t ts ih =>
    intro e he
    have hg := Cache.Get_snoc others e t k ho he
    obtain ⟨h1, h2, h3⟩ := ih { e with HitCount := e.HitCount + 1, LastUsed := unixSeconds t } he
    simp only [Cache.getMany, hg]
    refine ⟨by simp [h1], ?_, ?_⟩
    · intro i hi
      cases i with
      | zero => exact ⟨e, by simp, by simp, rfl, he⟩
      | succ j =>
        obtain ⟨en, a1, a2, a3, a4⟩ := h2 j (by simpa using hi)
        refine ⟨en, by simpa using a1, ?_, a3, a4⟩
        rw [a2]; push_cast; ring
    · rw [h3]
      congr 2
      cases ts with
      | nil => simp
      | cons u us =>
        obtain ⟨x, hx⟩ : ∃ x, (u :: us).getLast? = some x :=
          ⟨_, List.getLast?_eq_getLast _ (by simp)⟩
        simp [List.getLast?_cons_cons, hx, add_assoc, add_comm]

theorem Cache.Set_others (c : Cache) (k : String) :
    ∀ r ∈ c.filter (fun r => r.ContextHash ≠ k), r.ContextHash ≠ k := by
  intro r hr
  simpa using (List.mem_filter.1 hr).2

/-- C1 (cache round-trip): in every cache state, a `Get(k)` that directly
follows `Set(k, c)` returns an entry (not nil), and that entry has
`Command = c` and `ContextHash = k`. -/
theorem cache_set_get_roundtrip (c : Cache) (tSet tGet : Int) (k cmd : String) :
    ∃ e, (Cache.Get (Cache.Set c tSet k cmd) tGet k).1 = some e ∧
      e.Command = cmd ∧ e.ContextHash = k := by
  refine ⟨⟨k, cmd, unixSeconds tSet, 0, unixSeconds tSet⟩, ?_, rfl, rfl⟩
  unfold Cache.Get
  rw [Cache.find?_Set]

/-- C2 (insert-or-replace): after `Set(k, cmd2)` at time `now` the table holds
exactly one row for `k`, namely `(k, cmd2, created_at = now, hit_count = 0,
last_used = now)`, whatever row `k` had before, and the rows of every other
fingerprint are the same rows as before, in the same order. -/
theorem cache_set_insert_or_replace (c : Cache) (now : Int) (k cmd2 : String) :
    (Cache.Set c now k cmd2).filter (fun r => r.ContextHash = k)
        = [⟨k, cmd2, unixSeconds now, 0, unixSeconds now⟩] ∧
    (Cache.Set c now k cmd2).filter (fun r => r.ContextHash ≠ k)
        = c.filter (fun r => r.ContextHash ≠ k) := by
  unfold Cache.Set
  constructor
  · rw [List.filter_append, List.filter_filter]
    simp
  · rw [List.filter_append, List.filter_filter]
    simp

/-- C3 (hit counting): after `Set(k, c)` and then `n` successive `Get(k)` at the
instants `times` (`n = times.length`), all `n` calls return an entry, the call
number `i + 1` returns `HitCount = i` (the value before its own increment), the
table then holds for `k` exactly the row with `hit_count = n` and `last_used` the
time of the last `Get` (the time of the `Set` when `n = 0`), and `Stats` reports
`n` hits for that row on top of the hits of the other rows (so `n` in total when
`k` is the only entry). -/
theorem cache_hit_counting (c : Cache) (tSet : Int) (k cmd : String) (times : List Int) :
    (Cache.getMany (Cache.Set c tSet k cmd) k times).1.length = times.length ∧
    (∀ i, i < times.length → ∃ e,
        (Cache.getMany (Cache.Set c tSet k cmd) k times).1[i]? = some (some e) ∧
        e.HitCount = i ∧ e.Command = cmd ∧ e.ContextHash = k) ∧
    (Cache.getMany (Cache.Set c tSet k cmd) k times).2.filter (fun r => r.ContextHash = k)
        = [⟨k, cmd, unixSeconds tSet, times.length,
            unixSeconds ((times.getLast?).getD tSet)⟩] ∧
    (Cache.Stats (Cache.getMany (Cache.Set c tSet k cmd) k times).2).2
        = times.length + ((c.filter (fun r => r.ContextHash ≠ k)).map CacheEntry.HitCount).sum ∧
    (Cache.Stats (Cache.getMany (Cache.Set [] tSet k cmd) k times).2)
        = (1, (times.length : Int)) := by
  have key : ∀ c : Cache, (Cache.getMany (Cache.Set c tSet k cmd) k times).2
      = c.filter (fun r => r.ContextHash ≠ k)
          ++ [⟨k, cmd, unixSeconds tSet, times.length,
               unixSeconds ((times.getLast?).getD tSet)⟩] := by
    intro c
    have h := (Cache.getMany_snoc _ k (Cache.Set_others c k) times
      ⟨k, cmd, unixSeconds tSet, 0, unixSeconds tSet⟩ rfl).2.2
    unfold Cache.Set
    rw [h]
    cases hl : times.getLast? <;> simp
  obtain ⟨h1, h2, -⟩ := Cache.getMany_snoc _ k (Cache.Set_others c k) times
    ⟨k, cmd, unixSeconds tSet, 0, unixSeconds tSet⟩ rfl
  refine ⟨h1, ?_, ?_, ?_, ?_⟩
  · intro i hi
    obtain ⟨e, a1, a2, a3, a4⟩ := h2 i hi
    exact ⟨e, a1, by simpa using a2, a3, a4⟩
  · rw [key, List.filter_append, List.filter_filter]
    simp
  · rw [key]
    simp [Cache.Stats, add_comm]
  · rw [key]
    simp [Cache.Stats]

/-- Witness for C3: three lookups after a `Set` on an empty cache; the third one
returns `HitCount = 2`. -/
theorem cache_hit_counting_witness :
    2 < [6000000000, 7000000000, 8000000000].length ∧
    ∃ e, (Cache.getMany (Cache.Set [] 5000000000 "k" "ls -la") "k"
            [6000000000, 7000000000, 8000000000]).1[2]? = some (some e) ∧
      e.HitCount = ((2 : Nat) : Int) ∧ e.Command = "ls -la" ∧ e.ContextHash = "k" :=
  ⟨by decide,
   (cache_hit_counting [] 5000000000 "k" "ls -la" [6000000000, 7000000000, 8000000000]).2.1
     2 (by decide)⟩

/-! ### Cleanup

The lemmas on the capacity deletion use of `orderByLastUsedDesc` only that it
permutes the table and is sorted by `last_used`, descending: they hold for
every way of ordering rows with equal `last_used`. -/

theorem Cache.orderByLastUsedDesc_perm (c : Cache) :
    (Cache.orderByLastUsedDesc c).Perm c :=
  List.perm_insertionSort _ c

theorem Cache.orderByLastUsedDesc_sorted (c : Cache) :
    (Cache.orderByLastUsedDesc c).Sorted (fun a b => a.LastUsed ≥ b.LastUsed) := by
  haveI : IsTotal CacheEntry (fun a b => a.LastUsed ≥ b.LastUsed) :=
    ⟨fun a b => le_total b.LastUsed a.LastUsed⟩
  haveI : IsTrans CacheEntry (fun a b => a.LastUsed ≥ b.LastUsed) :=
    ⟨fun _ _ _ hab hbc => le_trans hbc hab⟩
  exact List.sorted_insertionSort _ c

theorem Cache.uniqueKeys_of_sublist {c d : Cache} (h : List.Sublist d c)
    (hu : Cache.uniqueKeys c) : Cache.uniqueKeys d :=
  List.Nodup.sublist (h.map _) hu

theorem Cache.uniqueKeys_deleteExpired (c : Cache) (now maxAge : Int)
    (hu : Cache.uniqueKeys c) : Cache.uniqueKeys (Cache.deleteExpired c now maxAge) :=
  Cache.uniqueKeys_of_sublist (List.filter_sublist _) hu

theorem Cache.eq_of_key_eq {c : Cache} (hu : Cache.uniqueKeys c) {a b : CacheEntry}
    (ha : a ∈ c) (hb : b ∈ c) (h : a.ContextHash = b.ContextHash) : a = b :=
  List.inj_on_of_nodup_map hu ha hb h

/-- With unique keys, the rows that survive the capacity deletion are the first
`maxEntries` rows of the `ORDER BY last_used DESC` listing. -/
theorem Cache.mem_deleteOverflow_iff {c : Cache} (hu : Cache.uniqueKeys c)
    (maxEntries : Int) (r : CacheEntry) :
    r ∈ Cache.deleteOverflow c maxEntries
      ↔ r ∈ (Cache.orderByLastUsedDesc c).take maxEntries.toNat := by
  unfold Cache.deleteOverflow
  simp only [List.mem_filter, decide_eq_true_eq, List.mem_map]
  constructor
  · rintro ⟨hr, r', hr', hk⟩
    have hc : r' ∈ c :=
      (Cache.orderByLastUsedDesc_perm c).mem_iff.1 (List.mem_of_mem_take hr')
    rw [← Cache.eq_of_key_eq hu hc hr hk]
    exact hr'
  · intro hr
    exact ⟨(Cache.orderByLastUsedDesc_perm c).mem_iff.1 (List.mem_of_mem_take hr), r, hr, rfl⟩

theorem Cache.deleteOverflow_perm {c : Cache} (hu : Cache.uniqueKeys c) (maxEntries : Int) :
    (Cache.deleteOverflow c maxEntries).Perm
      ((Cache.orderByLastUsedDesc c).take maxEntries.toNat) := by
  have hc : c.Nodup := List.Nodup.of_map _ hu
  have h1 : (Cache.deleteOverflow c maxEntries).Nodup := hc.sublist (List.filter_sublist _)
  have h2 : ((Cache.orderByLastUsedDesc c).take maxEntries.toNat).Nodup :=
    (((Cache.orderByLastUsedDesc_perm c).nodup_iff).2 hc).sublist (List.take_sublist _ _)
  exact (List.perm_ext_iff_of_nodup h1 h2).2 (Cache.mem_deleteOverflow_iff hu maxEntries)

theorem Cache.length_deleteOverflow {c : Cache} (hu : Cache.uniqueKeys c) (maxEntries : Int) :
    (Cache.deleteOverflow c maxEntries).length = min maxEntries.toNat c.length := by
  rw [(Cache.deleteOverflow_perm hu maxEntries).length_eq, List.length_take,
    (Cache.orderByLastUsedDesc_perm c).length_eq]

/-- The capacity deletion removes nothing when the limit covers the table. -/
theorem Cache.deleteOverflow_eq_self (c : Cache) (maxEntries : Int)
    (h : (c.length : Int) ≤ maxEntries) : Cache.deleteOverflow c maxEntries = c := by
  unfold Cache.deleteOverflow
  have hl : (Cache.orderByLastUsedDesc c).length ≤ maxEntries.toNat := by
    rw [(Cache.orderByLastUsedDesc_perm c).length_eq]; omega
  rw [List.take_of_length_le hl, List.filter_eq_self]
  intro r hr
  simp only [decide_eq_true_eq, List.mem_map]
  exact ⟨r, (Cache.orderByLastUsedDesc_perm c).mem_iff.2 hr, rfl⟩

/-- Every row cut off by the `LIMIT` is at most as recent as every row kept. -/
theorem Cache.take_ge_drop (c : Cache) (n : Nat) (kept removed : CacheEntry)
    (hk : kept ∈ (Cache.orderByLastUsedDesc c).take n)
    (hr : removed ∈ (Cache.orderByLastUsedDesc c).drop n) :
    removed.LastUsed ≤ kept.LastUsed := by
  have hs := Cache.orderByLastUsedDesc_sorted c
  rw [← List.take_append_drop n (Cache.orderByLastUsedDesc c)] at hs
  exact (List.pairwise_append.1 hs).2.2 kept hk removed hr

theorem Cache.deleteOverflow_order {c : Cache} (hu : Cache.uniqueKeys c) (maxEntries : Int)
    (removed kept : CacheEntry) (hr : removed ∈ c)
    (hr' : removed ∉ Cache.deleteOverflow c maxEntries)
    (hk : kept ∈ Cache.deleteOverflow c maxEntries) :
    removed.LastUsed ≤ kept.LastUsed := by
  rw [Cache.mem_deleteOverflow_iff hu] at hr' hk
  have hmem : removed ∈ Cache.orderByLastUsedDesc c :=
    (Cache.orderByLastUsedDesc_perm c).mem_iff.2 hr
  rw [← List.take_append_drop maxEntries.toNat (Cache.orderByLastUsedDesc c),
    List.mem_append] at hmem
  rcases hmem with h | h
  · exact absurd h hr'
  · exact Cache.take_ge_drop c _ kept removed hk h

theorem Cache.cutoff_of_range (now maxAge : Int) (hmin : -(2 ^ 63) < maxAge)
    (hmax : maxAge < 2 ^ 63) : Cache.cutoff now maxAge = unixSeconds (now - maxAge) := by
  unfold Cache.cutoff int64wrap
  congr 1
  omega

theorem Cache.cutoff_le (now maxAge : Int) (hmin : -(2 ^ 63) ≤ maxAge)
    (hmax : maxAge < 2 ^ 63) : Cache.cutoff now maxAge ≤ unixSeconds (now - maxAge) := by
  unfold Cache.cutoff unixSeconds int64wrap
  apply Int.ediv_le_ediv (by norm_num)
  omega

/-- A row last used at second `w` or later is kept by the capacity deletion
when the rows last used at second `w` or later number at most `maxEntries`. -/
theorem Cache.mem_deleteOverflow_of_recent (c : Cache) (maxEntries w : Int) (r : CacheEntry)
    (hr : r ∈ c) (hw : w ≤ r.LastUsed)
    (hle : ((c.filter (fun x => w ≤ x.LastUsed)).length : Int) ≤ maxEntries) :
    r ∈ Cache.deleteOverflow c maxEntries := by
  have hperm := Cache.orderByLastUsedDesc_perm c
  have hmem : r ∈ Cache.orderByLastUsedDesc c := hperm.mem_iff.2 hr
  have htake : r ∈ (Cache.orderByLastUsedDesc c).take maxEntries.toNat := by
    by_contra hnot
    rw [← List.take_append_drop maxEntries.toNat (Cache.orderByLastUsedDesc c),
      List.mem_append] at hmem
    rcases hmem with h | h
    · exact hnot h
    · have hlen : ((Cache.orderByLastUsedDesc c).filter (fun x => w ≤ x.LastUsed)).length
          = (c.filter (fun x => w ≤ x.LastUsed)).length := (hperm.filter _).length_eq
      have hdroplen : maxEntries.toNat < (Cache.orderByLastUsedDesc c).length := by
        by_contra hge
        rw [List.drop_eq_nil_of_le (not_lt.1 hge)] at h
        exact absurd h (List.not_mem_nil _)
      have h1 : ((Cache.orderByLastUsedDesc c).take maxEntries.toNat).filter
          (fun x => w ≤ x.LastUsed) = (Cache.orderByLastUsedDesc c).take maxEntries.toNat := by
        rw [List.filter_eq_self]
        intro x hx
        have := Cache.take_ge_drop c _ x r hx h
        simp only [decide_eq_true_eq]
        omega
      have h2 : 0 < (((Cache.orderByLastUsedDesc c).drop maxEntries.toNat).filter
          (fun x => w ≤ x.LastUsed)).length :=
        List.length_pos_of_mem (List.mem_filter.2 ⟨h, by simpa using hw⟩)
      have h3 : ((Cache.orderByLastUsedDesc c).filter (fun x => w ≤ x.LastUsed)).length
          = maxEntries.toNat + (((Cache.orderByLastUsedDesc c).drop maxEntries.toNat).filter
              (fun x => w ≤ x.LastUsed)).length := by
        conv_lhs => rw [← List.take_append_drop maxEntries.toNat (Cache.orderByLastUsedDesc c)]
        rw [List.filter_append, List.length_append, h1, List.length_take]
        omega
      omega
  unfold Cache.deleteOverflow
  simp only [List.mem_filter, decide_eq_true_eq, List.mem_map]
  exact ⟨hr, r, htake, rfl⟩

/-- C4 as stated fails at the most negative duration, `max_age = math.MinInt64`
nanoseconds: its negation wraps to itself, so the cutoff lies some 292 years
before `now` instead of after it.  At `now = 100 s` the three rows of
`Cache.sample`, last used at seconds 40, 60 and 90, are all older than
`now - max_age` (second 9223372136), and all three are left by `Cleanup`. -/
theorem cleanup_ttl_min_duration_counterexample :
    unixSeconds (100000000000 - (-9223372036854775808)) = 9223372136 ∧
    Cache.Cleanup Cache.sample 100000000000 (-9223372036854775808) 5 = Cache.sample ∧
    ¬ (∀ r ∈ Cache.Cleanup Cache.sample 100000000000 (-9223372036854775808) 5,
        ¬ r.LastUsed < unixSeconds (100000000000 - (-9223372036854775808))) := by
  refine ⟨by decide, by decide, ?_⟩
  intro h
  exact h ⟨"build", "make", 10, 7, 40⟩ (by decide) (by decide)

/-- C4, amended (TTL eviction): `max_age` is a `time.Duration`, a 64-bit count
of nanoseconds, and `cutoff` is the epoch second of `now - max_age`.  For every
`max_age` other than the most negative duration, no row with
`last_used < cutoff` is left by `Cleanup(max_age, max_entries)`; and for every
`max_age`, when the rows with `last_used >= cutoff` number at most
`max_entries`, each of them is still in the table afterwards. -/
theorem cleanup_ttl_eviction (c : Cache) (now maxAge maxEntries : Int)
    (hmin : -(2 ^ 63) ≤ maxAge) (hmax : maxAge < 2 ^ 63) :
    (maxAge ≠ -(2 ^ 63) →
      ∀ r ∈ Cache.Cleanup c now maxAge maxEntries,
        ¬ r.LastUsed < unixSeconds (now - maxAge)) ∧
    (((c.filter (fun r => unixSeconds (now - maxAge) ≤ r.LastUsed)).length : Int) ≤ maxEntries →
      ∀ r ∈ c, unixSeconds (now - maxAge) ≤ r.LastUsed →
        r ∈ Cache.Cleanup c now maxAge maxEntries) := by
  constructor
  · intro hne r hr
    have hsub : r ∈ Cache.deleteExpired c now maxAge := by
      unfold Cache.Cleanup at hr
      simp only at hr
      split at hr
      · exact List.mem_of_mem_filter hr
      · exact hr
    rw [← Cache.cutoff_of_range now maxAge (lt_of_le_of_ne hmin (Ne.symm hne)) hmax]
    simpa [Cache.deleteExpired] using (List.mem_filter.1 hsub).2
  · intro hle r hr hrecent
    have hcut := Cache.cutoff_le now maxAge hmin hmax
    have hmem : r ∈ Cache.deleteExpired c now maxAge := by
      unfold Cache.deleteExpired
      exact List.mem_filter.2 ⟨hr, by simp only [not_lt, decide_eq_true_eq]; omega⟩
    unfold Cache.Cleanup
    simp only
    split
    · apply Cache.mem_deleteOverflow_of_recent _ maxEntries (unixSeconds (now - maxAge)) r
        hmem hrecent
      have hsubl : ((Cache.deleteExpired c now maxAge).filter
          (fun x => unixSeconds (now - maxAge) ≤ x.LastUsed)).length
          ≤ (c.filter (fun x => unixSeconds (now - maxAge) ≤ x.LastUsed)).length :=
        ((List.filter_sublist _).filter _).length_le
      omega
    · exact hmem

/-- Witness for amended C4 on `Cache.sample` at `now = 100 s`, `max_age = 50 s`,
`max_entries = 2`: the two rows inside the window survive and the row last used
at second 40 is gone. -/
theorem cleanup_ttl_eviction_witness :
    (((Cache.sample.filter
        (fun r => unixSeconds (100000000000 - 50000000000) ≤ r.LastUsed)).length : Int) ≤ 2) ∧
    (⟨"test", "make test", 60, 0, 60⟩ : CacheEntry)
      ∈ Cache.Cleanup Cache.sample 100000000000 50000000000 2 ∧
    (⟨"build", "make", 10, 7, 40⟩ : CacheEntry)
      ∉ Cache.Cleanup Cache.sample 100000000000 50000000000 2 :=
  ⟨by decide,
   (cleanup_ttl_eviction Cache.sample 100000000000 50000000000 2 (by decide) (by decide)).2
     (by decide) _ (by decide) (by decide),
   fun h => (cleanup_ttl_eviction Cache.sample 100000000000 50000000000 2
     (by decide) (by decide)).1 (by decide) _ h (by decide)⟩

/-- C5 as stated fails at `max_entries = 0`: three rows are left by the TTL
deletion, which exceeds 0, and `Cleanup` still leaves three rows, not 0. -/
theorem cleanup_capacity_zero_counterexample :
    Cache.uniqueKeys Cache.sample ∧
    ((Cache.deleteExpired Cache.sample 100000000000 90000000000).length : Int) > 0 ∧
    (Cache.Cleanup Cache.sample 100000000000 90000000000 0).length = 3 := by
  decide

/-- C5, amended (capacity eviction count): on a table with unique keys, for
`max_entries > 0`, `Cleanup` leaves exactly `max_entries` rows when the TTL
deletion leaves more than that, and leaves the result of the TTL deletion as it
is otherwise; for `max_entries <= 0` the capacity step is skipped and `Cleanup`
leaves the result of the TTL deletion as it is. -/
theorem cleanup_capacity_count (c : Cache) (now maxAge maxEntries : Int)
    (hu : Cache.uniqueKeys c) :
    (0 < maxEntries → maxEntries < ((Cache.deleteExpired c now maxAge).length : Int) →
      ((Cache.Cleanup c now maxAge maxEntries).length : Int) = maxEntries) ∧
    (0 < maxEntries → ((Cache.deleteExpired c now maxAge).length : Int) ≤ maxEntries →
      Cache.Cleanup c now maxAge maxEntries = Cache.deleteExpired c now maxAge) ∧
    (maxEntries ≤ 0 →
      Cache.Cleanup c now maxAge maxEntries = Cache.deleteExpired c now maxAge) := by
  refine ⟨?_, ?_, ?_⟩
  · intro hpos hlt
    unfold Cache.Cleanup
    simp only [gt_iff_lt, hpos, if_true]
    rw [Cache.length_deleteOverflow (Cache.uniqueKeys_deleteExpired c now maxAge hu)]
    omega
  · intro hpos hle
    unfold Cache.Cleanup
    simp only [gt_iff_lt, hpos, if_true]
    exact Cache.deleteOverflow_eq_self _ _ hle
  · intro hle
    unfold Cache.Cleanup
    simp only [gt_iff_lt, not_lt.2 hle, if_false]

/-- Witness for amended C5 on `Cache.sample`: nothing expires, `max_entries = 2`
is exceeded by the three rows, and two rows are left. -/
theorem cleanup_capacity_count_witness :
    Cache.uniqueKeys Cache.sample ∧ (0 : Int) < 2 ∧
    (2 : Int) < ((Cache.deleteExpired Cache.sample 100000000000 90000000000).length : Int) ∧
    ((Cache.Cleanup Cache.sample 100000000000 90000000000 2).length : Int) = 2 :=
  ⟨by decide, by decide, by decide,
   (cleanup_capacity_count Cache.sample 100000000000 90000000000 2 (by decide)).1
     (by decide) (by decide)⟩

/-- C6 (eviction order): on a table with unique keys and for `max_entries > 0`,
every row removed by the capacity step of `Cleanup` has `last_used` at most the
`last_used` of every surviving row, whatever the hit counts; in particular a row
with more hits and an older `last_used` never survives while a row with fewer
hits and a more recent `last_used` is evicted. -/
theorem cleanup_eviction_order (c : Cache) (now maxAge maxEntries : Int)
    (hu : Cache.uniqueKeys c) (hpos : 0 < maxEntries) :
    (∀ removed ∈ Cache.deleteExpired c now maxAge,
        removed ∉ Cache.Cleanup c now maxAge maxEntries →
        ∀ kept ∈ Cache.Cleanup c now maxAge maxEntries,
          removed.LastUsed ≤ kept.LastUsed) ∧
    (∀ old ∈ Cache.deleteExpired c now maxAge, ∀ recent ∈ Cache.deleteExpired c now maxAge,
        recent.HitCount < old.HitCount → old.LastUsed < recent.LastUsed →
        old ∈ Cache.Cleanup c now maxAge maxEntries →
        recent ∈ Cache.Cleanup c now maxAge maxEntries) := by
  have hu1 := Cache.uniqueKeys_deleteExpired c now maxAge hu
  have hC : Cache.Cleanup c now maxAge maxEntries
      = Cache.deleteOverflow (Cache.deleteExpired c now maxAge) maxEntries := by
    unfold Cache.Cleanup
    simp only [gt_iff_lt, hpos, if_true]
  have main : ∀ removed ∈ Cache.deleteExpired c now maxAge,
      removed ∉ Cache.Cleanup c now maxAge maxEntries →
      ∀ kept ∈ Cache.Cleanup c now maxAge maxEntries, removed.LastUsed ≤ kept.LastUsed := by
    intro removed hr hr' kept hk
    rw [hC] at hr' hk
    exact Cache.deleteOverflow_order hu1 maxEntries removed kept hr hr' hk
  refine ⟨main, ?_⟩
  intro old _ recent hrecent _ hlt hold
  by_contra hne
  exact absurd (main recent hrecent hne old hold) (not_le.2 hlt)

/-- Witness for C6 on `Cache.sample` with `max_entries = 1`: `build` (7 hits,
last used at second 40) is evicted and `push` (1 hit, last used at second 90)
survives. -/
theorem cleanup_eviction_order_witness :
    Cache.uniqueKeys Cache.sample ∧ (0 : Int) < 1 ∧
    (⟨"build", "make", 10, 7, 40⟩ : CacheEntry)
      ∉ Cache.Cleanup Cache.sample 100000000000 90000000000 1 ∧
    (⟨"push", "git push", 80, 1, 90⟩ : CacheEntry)
      ∈ Cache.Cleanup Cache.sample 100000000000 90000000000 1 ∧
    (40 : Int) ≤ 90 :=
  ⟨by decide, by decide, by decide, by decide,
   (cleanup_eviction_order Cache.sample 100000000000 90000000000 1 (by decide) (by decide)).1
     ⟨"build", "make", 10, 7, 40⟩ (by decide) (by decide)
     ⟨"push", "git push", 80, 1, 90⟩ (by decide)⟩

/-! ## Properties of the usage ledger aggregation -/

theorem int64wrap_add_left (a b : Int) : int64wrap (int64wrap a + b) = int64wrap (a + b) := by
  unfold int64wrap
  omega

theorem int64wrap_of_range (x : Int) (h1 : -(2 ^ 63) ≤ x) (h2 : x < 2 ^ 63) :
    int64wrap x = x := by
  unfold int64wrap
  omega

theorem GoMap.get_append_single {α : Type} (m : GoMap α) (k k' : String) (v : α) :
    GoMap.get (m ++ [(k, v)]) k'
      = (GoMap.get m k').orElse (fun _ => if k' = k then some v else none) := by
  unfold GoMap.get
  induction m with
  | nil =>
    by_cases h : k' = k
    · simp [List.lookup, h]
    · have : (k' == k) = false := by simpa using h
      simp [List.lookup, h, this]
  | cons p m ih =>
    obtain ⟨a, b⟩ := p
    by_cases h : k' = a
    · subst h; simp [List.lookup]
    · have : (k' == a) = false := by simpa using h
      simp only [List.cons_append, List.lookup, this]
      exact ih

theorem GoMap.get_modify {α : Type} (m : GoMap α) (k k' : String) (f : α → α) :
    GoMap.get (GoMap.modify m k f) k'
      = if k' = k then (GoMap.get m k').map f else GoMap.get m k' := by
  unfold GoMap.get GoMap.modify
  induction m with
  | nil => simp [List.lookup]
  | cons p m ih =>
    obtain ⟨a, b⟩ := p
    rw [List.map_cons, List.lookup_cons, List.lookup_cons, ih]
    by_cases h : k' = a
    · subst h
      by_cases hk : k' = k <;> simp [hk]
    · have h1 : (k' == a) = false := by simpa using h
      simp only [h1]

/-- The lookup after `if m[k] == nil { m[k] = &v }` followed by updates `f`
through `m[k]`. -/
theorem GoMap.get_ensure_modify {α : Type} (m : GoMap α) (k k' : String) (v : α) (f : α → α) :
    GoMap.get (GoMap.modify (GoMap.ensure m k v) k f) k'
      = if k' = k then some (f ((GoMap.get m k).getD v)) else GoMap.get m k' := by
  rw [GoMap.get_modify]
  unfold GoMap.ensure
  by_cases hk : k' = k
  · subst hk
    cases hm : GoMap.get m k' with
    | none => simp [hm, GoMap.get_append_single]
    | some x => simp [hm]
  · cases hm : GoMap.get m k with
    | none =>
      simp only [hk, if_false, GoMap.get_append_single]
      cases GoMap.get m k' <;> simp [Option.orElse]
    | some x => simp [hk]

theorem AggregateByMethod_snoc (rs : List Record) (r : Record) :
    AggregateByMethod (rs ++ [r]) = AggregateByMethod.step (AggregateByMethod rs) r := by
  simp [AggregateByMethod, List.foldl_append]

/-- The lookup of `m` in the result of `AggregateByMethod`, with the sums as the
Go `int`s they are. -/
theorem AggregateByMethod_get (records : List Record) (m : String) :
    (AggregateByMethod records).get m =
      if ∃ r ∈ records, r.Method = m then
        some { Method := m,
               Count := int64wrap (records.countP (fun r => r.Method = m)),
               InputTokens := int64wrap
                 ((records.filter (fun r => r.Method = m)).map Record.InputTokens).sum,
               OutputTokens := int64wrap
                 ((records.filter (fun r => r.Method = m)).map Record.OutputTokens).sum }
      else none := by
  induction records using List.reverseRecOn with
  | nil => simp [AggregateByMethod, GoMap.get]
  | append_singleton rs r ih =>
    rw [AggregateByMethod_snoc]
    unfold AggregateByMethod.step
    simp only
    rw [GoMap.get_ensure_modify]
    by_cases hm : m = r.Method
    · subst hm
      have hex : ∃ x ∈ rs ++ [r], x.Method = r.Method := ⟨r, by simp, rfl⟩
      rw [if_pos rfl, if_pos hex, ih]
      by_cases hold : ∃ x ∈ rs, x.Method = r.Method
      · simp only [if_pos hold, Option.getD_some, List.countP_append, List.filter_append,
          List.map_append, List.sum_append, int64wrap_add_left]
        simp
      · have hnone : ∀ x ∈ rs, ¬ x.Method = r.Method := fun x hx h => hold ⟨x, hx, h⟩
        have hf : rs.filter (fun x => x.Method = r.Method) = [] := by
          rw [List.filter_eq_nil_iff]
          intro x hx
          simpa using hnone x hx
        have hc : rs.countP (fun x => x.Method = r.Method) = 0 := by
          rw [List.countP_eq_zero]
          intro x hx
          simpa using hnone x hx
        simp only [if_neg hold, Option.getD_none, List.countP_append, List.filter_append,
          List.map_append, List.sum_append, hf, hc]
        simp
    · have hne : ¬ r.Method = m := fun e => hm e.symm
      have hiff : (∃ x ∈ rs ++ [r], x.Method = m) ↔ ∃ x ∈ rs, x.Method = m := by
        constructor
        · rintro ⟨x, hx, hxm⟩
          rcases List.mem_append.1 hx with h | h
          · exact ⟨x, h, hxm⟩
          · rw [List.mem_singleton] at h
            subst h
            exact absurd hxm hne
        · rintro ⟨x, hx, hxm⟩
          exact ⟨x, List.mem_append_left _ hx, hxm⟩
      rw [if_neg hm, ih]
      simp only [hiff, List.countP_append, List.filter_append, List.map_append, List.sum_append]
      simp [hne]

/-- C10 (AggregateByMethod matches a grouped linear scan): `m` is a key of the
result iff some record has method `m`, and then `result[m]` has `Method = m`,
`Count` the number of records with method `m` and `InputTokens`, `OutputTokens`
the sums of those fields over exactly those records, as Go `int`s; these are
the exact number and sums whenever they fit in 64 bits. -/
theorem aggregateByMethod_grouped_scan (records : List Record) (m : String) :
    (((AggregateByMethod records).get m).isSome ↔ ∃ r ∈ records, r.Method = m) ∧
    (∀ st, (AggregateByMethod records).get m = some st →
      st.Method = m ∧
      st.Count = int64wrap (records.countP (fun r => r.Method = m)) ∧
      st.InputTokens = int64wrap
        ((records.filter (fun r => r.Method = m)).map Record.InputTokens).sum ∧
      st.OutputTokens = int64wrap
        ((records.filter (fun r => r.Method = m)).map Record.OutputTokens).sum) ∧
    (∀ st, (AggregateByMethod records).get m = some st →
      ((records.countP (fun r => r.Method = m) : Nat) : Int) < 2 ^ 63 →
      -(2 ^ 63) ≤ ((records.filter (fun r => r.Method = m)).map Record.InputTokens).sum →
      ((records.filter (fun r => r.Method = m)).map Record.InputTokens).sum < 2 ^ 63 →
      -(2 ^ 63) ≤ ((records.filter (fun r => r.Method = m)).map Record.OutputTokens).sum →
      ((records.filter (fun r => r.Method = m)).map Record.OutputTokens).sum < 2 ^ 63 →
      st.Count = records.countP (fun r => r.Method = m) ∧
      st.InputTokens = ((records.filter (fun r => r.Method = m)).map Record.InputTokens).sum ∧
      st.OutputTokens
        = ((records.filter (fun r => r.Method = m)).map Record.OutputTokens).sum) := by
  have hget := AggregateByMethod_get records m
  have hfields : ∀ st, (AggregateByMethod records).get m = some st →
      st.Method = m ∧
      st.Count = int64wrap (records.countP (fun r => r.Method = m)) ∧
      st.InputTokens = int64wrap
        ((records.filter (fun r => r.Method = m)).map Record.InputTokens).sum ∧
      st.OutputTokens = int64wrap
        ((records.filter (fun r => r.Method = m)).map Record.OutputTokens).sum := by
    intro st hst
    rw [hget] at hst
    split at hst
    · cases hst
      exact ⟨rfl, rfl, rfl, rfl⟩
    · cases hst
  refine ⟨?_, hfields, ?_⟩
  · rw [hget]
    split <;> simp_all
  · intro st hst hc hi1 hi2 ho1 ho2
    obtain ⟨-, h1, h2, h3⟩ := hfields st hst
    rw [h1, h2, h3]
    exact ⟨int64wrap_of_range _ (by omega) hc, int64wrap_of_range _ hi1 hi2,
      int64wrap_of_range _ ho1 ho2⟩

/-- Witness for C10: records with the methods predict, predict, complete give
`result["predict"].Count = 2`, with the token sums 30 and 3. -/
theorem aggregateByMethod_grouped_scan_witness :
    (AggregateByMethod [Record.sample "predict" "p" "m" 10 1,
        Record.sample "predict" "p" "m" 20 2, Record.sample "complete" "p" "m" 5 5]).get "predict"
      = some ⟨"predict", 2, 30, 3⟩ ∧
    (2 : Int) = ([Record.sample "predict" "p" "m" 10 1, Record.sample "predict" "p" "m" 20 2,
        Record.sample "complete" "p" "m" 5 5].countP (fun r => r.Method = "predict") : Nat) ∧
    (30 : Int) = (([Record.sample "predict" "p" "m" 10 1, Record.sample "predict" "p" "m" 20 2,
        Record.sample "complete" "p" "m" 5 5].filter
          (fun r => r.Method = "predict")).map Record.InputTokens).sum ∧
    (3 : Int) = (([Record.sample "predict" "p" "m" 10 1, Record.sample "predict" "p" "m" 20 2,
        Record.sample "complete" "p" "m" 5 5].filter
          (fun r => r.Method = "predict")).map Record.OutputTokens).sum :=
  ⟨by decide,
   (aggregateByMethod_grouped_scan [Record.sample "predict" "p" "m" 10 1,
        Record.sample "predict" "p" "m" 20 2, Record.sample "complete" "p" "m" 5 5] "predict").2.2
      ⟨"predict", 2, 30, 3⟩ (by decide) (by decide) (by decide) (by decide) (by decide)
      (by decide)⟩

/-- C9 fails on the code: the map key `Provider + ":" + Model` is the same for
the distinct pairs (`ollama`, `llama3:8b`) and (`ollama:llama3`, `8b`), so
`AggregateByProviderModel` returns a single entry, labelled with the first pair
and counting the records of both. -/
theorem aggregateByProviderModel_key_collision :
    AggregateByProviderModel
        [Record.sample "predict" "ollama" "llama3:8b" 10 1,
         Record.sample "predict" "ollama:llama3" "8b" 20 2]
      = [⟨"ollama", "llama3:8b", 2, 30, 3, 0⟩] := by
  decide

/-! ## Properties of the cache key -/

set_option maxRecDepth 100000

theorem String.append_right_cancel_iff (s t t' : String) : s ++ t = s ++ t' ↔ t = t' := by
  constructor
  · intro h
    have h' := congrArg String.data h
    simp only [String.data_append] at h'
    exact String.ext (List.append_cancel_left h')
  · intro h; rw [h]

theorem String.append_left_cancel_iff (s s' t : String) : s ++ t = s' ++ t ↔ s = s' := by
  constructor
  · intro h
    have h' := congrArg String.data h
    simp only [String.data_append] at h'
    exact String.ext (List.append_cancel_right h')
  · intro h; rw [h]

/-- C7 as stated fails: the history `["l", "ll"]` and its permutation
`["ll", "l"]` are different sequences, and `["make", "test"]` differs from
`["maketest"]` in the history only, yet in both cases the bytes digested are the
same, and so is the fingerprint, whatever the digest function. -/
theorem generateCacheKey_collision_counterexample :
    (["l", "ll"] : List String) ≠ ["ll", "l"] ∧ List.Perm ["l", "ll"] ["ll", "l"] ∧
    cacheKeyInput ["l", "ll"] "/repo" "main" = cacheKeyInput ["ll", "l"] "/repo" "main" ∧
    (∀ sha256hex : String → String,
      generateCacheKey sha256hex ["l", "ll"] "/repo" "main"
        = generateCacheKey sha256hex ["ll", "l"] "/repo" "main") ∧
    (["make", "test"] : List String) ≠ ["maketest"] ∧
    cacheKeyInput ["make", "test"] "/repo" "main" = cacheKeyInput ["maketest"] "/repo" "main" ∧
    (∀ sha256hex : String → String,
      generateCacheKey sha256hex ["make", "test"] "/repo" "main"
        = generateCacheKey sha256hex ["maketest"] "/repo" "main") := by
  have h1 : cacheKeyInput ["l", "ll"] "/repo" "main"
      = cacheKeyInput ["ll", "l"] "/repo" "main" := by decide
  have h2 : cacheKeyInput ["make", "test"] "/repo" "main"
      = cacheKeyInput ["maketest"] "/repo" "main" := by decide
  refine ⟨by decide, by decide, h1, ?_, by decide, h2, ?_⟩
  · intro sha256hex; unfold generateCacheKey; rw [h1]
  · intro sha256hex; unfold generateCacheKey; rw [h2]

/-- C7, amended (fingerprint sensitivity): `generateCacheKey` is deterministic,
the fingerprint being a function of the digested bytes, which are the history
entries, `cwd` and `branch` written one after the other without separators.
Changing only `cwd`, or only `branch`, changes the digested bytes; changing only
the history (a permutation included) changes them exactly when it changes the
concatenation of the history entries; and whenever the digested bytes change the
fingerprint changes, barring a collision of the truncated digest: two
fingerprints are equal exactly when the digested bytes are equal or collide. -/
theorem generateCacheKey_sensitivity (sha256hex : String → String)
    (history history' : List String) (cwd cwd' branch branch' : String) :
    (cacheKeyInput history cwd branch = cacheKeyInput history' cwd' branch' →
      generateCacheKey sha256hex history cwd branch
        = generateCacheKey sha256hex history' cwd' branch') ∧
    (cwd ≠ cwd' →
      cacheKeyInput history cwd branch ≠ cacheKeyInput history cwd' branch ∧
      (¬ digestCollision sha256hex (cacheKeyInput history cwd branch)
            (cacheKeyInput history cwd' branch) →
        generateCacheKey sha256hex history cwd branch
          ≠ generateCacheKey sha256hex history cwd' branch)) ∧
    (branch ≠ branch' →
      cacheKeyInput history cwd branch ≠ cacheKeyInput history cwd branch' ∧
      (¬ digestCollision sha256hex (cacheKeyInput history cwd branch)
            (cacheKeyInput history cwd branch') →
        generateCacheKey sha256hex history cwd branch
          ≠ generateCacheKey sha256hex history cwd branch')) ∧
    (cacheKeyInput history cwd branch ≠ cacheKeyInput history' cwd branch
      ↔ String.join history ≠ String.join history') ∧
    (String.join history ≠ String.join history' →
      ¬ digestCollision sha256hex (cacheKeyInput history cwd branch)
          (cacheKeyInput history' cwd branch) →
      generateCacheKey sha256hex history cwd branch
        ≠ generateCacheKey sha256hex history' cwd branch) ∧
    (generateCacheKey sha256hex history cwd branch
        = generateCacheKey sha256hex history' cwd' branch'
      ↔ cacheKeyInput history cwd branch = cacheKeyInput history' cwd' branch' ∨
        digestCollision sha256hex (cacheKeyInput history cwd branch)
          (cacheKeyInput history' cwd' branch')) := by
  have hcwd : cwd ≠ cwd' →
      cacheKeyInput history cwd branch ≠ cacheKeyInput history cwd' branch := by
    intro hne h
    unfold cacheKeyInput at h
    rw [String.append_left_cancel_iff, String.append_right_cancel_iff] at h
    exact hne h
  have hbranch : branch ≠ branch' →
      cacheKeyInput history cwd branch ≠ cacheKeyInput history cwd branch' := by
    intro hne h
    unfold cacheKeyInput at h
    rw [String.append_right_cancel_iff] at h
    exact hne h
  have hhist : cacheKeyInput history cwd branch ≠ cacheKeyInput history' cwd branch
      ↔ String.join history ≠ String.join history' := by
    unfold cacheKeyInput
    rw [Ne, Ne, String.append_left_cancel_iff, String.append_left_cancel_iff]
  have hkey : ∀ (h1 h2 : List String) (c1 c2 b1 b2 : String),
      cacheKeyInput h1 c1 b1 ≠ cacheKeyInput h2 c2 b2 →
      ¬ digestCollision sha256hex (cacheKeyInput h1 c1 b1) (cacheKeyInput h2 c2 b2) →
      generateCacheKey sha256hex h1 c1 b1 ≠ generateCacheKey sha256hex h2 c2 b2 := by
    intro h1 h2 c1 c2 b1 b2 hne hcol heq
    exact hcol ⟨hne, heq⟩
  refine ⟨?_, ?_, ?_, hhist, ?_, ?_⟩
  · intro h
    unfold generateCacheKey
    rw [h]
  · intro hne
    exact ⟨hcwd hne, hkey _ _ _ _ _ _ (hcwd hne)⟩
  · intro hne
    exact ⟨hbranch hne, hkey _ _ _ _ _ _ (hbranch hne)⟩
  · intro hne
    exact hkey _ _ _ _ _ _ (hhist.2 hne)
  · constructor
    · intro heq
      by_cases hin : cacheKeyInput history cwd branch = cacheKeyInput history' cwd' branch'
      · exact Or.inl hin
      · exact Or.inr ⟨hin, heq⟩
    · rintro (hin | hcol)
      · unfold generateCacheKey
        rw [hin]
      · exact hcol.2

/-- Witness for amended C7 with SHA-256 as the digest: the fingerprint of the
history `git status`, `git add .` in `/repo` on `main` changes when only the
working directory changes, when only the branch changes, and when the two
history entries are exchanged. -/
theorem generateCacheKey_sensitivity_witness :
    generateCacheKey sha256Hex ["git status", "git add ."] "/repo" "main"
      = "8b638b6e4fb284ff2c15a7ad64ded00a" ∧
    generateCacheKey sha256Hex ["git status", "git add ."] "/repo" "main"
      ≠ generateCacheKey sha256Hex ["git status", "git add ."] "/home" "main" ∧
    generateCacheKey sha256Hex ["git status", "git add ."] "/repo" "main"
      ≠ generateCacheKey sha256Hex ["git status", "git add ."] "/repo" "dev" ∧
    generateCacheKey sha256Hex ["git status", "git add ."] "/repo" "main"
      ≠ generateCacheKey sha256Hex ["git add .", "git status"] "/repo" "main" :=
  ⟨by decide,
   ((generateCacheKey_sensitivity sha256Hex ["git status", "git add ."]
      ["git add .", "git status"] "/repo" "/home" "main" "dev").2.1 (by decide)).2 (by decide),
   ((generateCacheKey_sensitivity sha256Hex ["git status", "git add ."]
      ["git add .", "git status"] "/repo" "/home" "main" "dev").2.2.1 (by decide)).2 (by decide),
   (generateCacheKey_sensitivity sha256Hex ["git status", "git add ."]
      ["git add .", "git status"] "/repo" "/home" "main" "dev").2.2.2.2.1
      (by decide) (by decide)⟩

/-! ## Properties of the prompts -/

set_option maxRecDepth 100000

/-- C8 fails on the code for the request kind nl2cmd: `runNL2Cmd` builds its
prompt from the request history as received.  On a request whose history is
`export DB_PASSWORD=hunter2`, which `FilterSensitive` turns into
`export DB_[REDACTED]`, the prompts of `runPredict` and `runComplete` carry the
filtered line and the prompt of `runNL2Cmd` carries the password. -/
theorem runNL2Cmd_prompt_embeds_raw_history :
    FilterSensitive Request.sample.History = ["export DB_[REDACTED]"] ∧
    runNL2Cmd.prompt Request.sample = some (
      "You are a shell command generator.\n\n" ++
      "Task: Convert natural language description to a shell command.\n" ++
      "Context:\n" ++
      "- Current directory: /repo\n" ++
      "- Description: list files\n" ++
      "- Recent commands (for context):\n" ++
      "  1. export DB_PASSWORD=hunter2\n" ++
      "\nGenerate a safe, practical shell command that accomplishes the task.\n" ++
      "Rules:\n" ++
      "- Return ONLY the command, no explanation\n" ++
      "- Ensure the command is safe (no destructive operations without confirmation)\n" ++
      "- Use common Unix/Linux tools\n" ++
      "- Be concise and practical\n" ++
      "- Do not include markdown code blocks\n\n" ++
      "Command:") ∧
    runNL2Cmd.prompt Request.sample
      ≠ some (buildNL2CmdPrompt "list files" "/repo"
          (FilterSensitive Request.sample.History) "") ∧
    runComplete.prompt 2 Request.sample
      = some (buildCompletePrompt "psql" ["export DB_[REDACTED]"] "/repo" "") ∧
    runPredict.prompt Request.sample
      = buildPredictPrompt ["export DB_[REDACTED]"] "/repo" "" "" := by
  have hf : FilterSensitive Request.sample.History = ["export DB_[REDACTED]"] := by decide
  refine ⟨hf, by decide, ?_, ?_, ?_⟩
  · rw [hf]; decide
  · unfold runComplete.prompt
    rw [hf]; decide
  · unfold runPredict.prompt
    rw [hf]; rfl

/-! ## The cache entry invariant -/

theorem unixSeconds_mono {a b : Int} (h : a ≤ b) : unixSeconds a ≤ unixSeconds b := by
  unfold unixSeconds
  exact Int.ediv_le_ediv (by norm_num) h

theorem Cache.touch_keys (c : Cache) (t : Int) (k : String) :
    (Cache.touch c t k).map CacheEntry.ContextHash = c.map CacheEntry.ContextHash := by
  unfold Cache.touch
  rw [List.map_map]
  apply List.map_congr_left
  intro r _
  by_cases h : r.ContextHash = k <;> simp [h]

theorem Cache.mem_touch {c : Cache} {t : Int} {k : String} {e' : CacheEntry}
    (h : e' ∈ Cache.touch c t k) :
    ∃ e ∈ c, e'.ContextHash = e.ContextHash ∧ e'.CreatedAt = e.CreatedAt ∧
      (e' = e ∨ (e'.HitCount = e.HitCount + 1 ∧ e'.LastUsed = t)) := by
  unfold Cache.touch at h
  obtain ⟨e, he, rfl⟩ := List.mem_map.1 h
  refine ⟨e, he, ?_⟩
  by_cases hk : e.ContextHash = k <;> simp [hk]

theorem Cache.mem_Get {c : Cache} {now : Int} {k : String} {e' : CacheEntry}
    (h : e' ∈ (Cache.Get c now k).2) :
    ∃ e ∈ c, e'.ContextHash = e.ContextHash ∧ e'.CreatedAt = e.CreatedAt ∧
      (e' = e ∨ (e'.HitCount = e.HitCount + 1 ∧ e'.LastUsed = unixSeconds now)) := by
  unfold Cache.Get at h
  split at h
  · exact ⟨e', h, rfl, rfl, Or.inl rfl⟩
  · exact Cache.mem_touch h

theorem Cache.Get_keys (c : Cache) (now : Int) (k : String) :
    (Cache.Get c now k).2.map CacheEntry.ContextHash = c.map CacheEntry.ContextHash := by
  unfold Cache.Get
  split
  · rfl
  · exact Cache.touch_keys c _ k

theorem Cache.Cleanup_sublist (c : Cache) (now maxAge maxEntries : Int) :
    List.Sublist (Cache.Cleanup c now maxAge maxEntries) c := by
  unfold Cache.Cleanup
  simp only
  split
  · exact (List.filter_sublist _).trans (List.filter_sublist _)
  · exact List.filter_sublist _

theorem Cache.uniqueKeys_Set (c : Cache) (now : Int) (k cmd : String)
    (hu : Cache.uniqueKeys c) : Cache.uniqueKeys (Cache.Set c now k cmd) := by
  unfold Cache.uniqueKeys Cache.Set
  rw [List.map_append, List.nodup_append]
  refine ⟨Cache.uniqueKeys_of_sublist (List.filter_sublist _) hu, by simp, ?_⟩
  intro a ha hb
  simp only [List.map_cons, List.map_nil, List.mem_singleton] at hb
  obtain ⟨r, hr, rfl⟩ := List.mem_map.1 ha
  exact Cache.Set_others c k r hr hb

/-- Every operation keeps the invariant, when the clock does not go back. -/
theorem Cache.Inv_step (c : Cache) (T now : Int) (op : Cache.Op) (hT : T ≤ now)
    (h : Cache.Inv c T) : Cache.Inv (Cache.step c now op) now := by
  obtain ⟨hu, he⟩ := h
  have hmono := unixSeconds_mono hT
  cases op with
  | Set k cmd =>
    refine ⟨Cache.uniqueKeys_Set c now k cmd hu, ?_⟩
    intro e hmem
    simp only [Cache.step, Cache.Set, List.mem_append, List.mem_singleton] at hmem
    rcases hmem with hmem | rfl
    · obtain ⟨h1, h2, h3⟩ := he e (List.mem_of_mem_filter hmem)
      exact ⟨h1, le_trans h2 hmono, h3⟩
    · exact ⟨le_refl _, le_refl _, le_refl _⟩
  | Get k =>
    refine ⟨?_, ?_⟩
    · unfold Cache.uniqueKeys
      simp only [Cache.step]
      rw [Cache.Get_keys]
      exact hu
    · intro e' hmem
      obtain ⟨e, hin, -, hc, hcase⟩ := Cache.mem_Get hmem
      obtain ⟨h1, h2, h3⟩ := he e hin
      rcases hcase with rfl | ⟨hh, hl⟩
      · exact ⟨h1, le_trans h2 hmono, h3⟩
      · rw [hc, hl, hh]
        exact ⟨le_trans h1 (le_trans h2 hmono), le_refl _, by omega⟩
  | Cleanup maxAge maxEntries =>
    have hs := Cache.Cleanup_sublist c now maxAge maxEntries
    refine ⟨Cache.uniqueKeys_of_sublist hs hu, ?_⟩
    intro e hmem
    obtain ⟨h1, h2, h3⟩ := he e (hs.subset hmem)
    exact ⟨h1, le_trans h2 hmono, h3⟩

theorem Cache.Inv_run (ops : List (Int × Cache.Op)) :
    ∀ (c : Cache) (T : Int), Cache.Inv c T → List.Chain (· ≤ ·) T (ops.map Prod.fst) →
      ∃ T', Cache.Inv (Cache.run c ops) T' := by
  induction ops with
  | nil =>
    intro c T h _
    exact ⟨T, h⟩
  | cons op ops ih =>
    intro c T h hch
    simp only [List.map_cons, List.chain_cons] at hch
    obtain ⟨T', hInv⟩ := ih (Cache.step c op.1 op.2) op.1
      (Cache.Inv_step c T op.1 op.2 hch.1 h) hch.2
    exact ⟨T', by simpa [Cache.run] using hInv⟩

theorem Cache.Inv_run_empty (ops : List (Int × Cache.Op))
    (hclock : List.Chain' (· ≤ ·) (ops.map Prod.fst)) : ∃ T, Cache.Inv (Cache.run [] ops) T := by
  have hnil : ∀ T, Cache.Inv [] T := fun T => ⟨List.nodup_nil, fun e he => by simp at he⟩
  cases ops with
  | nil => exact ⟨0, hnil 0⟩
  | cons op ops =>
    apply Cache.Inv_run (op :: ops) [] op.1 (hnil _)
    simp only [List.map_cons, List.chain_cons]
    exact ⟨le_refl _, by simpa [List.Chain'] using hclock⟩

/-- In a table with unique keys, one operation that is not a `Set` on the
fingerprint of a row leaves the row, if it leaves it at all, with a hit count at
least as large. -/
theorem Cache.step_hitCount (c : Cache) (now : Int) (op : Cache.Op)
    (hu : Cache.uniqueKeys c) (e e' : CacheEntry) (he : e ∈ c)
    (he' : e' ∈ Cache.step c now op) (hk : e'.ContextHash = e.ContextHash)
    (hop : ∀ cmd, op ≠ Cache.Op.Set e.ContextHash cmd) : e.HitCount ≤ e'.HitCount := by
  cases op with
  | Set k cmd =>
    have hne : e.ContextHash ≠ k := by
      intro h
      exact hop cmd (by rw [h])
    simp only [Cache.step, Cache.Set, List.mem_append, List.mem_singleton] at he'
    rcases he' with h | rfl
    · rw [Cache.eq_of_key_eq hu (List.mem_of_mem_filter h) he hk]
    · exact absurd hk.symm hne
  | Get k =>
    obtain ⟨e0, hin, hk0, -, hcase⟩ := Cache.mem_Get he'
    have : e0 = e := Cache.eq_of_key_eq hu hin he (hk0.symm.trans hk)
    subst this
    rcases hcase with rfl | ⟨hh, -⟩
    · exact le_refl _
    · omega
  | Cleanup maxAge maxEntries =>
    have hin := (Cache.Cleanup_sublist c now maxAge maxEntries).subset he'
    rw [Cache.eq_of_key_eq hu hin he hk]

/-- C18 (cache entry invariant): after every sequence of `Set`, `Get` and
`Cleanup` operations from the empty cache, each reading a clock that does not go
back, every stored entry has `last_used >= created_at` and `hit_count >= 0`,
no two entries share a fingerprint, and one more operation, unless it is a `Set`
on the fingerprint of an entry, leaves that entry (if it still exists) with a
hit count at least as large. -/
theorem cache_entry_invariant (ops : List (Int × Cache.Op))
    (hclock : List.Chain' (· ≤ ·) (ops.map Prod.fst)) :
    (∀ e ∈ Cache.run [] ops, e.LastUsed ≥ e.CreatedAt ∧ e.HitCount ≥ 0) ∧
    Cache.uniqueKeys (Cache.run [] ops) ∧
    (∀ (next : Int × Cache.Op), ∀ e ∈ Cache.run [] ops,
      ∀ e' ∈ Cache.run [] (ops ++ [next]), e'.ContextHash = e.ContextHash →
        (∀ cmd, next.2 ≠ Cache.Op.Set e.ContextHash cmd) → e.HitCount ≤ e'.HitCount) := by
  obtain ⟨T, hu, hInv⟩ := Cache.Inv_run_empty ops hclock
  refine ⟨fun e he => ⟨(hInv e he).1, (hInv e he).2.2⟩, hu, ?_⟩
  intro next e he e' he' hk hop
  have hrun : Cache.run [] (ops ++ [next]) = Cache.step (Cache.run [] ops) next.1 next.2 := by
    simp [Cache.run, List.foldl_append]
  rw [hrun] at he'
  exact Cache.step_hitCount _ next.1 next.2 hu e e' he he' hk hop

/-- Witness for C18: a `Set`, two `Get`s and a `Cleanup` with readings 5 s, 6 s,
6 s and 9 s leave the entry with `created_at = 5`, `last_used = 6` and two hits,
and one further `Get` does not lower the hit count. -/
theorem cache_entry_invariant_witness :
    List.Chain' (· ≤ ·)
      (([(5000000000, Cache.Op.Set "k" "ls"), (6000000000, Cache.Op.Get "k"),
         (6000000000, Cache.Op.Get "k"), (9000000000, Cache.Op.Cleanup 60000000000 10)] :
          List (Int × Cache.Op)).map Prod.fst) ∧
    (⟨"k", "ls", 5, 2, 6⟩ : CacheEntry) ∈ Cache.run []
      [(5000000000, Cache.Op.Set "k" "ls"), (6000000000, Cache.Op.Get "k"),
       (6000000000, Cache.Op.Get "k"), (9000000000, Cache.Op.Cleanup 60000000000 10)] ∧
    (2 : Int) ≤ 3 :=
  ⟨by simp, by decide,
   (cache_entry_invariant
      [(5000000000, Cache.Op.Set "k" "ls"), (6000000000, Cache.Op.Get "k"),
       (6000000000, Cache.Op.Get "k"), (9000000000, Cache.Op.Cleanup 60000000000 10)]
      (by simp)).2.2 (9500000000, Cache.Op.Get "k")
      ⟨"k", "ls", 5, 2, 6⟩ (by decide) ⟨"k", "ls", 5, 3, 9⟩ (by decide) rfl
      (fun cmd h => by cases h)⟩

/-! ## Properties of the sensitive-data filter -/

/-- Without a match `ReplaceAllString` returns its input. -/
theorem Regex.ReplaceAllString_of_find_none (r : Regex) (src repl : String)
    (h : r.find src.data = none) : r.ReplaceAllString src repl = src := by
  unfold Regex.ReplaceAllString
  simp [Regex.replaceAllFrom, h]

/-- With a match the result of `ReplaceAllString` contains the replacement. -/
theorem Regex.ReplaceAllString_of_find_some (r : Regex) (src repl : String)
    (h : (r.find src.data).isSome) : stringsContains (r.ReplaceAllString src repl) repl := by
  unfold stringsContains Regex.ReplaceAllString
  obtain ⟨⟨pre, m, post⟩, hx⟩ := Option.isSome_iff_exists.1 h
  simp only [Regex.replaceAllFrom, hx]
  cases pre with
  | cons a pre =>
    simp only [List.isEmpty_cons, Bool.false_and, Bool.and_false, Bool.not_false, Bool.or_false,
      if_true, Bool.false_eq_true, if_false, List.nil_append]
    exact ⟨a :: pre, r.replaceAllFrom repl.data src.length false [] post, by simp⟩
  | nil =>
    cases m with
    | cons b m =>
      simp only [List.isEmpty_cons, List.isEmpty_nil, Bool.and_false, Bool.and_true,
        Bool.not_false, Bool.true_or, if_true, Bool.false_eq_true, if_false, List.nil_append]
      exact ⟨[], r.replaceAllFrom repl.data src.length false [] post, by simp⟩
    | nil =>
      simp only [List.isEmpty_nil, Bool.and_self, Bool.not_true, Bool.false_or, if_true,
        List.nil_append]
      cases hsrc : src.data with
      | nil => exact ⟨[], [], by simp⟩
      | cons c rest =>
        exact ⟨[], r.replaceAllFrom repl.data (rest.length + 1) false [c] rest, by simp⟩

/-- One pattern of the filter applied to a text that carries the marker leaves
a text that carries the marker. -/
theorem Regex.ReplaceAllString_keeps_marker (r : Regex) (src repl : String)
    (h : stringsContains src repl) : stringsContains (r.ReplaceAllString src repl) repl := by
  cases hf : r.find src.data with
  | none => rw [Regex.ReplaceAllString_of_find_none r src repl hf]; exact h
  | some x => exact Regex.ReplaceAllString_of_find_some r src repl (by simp [hf])

theorem filter_fold_keeps_marker (ps : List Regex) (repl : String) :
    ∀ s : String, stringsContains s repl →
      stringsContains (ps.foldl (fun result p => p.ReplaceAllString result repl) s) repl := by
  induction ps with
  | nil => intro s h; exact h
  | cons p ps ih =>
    intro s h
    exact ih _ (Regex.ReplaceAllString_keeps_marker p s repl h)

theorem filter_fold_of_no_match (ps : List Regex) (repl s : String)
    (h : ps.any (fun p => p.MatchString s) = false) :
    ps.foldl (fun result p => p.ReplaceAllString result repl) s = s := by
  induction ps with
  | nil => rfl
  | cons p ps ih =>
    simp only [List.any_cons, Bool.or_eq_false_iff] at h
    have hnone : p.find s.data = none := by
      have := h.1
      unfold Regex.MatchString at this
      simpa using this
    simp only [List.foldl_cons, Regex.ReplaceAllString_of_find_none p s repl hnone]
    exact ih h.2

theorem filter_fold_of_match (ps : List Regex) (repl s : String)
    (h : ps.any (fun p => p.MatchString s) = true) :
    stringsContains (ps.foldl (fun result p => p.ReplaceAllString result repl) s) repl := by
  induction ps with
  | nil => simp at h
  | cons p ps ih =>
    simp only [List.foldl_cons]
    by_cases hp : p.MatchString s = true
    · exact filter_fold_keeps_marker ps repl _
        (Regex.ReplaceAllString_of_find_some p s repl hp)
    · have hnone : p.find s.data = none := by
        unfold Regex.MatchString at hp
        simpa using hp
      rw [Regex.ReplaceAllString_of_find_none p s repl hnone]
      apply ih
      simpa [hp] using h

/-- C20 (IsSensitive and filterCommand agree): a command `s` for which
`IsSensitive` is false is returned unchanged by `filterCommand` (and is left
unchanged as an element by `FilterSensitive`); for a command for which
`IsSensitive` is true the result of `filterCommand` contains the marker
`[REDACTED]`; and `FilterSensitive` returns a list of the length of its input
whose element number `i` is `filterCommand` of the input element number `i`. -/
theorem isSensitive_filterCommand_agree (s : String) (commands : List String) :
    (IsSensitive s = false → filterCommand s = s) ∧
    (∀ i : Nat, commands[i]? = some s → IsSensitive s = false →
      (FilterSensitive commands)[i]? = some s) ∧
    (IsSensitive s = true → stringsContains (filterCommand s) "[REDACTED]") ∧
    (FilterSensitive commands).length = commands.length ∧
    (∀ i : Nat, (FilterSensitive commands)[i]? = (commands[i]?).map filterCommand) := by
  have h1 : IsSensitive s = false → filterCommand s = s :=
    fun h => filter_fold_of_no_match sensitivePatterns "[REDACTED]" s h
  refine ⟨h1, ?_, ?_, ?_, ?_⟩
  · intro i hi hs
    simp only [FilterSensitive, List.getElem?_map, hi, Option.map_some', h1 hs]
  · exact fun h => filter_fold_of_match sensitivePatterns "[REDACTED]" s h
  · simp [FilterSensitive]
  · intro i
    simp [FilterSensitive]

/-! ## Properties of removeCodeBlock -/

theorem splitNewline_ne_nil (s : List Char) : splitNewline s ≠ [] := by
  cases s with
  | nil => simp [splitNewline]
  | cons c s =>
    unfold splitNewline
    split
    · simp
    · cases splitNewline s <;> simp [consToFirst]

theorem consToFirst_append (c : Char) (a b : List (List Char)) (ha : a ≠ []) :
    consToFirst c (a ++ b) = consToFirst c a ++ b := by
  cases a with
  | nil => exact absurd rfl ha
  | cons l ls => rfl

/-- Splitting at a newline: the lines before it followed by the lines after it. -/
theorem splitNewline_append (a b : List Char) :
    splitNewline (a ++ '\n' :: b) = splitNewline a ++ splitNewline b := by
  induction a with
  | nil => simp [splitNewline]
  | cons c a ih =>
    rw [List.cons_append]
    by_cases hc : c = '\n'
    · simp only [splitNewline, hc, if_true, ih, List.cons_append]
    · simp only [splitNewline, hc, if_false, ih]
      exact consToFirst_append c _ _ (splitNewline_ne_nil a)

theorem splitNewline_of_not_mem (a : List Char) (h : '\n' ∉ a) : splitNewline a = [a] := by
  induction a with
  | nil => rfl
  | cons c a ih =>
    have hc : ¬ c = '\n' := fun e => h (by simp [e])
    have ha : '\n' ∉ a := fun e => h (List.mem_cons_of_mem _ e)
    simp [splitNewline, hc, ih ha, consToFirst]

theorem joinNewline_consToFirst (c : Char) (ls : List (List Char)) (h : ls ≠ []) :
    joinNewline (consToFirst c ls) = c :: joinNewline ls := by
  cases ls with
  | nil => exact absurd rfl h
  | cons l ls =>
    cases ls <;> simp [joinNewline, consToFirst, List.intercalate, List.intersperse]

theorem joinNewline_nil_cons (ls : List (List Char)) (h : ls ≠ []) :
    joinNewline ([] :: ls) = '\n' :: joinNewline ls := by
  cases ls with
  | nil => exact absurd rfl h
  | cons l ls => simp [joinNewline, List.intercalate, List.intersperse]

/-- Joining the lines of a text gives the text back. -/
theorem joinNewline_splitNewline (a : List Char) : joinNewline (splitNewline a) = a := by
  induction a with
  | nil => simp [splitNewline, joinNewline, List.intercalate, List.intersperse]
  | cons c a ih =>
    unfold splitNewline
    split
    · rename_i hc
      rw [joinNewline_nil_cons _ (splitNewline_ne_nil a), ih, hc]
    · rw [joinNewline_consToFirst _ _ (splitNewline_ne_nil a), ih]

/-- A text that neither starts nor ends with white space is its own trimming. -/
theorem trimSpace_eq_self (a : List Char)
    (hhead : ∀ c, a.head? = some c → unicodeIsSpace c = false)
    (hlast : ∀ c, a.getLast? = some c → unicodeIsSpace c = false) : trimSpace a = a := by
  unfold trimSpace
  have h1 : a.dropWhile unicodeIsSpace = a := by
    cases a with
    | nil => rfl
    | cons c a => simp [List.dropWhile, hhead c rfl]
  rw [h1, List.rdropWhile_eq_self_iff]
  intro hl
  rw [hlast _ (List.getLast?_eq_getLast a hl)]
  simp

theorem trimSpace_head (a : List Char) :
    ∀ c, (trimSpace a).head? = some c → unicodeIsSpace c = false := by
  intro c hc
  unfold trimSpace at hc
  obtain ⟨t, ht⟩ := (List.rdropWhile_prefix (p := unicodeIsSpace)
    (l := a.dropWhile unicodeIsSpace))
  have hne : a.dropWhile unicodeIsSpace ≠ [] := by
    intro h
    rw [h] at hc
    simp at hc
  have hhead : (a.dropWhile unicodeIsSpace).head? = some c := by
    rw [← ht]
    cases hr : (a.dropWhile unicodeIsSpace).rdropWhile unicodeIsSpace with
    | nil => rw [hr] at hc; simp at hc
    | cons x xs => rw [hr] at hc; simpa using hc
  have := List.head_dropWhile_not unicodeIsSpace a hne
  rw [List.head?_eq_head hne] at hhead
  simp only [Option.some.injEq] at hhead
  rw [← hhead]
  simpa using this

theorem trimSpace_last (a : List Char) :
    ∀ c, (trimSpace a).getLast? = some c → unicodeIsSpace c = false := by
  intro c hc
  unfold trimSpace at hc
  have hne : (a.dropWhile unicodeIsSpace).rdropWhile unicodeIsSpace ≠ [] := by
    intro h
    rw [h] at hc
    simp at hc
  have := List.rdropWhile_last_not unicodeIsSpace (a.dropWhile unicodeIsSpace) hne
  rw [List.getLast?_eq_getLast _ hne] at hc
  simp only [Option.some.injEq] at hc
  rw [← hc]
  simpa using this

theorem trimSpace_idem (a : List Char) : trimSpace (trimSpace a) = trimSpace a :=
  trimSpace_eq_self _ (trimSpace_head a) (trimSpace_last a)

theorem removeCodeBlockChars_trimSpace (a : List Char) :
    removeCodeBlockChars (trimSpace a) = removeCodeBlockChars a := by
  unfold removeCodeBlockChars
  simp only [trimSpace_idem]

/-- The result on a trimmed reply made of an opening fence line (with a tag `L`), a
body `B` and a closing line `C` that is a fence up to white space. -/
theorem removeCodeBlockChars_fenced (L B C : List Char) (hL : '\n' ∉ L) (hC : '\n' ∉ C)
    (hfence : trimSpace C = fence)
    (hlast : ∀ c, C.getLast? = some c → unicodeIsSpace c = false) :
    removeCodeBlockChars (fence ++ L ++ '\n' :: (B ++ '\n' :: C)) = trimSpace B := by
  have hCne : C ≠ [] := by
    intro h
    rw [h] at hfence
    exact absurd hfence (by decide)
  have htrim : trimSpace (fence ++ L ++ '\n' :: (B ++ '\n' :: C))
      = fence ++ L ++ '\n' :: (B ++ '\n' :: C) := by
    apply trimSpace_eq_self
    · intro c hc
      simp only [fence, List.cons_append, List.head?_cons, Option.some.injEq] at hc
      rw [← hc]; decide
    · intro c hc
      apply hlast c
      rw [← hc]
      rw [show fence ++ L ++ '\n' :: (B ++ '\n' :: C) = (fence ++ L ++ '\n' :: (B ++ ['\n'])) ++ C
        by simp]
      rw [List.getLast?_append_of_ne_nil _ hCne]
  have hsplit : splitNewline (fence ++ L ++ '\n' :: (B ++ '\n' :: C))
      = (fence ++ L) :: (splitNewline B ++ [C]) := by
    rw [splitNewline_append, splitNewline_append, splitNewline_of_not_mem C hC,
      splitNewline_of_not_mem (fence ++ L)]
    · rfl
    · intro h
      rcases List.mem_append.1 h with h | h
      · exact absurd h (by decide)
      · exact hL h
  have hpre : fence.isPrefixOf (fence ++ L ++ '\n' :: (B ++ '\n' :: C)) = true := by
    simp [fence, List.isPrefixOf]
  have hlen : ((fence ++ L) :: (splitNewline B ++ [C])).length > 2 := by
    have := List.length_pos.2 (splitNewline_ne_nil B)
    simp only [List.length_cons, List.length_append, List.length_nil]
    omega
  unfold removeCodeBlockChars
  simp only [htrim, hpre, if_true, hsplit, hlen, List.drop_succ_cons, List.drop_zero]
  have hgl : (splitNewline B ++ [C]).getLastD [] = C := by
    simp [List.getLastD_eq_getLast?]
  rw [hgl, if_pos hfence, List.dropLast_concat, joinNewline_splitNewline]

theorem fenced_data (L B C : String) :
    ("```" ++ L ++ "\n" ++ B ++ "\n" ++ C).data
      = fence ++ L.data ++ '\n' :: (B.data ++ '\n' :: C.data) := by
  simp [String.data_append, fence]

/-- C16 as stated fails: the single-line reply with fences around `ls` begins
and ends with a fence and is returned as it is; a reply whose closing fence is
not on a line of its own keeps that fence at its end; and a body that itself
begins with a fence leaves a result that begins with a fence. -/
theorem removeCodeBlock_fences_counterexample :
    stringsHasPrefix (stringsTrimSpace "```ls```") "```" = true ∧
    stringsHasSuffix (stringsTrimSpace "```ls```") "```" = true ∧
    removeCodeBlock "```ls```" = "```ls```" ∧
    stringsHasPrefix (removeCodeBlock "```ls```") "```" = true ∧
    stringsHasSuffix (removeCodeBlock "```ls```") "```" = true ∧
    removeCodeBlock "```sh\ncd /tmp\nls```" = "cd /tmp\nls```" ∧
    removeCodeBlock "```\n```\nls\n```" = "```\nls" := by
  decide

/-- C16, amended (enclosing code fences are stripped): for every model reply
whose trimmed text is an opening line that begins with a fence (with or without
a language tag `L`), a body `B` and a closing line `C` that is a fence up to
white space, so that it has at least three lines, `removeCodeBlock` returns the
body with leading and trailing white space trimmed; this result does not begin
with a fence unless the trimmed body does, and does not end with a fence unless
the trimmed body does. -/
theorem removeCodeBlock_strips_fences (reply L B C : String)
    (hL : '\n' ∉ L.data) (hC : '\n' ∉ C.data) (hclose : stringsTrimSpace C = "```")
    (hform : stringsTrimSpace reply = "```" ++ L ++ "\n" ++ B ++ "\n" ++ C) :
    removeCodeBlock reply = stringsTrimSpace B ∧
    (stringsHasPrefix (stringsTrimSpace B) "```" = false →
      stringsHasPrefix (removeCodeBlock reply) "```" = false) ∧
    (stringsHasSuffix (stringsTrimSpace B) "```" = false →
      stringsHasSuffix (removeCodeBlock reply) "```" = false) := by
  have hform' : trimSpace reply.data = fence ++ L.data ++ '\n' :: (B.data ++ '\n' :: C.data) := by
    have := congrArg String.data hform
    rw [fenced_data] at this
    simpa [stringsTrimSpace] using this
  have hclose' : trimSpace C.data = fence := by
    have := congrArg String.data hclose
    simpa [stringsTrimSpace, fence] using this
  have hCne : C.data ≠ [] := by
    intro h
    rw [h] at hclose'
    exact absurd hclose' (by decide)
  have hlast : ∀ c, C.data.getLast? = some c → unicodeIsSpace c = false := by
    intro c hc
    apply trimSpace_last reply.data c
    rw [hform', ← hc]
    rw [show fence ++ L.data ++ '\n' :: (B.data ++ '\n' :: C.data)
        = (fence ++ L.data ++ '\n' :: (B.data ++ ['\n'])) ++ C.data by simp]
    rw [List.getLast?_append_of_ne_nil _ hCne]
  have hmain : removeCodeBlock reply = stringsTrimSpace B := by
    unfold removeCodeBlock stringsTrimSpace
    rw [← removeCodeBlockChars_trimSpace, hform',
      removeCodeBlockChars_fenced L.data B.data C.data hL hC hclose' hlast]
  rw [hmain]
  exact ⟨rfl, fun h => h, fun h => h⟩

/-- Witness for amended C16: a reply with white space around a block tagged
`bash`, whose closing fence is indented. -/
theorem removeCodeBlock_strips_fences_witness :
    removeCodeBlock " ```bash\nls -la\n  ```\n" = stringsTrimSpace "ls -la" ∧
    stringsHasPrefix (removeCodeBlock " ```bash\nls -la\n  ```\n") "```" = false :=
  ⟨(removeCodeBlock_strips_fences " ```bash\nls -la\n  ```\n" "bash" "ls -la" "  ```"
      (by decide) (by decide) (by decide) (by decide)).1,
   (removeCodeBlock_strips_fences " ```bash\nls -la\n  ```\n" "bash" "ls -la" "  ```"
      (by decide) (by decide) (by decide) (by decide)).2.1 (by decide)⟩

/-- C19 (fenced-block unwrapping): for every language tag `L` without a newline
(possibly empty) and every body `B`, `removeCodeBlock` applied to the fence and
`L`, a newline, `B`, a newline and the fence returns `B` with leading and
trailing white space trimmed; and for every input whose trimmed text does not
start with the fence, `removeCodeBlock` returns the input with leading and
trailing white space trimmed. -/
theorem removeCodeBlock_unwraps (L B s : String) :
    ('\n' ∉ L.data →
      removeCodeBlock ("```" ++ L ++ "\n" ++ B ++ "\n```") = stringsTrimSpace B) ∧
    (stringsHasPrefix (stringsTrimSpace s) "```" = false →
      removeCodeBlock s = stringsTrimSpace s) := by
  constructor
  · intro hL
    have hdata : ("```" ++ L ++ "\n" ++ B ++ "\n```").data
        = fence ++ L.data ++ '\n' :: (B.data ++ '\n' :: fence) := by
      simp [String.data_append, fence]
    unfold removeCodeBlock stringsTrimSpace
    rw [hdata, removeCodeBlockChars_fenced L.data B.data fence hL (by decide) (by decide)
      (by decide)]
  · intro hs
    have hs' : fence.isPrefixOf (trimSpace s.data) = false := by
      simpa [stringsHasPrefix, stringsTrimSpace, fence] using hs
    unfold removeCodeBlock stringsTrimSpace removeCodeBlockChars
    simp only [hs', Bool.false_eq_true, if_false, trimSpace_idem]

/-- Witness for C19: a block tagged `sh` with a two-line body, and a plain reply
with white space around it. -/
theorem removeCodeBlock_unwraps_witness :
    removeCodeBlock ("```" ++ "sh" ++ "\n" ++ " cd /tmp\nls \n" ++ "\n```")
      = stringsTrimSpace " cd /tmp\nls \n" ∧
    removeCodeBlock "  ls -la\n" = stringsTrimSpace "  ls -la\n" :=
  ⟨(removeCodeBlock_unwraps "sh" " cd /tmp\nls \n" "  ls -la\n").1 (by decide),
   (removeCodeBlock_unwraps "sh" " cd /tmp\nls \n" "  ls -la\n").2 (by decide)⟩

/-- Witness for C20: `ls -la` is not sensitive and is returned unchanged; the
password assignment is sensitive and its filtered form carries the marker. -/
theorem isSensitive_filterCommand_agree_witness :
    IsSensitive "ls -la" = false ∧ filterCommand "ls -la" = "ls -la" ∧
    IsSensitive "export DB_PASSWORD=hunter2" = true ∧
    stringsContains (filterCommand "export DB_PASSWORD=hunter2") "[REDACTED]" :=
  ⟨by decide, (isSensitive_filterCommand_agree "ls -la" []).1 (by decide), by decide,
   (isSensitive_filterCommand_agree "export DB_PASSWORD=hunter2" []).2.2.1 (by decide)⟩

/-! ## Properties of the aggregation by day -/

/-- The month of a calendar date lies in 1..12 and the day in 1..31. -/
theorem civilFromDays_month_day (z : Int) :
    1 ≤ (civilFromDays z).2.1 ∧ (civilFromDays z).2.1 ≤ 12 ∧
    1 ≤ (civilFromDays z).2.2 ∧ (civilFromDays z).2.2 ≤ 31 := by
  simp only [civilFromDays]
  split_ifs <;> omega

theorem decimalDigits_eq (fuel : Nat) : ∀ n, n ≤ fuel →
    decimalDigits fuel n = (Nat.digits 10 n).reverse := by
  induction fuel with
  | zero =>
    intro n hn
    have : n = 0 := by omega
    subst this
    simp [decimalDigits]
  | succ f ih =>
    intro n hn
    unfold decimalDigits
    by_cases h0 : n = 0
    · subst h0; simp
    · rw [if_neg h0, ih (n / 10) (by omega),
        Nat.digits_def' (by norm_num : 1 < 10) (Nat.pos_of_ne_zero h0)]
      simp

theorem decimalDigits_injective (n m : Nat)
    (h : decimalDigits n n = decimalDigits m m) : n = m := by
  rw [decimalDigits_eq n n le_rfl, decimalDigits_eq m m le_rfl] at h
  exact Nat.digits.injective 10 (List.reverse_injective h)

theorem decimalDigits_lt (n d : Nat) (h : d ∈ decimalDigits n n) : d < 10 := by
  rw [decimalDigits_eq n n le_rfl, List.mem_reverse] at h
  exact Nat.digits_lt_base (by norm_num) h

theorem decimalDigits_head (n d : Nat) (h : (decimalDigits n n).head? = some d) : d ≠ 0 := by
  rw [decimalDigits_eq n n le_rfl, List.head?_reverse] at h
  have hne : Nat.digits 10 n ≠ [] := by
    intro e
    rw [e] at h
    simp at h
  rw [List.getLast?_eq_getLast _ hne] at h
  simp only [Option.some.injEq] at h
  rw [← h]
  exact Nat.getLast_digit_ne_zero 10 (Nat.digits_ne_nil_iff_ne_zero.1 hne)

theorem paddedDigits_lt (n width d : Nat) (h : d ∈ paddedDigits n width) : d < 10 := by
  unfold paddedDigits at h
  rcases List.mem_append.1 h with h | h
  · rw [List.eq_of_mem_replicate h]; norm_num
  · exact decimalDigits_lt n d h

theorem dropWhile_zero_paddedDigits (n width : Nat) :
    (paddedDigits n width).dropWhile (fun d => d == 0) = decimalDigits n n := by
  unfold paddedDigits
  generalize width - (decimalDigits n n).length = k
  induction k with
  | zero =>
    simp only [List.replicate_zero, List.nil_append]
    cases hd : decimalDigits n n with
    | nil => rfl
    | cons a l =>
      have := decimalDigits_head n a (by rw [hd]; rfl)
      have hb : (a == 0) = false := by simpa using this
      simp only [List.dropWhile, hb]
  | succ k ih => simpa [List.replicate_succ, List.dropWhile] using ih

theorem paddedDigits_injective (n m width : Nat)
    (h : paddedDigits n width = paddedDigits m width) : n = m := by
  apply decimalDigits_injective
  rw [← dropWhile_zero_paddedDigits n width, ← dropWhile_zero_paddedDigits m width, h]

theorem digitChar_injective (a b : Nat) (ha : a < 10) (hb : b < 10)
    (h : digitChar a = digitChar b) : a = b := by
  interval_cases a <;> interval_cases b <;> first | rfl | (exact absurd h (by decide))

theorem digitChar_ne_minus (a : Nat) (ha : a < 10) : digitChar a ≠ '-' := by
  interval_cases a <;> decide

theorem map_digitChar_injective : ∀ (l l' : List Nat), (∀ d ∈ l, d < 10) → (∀ d ∈ l', d < 10) →
    l.map digitChar = l'.map digitChar → l = l' := by
  intro l
  induction l with
  | nil =>
    intro l' _ _ h
    cases l' with
    | nil => rfl
    | cons a l' => simp at h
  | cons a l ih =>
    intro l' hl hl' h
    cases l' with
    | nil => simp at h
    | cons b l' =>
      simp only [List.map_cons, List.cons.injEq] at h
      have hab := digitChar_injective a b (hl a (by simp)) (hl' b (by simp)) h.1
      rw [hab, ih l' (fun d hd => hl d (List.mem_cons_of_mem _ hd))
        (fun d hd => hl' d (List.mem_cons_of_mem _ hd)) h.2]

theorem appendInt_eq (x : Int) (width : Nat) :
    appendInt x width
      = (if x < 0 then ['-'] else []) ++ (paddedDigits x.natAbs width).map digitChar := rfl

/-- The text `appendInt` writes determines the number. -/
theorem appendInt_injective (x y : Int) (width : Nat)
    (h : appendInt x width = appendInt y width) : x = y := by
  rw [appendInt_eq, appendInt_eq] at h
  have hhead : ∀ (n : Nat) (l : List Char),
      '-' :: l ≠ (paddedDigits n width).map digitChar := by
    intro n l e
    cases hp : paddedDigits n width with
    | nil => rw [hp] at e; simp at e
    | cons a p =>
      rw [hp] at e
      simp only [List.map_cons, List.cons.injEq] at e
      exact digitChar_ne_minus a (paddedDigits_lt n width a (by rw [hp]; simp)) e.1.symm
  by_cases hx : x < 0 <;> by_cases hy : y < 0
  · simp only [hx, hy, if_true, List.cons_append, List.nil_append, List.cons.injEq,
      true_and] at h
    have := paddedDigits_injective _ _ width (map_digitChar_injective _ _
      (paddedDigits_lt _ width) (paddedDigits_lt _ width) h)
    omega
  · simp only [hx, hy, if_true, if_false, List.cons_append, List.nil_append] at h
    exact absurd h (hhead _ _)
  · simp only [hx, hy, if_true, if_false, List.cons_append, List.nil_append] at h
    exact absurd h.symm (hhead _ _)
  · simp only [hx, hy, if_false, List.nil_append] at h
    have := paddedDigits_injective _ _ width (map_digitChar_injective _ _
      (paddedDigits_lt _ width) (paddedDigits_lt _ width) h)
    omega

theorem appendInt_two_length (x : Int) (h1 : 1 ≤ x) (h2 : x ≤ 31) :
    (appendInt x 2).length = 2 := by
  interval_cases x <;> rfl

/-- The key of a bucket and the calendar date determine each other. -/
theorem formatDay_eq_iff (t t' : Time) : formatDay t = formatDay t' ↔ t.Date = t'.Date := by
  constructor
  · intro h
    have h' := congrArg String.data h
    simp only [formatDay, List.append_assoc] at h'
    have b := civilFromDays_month_day ((unixSeconds t.unixNano + t.offset) / 86400)
    have b' := civilFromDays_month_day ((unixSeconds t'.unixNano + t'.offset) / 86400)
    have lm := appendInt_two_length t.Date.2.1 b.1 (by unfold Time.Date; omega)
    have lm' := appendInt_two_length t'.Date.2.1 b'.1 (by unfold Time.Date; omega)
    have ld := appendInt_two_length t.Date.2.2 b.2.2.1 b.2.2.2
    have ld' := appendInt_two_length t'.Date.2.2 b'.2.2.1 b'.2.2.2
    obtain ⟨hy, hrest⟩ := List.append_inj' h' (by simp [lm, lm', ld, ld'])
    simp only [List.cons_append, List.nil_append, List.cons.injEq, true_and] at hrest
    obtain ⟨hm, hd⟩ := List.append_inj hrest (by rw [lm, lm'])
    simp only [List.cons.injEq, true_and] at hd
    have e1 := appendInt_injective _ _ _ hy
    have e2 := appendInt_injective _ _ _ hm
    have e3 := appendInt_injective _ _ _ hd
    exact Prod.ext e1 (Prod.ext e2 e3)
  · intro h
    unfold formatDay
    rw [h]

theorem AggregateByDay_snoc (rs : List Record) (r : Record) :
    AggregateByDay (rs ++ [r]) = AggregateByDay.step (AggregateByDay rs) r := by
  simp [AggregateByDay, List.foldl_append]

/-- The lookup of the key `k` in the result of `AggregateByDay`, with the sums as
the Go `int`s they are. -/
theorem AggregateByDay_get (records : List Record) (k : String) :
    (AggregateByDay records).get k =
      if ∃ r ∈ records, formatDay r.Timestamp = k then
        some { Day := k,
               Count := int64wrap (records.countP (fun r => formatDay r.Timestamp = k)),
               InputTokens := int64wrap
                 ((records.filter (fun r => formatDay r.Timestamp = k)).map
                   Record.InputTokens).sum,
               OutputTokens := int64wrap
                 ((records.filter (fun r => formatDay r.Timestamp = k)).map
                   Record.OutputTokens).sum,
               CacheReadTokens := int64wrap
                 ((records.filter (fun r => formatDay r.Timestamp = k)).map
                   Record.CacheReadTokens).sum }
      else none := by
  induction records using List.reverseRecOn with
  | nil => simp [AggregateByDay, GoMap.get]
  | append_singleton rs r ih =>
    rw [AggregateByDay_snoc]
    unfold AggregateByDay.step
    simp only
    rw [GoMap.get_ensure_modify]
    by_cases hm : k = formatDay r.Timestamp
    · subst hm
      have hex : ∃ x ∈ rs ++ [r], formatDay x.Timestamp = formatDay r.Timestamp :=
        ⟨r, by simp, rfl⟩
      rw [if_pos rfl, if_pos hex, ih]
      by_cases hold : ∃ x ∈ rs, formatDay x.Timestamp = formatDay r.Timestamp
      · simp only [if_pos hold, Option.getD_some, List.countP_append, List.filter_append,
          List.map_append, List.sum_append, int64wrap_add_left]
        simp
      · have hnone : ∀ x ∈ rs, ¬ formatDay x.Timestamp = formatDay r.Timestamp :=
          fun x hx h => hold ⟨x, hx, h⟩
        have hf : rs.filter (fun x => formatDay x.Timestamp = formatDay r.Timestamp) = [] := by
          rw [List.filter_eq_nil_iff]
          intro x hx
          simpa using hnone x hx
        have hc : rs.countP (fun x => formatDay x.Timestamp = formatDay r.Timestamp) = 0 := by
          rw [List.countP_eq_zero]
          intro x hx
          simpa using hnone x hx
        simp only [if_neg hold, Option.getD_none, List.countP_append, List.filter_append,
          List.map_append, List.sum_append, hf, hc]
        simp
    · have hne : ¬ formatDay r.Timestamp = k := fun e => hm e.symm
      have hiff : (∃ x ∈ rs ++ [r], formatDay x.Timestamp = k)
          ↔ ∃ x ∈ rs, formatDay x.Timestamp = k := by
        constructor
        · rintro ⟨x, hx, hxm⟩
          rcases List.mem_append.1 hx with h | h
          · exact ⟨x, h, hxm⟩
          · rw [List.mem_singleton] at h
            subst h
            exact absurd hxm hne
        · rintro ⟨x, hx, hxm⟩
          exact ⟨x, List.mem_append_left _ hx, hxm⟩
      rw [if_neg hm, ih]
      simp only [hiff, List.countP_append, List.filter_append, List.map_append, List.sum_append]
      simp [hne]

/-- The records of the calendar date of `t` are the records whose key is the
key of `t`. -/
theorem filter_formatDay_eq (records : List Record) (t : Time) :
    records.filter (fun r => formatDay r.Timestamp = formatDay t)
      = records.filter (fun r => r.Timestamp.Date = t.Date) := by
  apply List.filter_congr
  intro r _
  simp only [decide_eq_decide]
  exact formatDay_eq_iff r.Timestamp t

/-- C11 (AggregateByDay groups strictly by calendar date): the key
`Format("2006-01-02")` of a timestamp and its calendar date (year, month, day, in
the location of the timestamp) determine each other, whatever the time of day;
the result has a bucket for the date of `t` iff some record has that date, every
key of the result is the formatted date of a record, and the bucket of a date
has that date as `Day`, the number of the records of that date as `Count` and
the sums over exactly those records as `InputTokens`, `OutputTokens` and
`CacheReadTokens`, as Go `int`s: the exact number and sums whenever they fit in
64 bits. -/
theorem aggregateByDay_calendar_date (records : List Record) (t : Time) :
    (∀ t1 t2 : Time, formatDay t1 = formatDay t2 ↔ t1.Date = t2.Date) ∧
    (((AggregateByDay records).get (formatDay t)).isSome
      ↔ ∃ r ∈ records, r.Timestamp.Date = t.Date) ∧
    (∀ k, ((AggregateByDay records).get k).isSome →
      ∃ r ∈ records, k = formatDay r.Timestamp) ∧
    (∀ st, (AggregateByDay records).get (formatDay t) = some st →
      st.Day = formatDay t ∧
      st.Count = int64wrap (records.countP (fun r => r.Timestamp.Date = t.Date)) ∧
      st.InputTokens = int64wrap
        ((records.filter (fun r => r.Timestamp.Date = t.Date)).map Record.InputTokens).sum ∧
      st.OutputTokens = int64wrap
        ((records.filter (fun r => r.Timestamp.Date = t.Date)).map Record.OutputTokens).sum ∧
      st.CacheReadTokens = int64wrap
        ((records.filter (fun r => r.Timestamp.Date = t.Date)).map
          Record.CacheReadTokens).sum) ∧
    (∀ st, (AggregateByDay records).get (formatDay t) = some st →
      ((records.countP (fun r => r.Timestamp.Date = t.Date) : Nat) : Int) < 2 ^ 63 →
      (∀ field ∈ [Record.InputTokens, Record.OutputTokens, Record.CacheReadTokens],
        -(2 ^ 63) ≤ ((records.filter (fun r => r.Timestamp.Date = t.Date)).map field).sum ∧
        ((records.filter (fun r => r.Timestamp.Date = t.Date)).map field).sum < 2 ^ 63) →
      st.Count = records.countP (fun r => r.Timestamp.Date = t.Date) ∧
      st.InputTokens
        = ((records.filter (fun r => r.Timestamp.Date = t.Date)).map Record.InputTokens).sum ∧
      st.OutputTokens
        = ((records.filter (fun r => r.Timestamp.Date = t.Date)).map Record.OutputTokens).sum ∧
      st.CacheReadTokens
        = ((records.filter (fun r => r.Timestamp.Date = t.Date)).map
            Record.CacheReadTokens).sum) := by
  have hget := AggregateByDay_get records (formatDay t)
  have hcount : records.countP (fun r => formatDay r.Timestamp = formatDay t)
      = records.countP (fun r => r.Timestamp.Date = t.Date) := by
    rw [List.countP_eq_length_filter, List.countP_eq_length_filter, filter_formatDay_eq]
  rw [filter_formatDay_eq, hcount] at hget
  have hex : (∃ r ∈ records, formatDay r.Timestamp = formatDay t)
      ↔ ∃ r ∈ records, r.Timestamp.Date = t.Date := by
    constructor
    · rintro ⟨r, hr, h⟩; exact ⟨r, hr, (formatDay_eq_iff _ _).1 h⟩
    · rintro ⟨r, hr, h⟩; exact ⟨r, hr, (formatDay_eq_iff _ _).2 h⟩
  have hfields : ∀ st, (AggregateByDay records).get (formatDay t) = some st →
      st.Day = formatDay t ∧
      st.Count = int64wrap (records.countP (fun r => r.Timestamp.Date = t.Date)) ∧
      st.InputTokens = int64wrap
        ((records.filter (fun r => r.Timestamp.Date = t.Date)).map Record.InputTokens).sum ∧
      st.OutputTokens = int64wrap
        ((records.filter (fun r => r.Timestamp.Date = t.Date)).map Record.OutputTokens).sum ∧
      st.CacheReadTokens = int64wrap
        ((records.filter (fun r => r.Timestamp.Date = t.Date)).map
          Record.CacheReadTokens).sum := by
    intro st hst
    rw [hget] at hst
    split at hst
    · cases hst
      exact ⟨rfl, rfl, rfl, rfl, rfl⟩
    · cases hst
  refine ⟨formatDay_eq_iff, ?_, ?_, hfields, ?_⟩
  · rw [hget, ← hex]
    split <;> simp_all
  · intro k hk
    rw [AggregateByDay_get] at hk
    split at hk
    · rename_i h
      obtain ⟨r, hr, e⟩ := h
      exact ⟨r, hr, e.symm⟩
    · simp at hk
  · intro st hst hc hrange
    obtain ⟨-, h1, h2, h3, h4⟩ := hfields st hst
    rw [h1, h2, h3, h4]
    have r1 := hrange Record.InputTokens (by simp)
    have r2 := hrange Record.OutputTokens (by simp)
    have r3 := hrange Record.CacheReadTokens (by simp)
    exact ⟨int64wrap_of_range _ (by omega) hc, int64wrap_of_range _ r1.1 r1.2,
      int64wrap_of_range _ r2.1 r2.2, int64wrap_of_range _ r3.1 r3.2⟩

/-- Witness for C11 on `Record.sampleDays` and noon of 2024-11-02 UTC: the bucket
`2024-11-02` counts the two records of that date, whatever their time of day,
with 18 input tokens. -/
theorem aggregateByDay_calendar_date_witness :
    (AggregateByDay Record.sampleDays).get (formatDay ⟨1730548800000000000, 0⟩)
      = some ⟨"2024-11-02", 2, 18, 2, 0⟩ ∧
    (2 : Int) = (Record.sampleDays.countP
      (fun r => r.Timestamp.Date = (⟨1730548800000000000, 0⟩ : Time).Date) : Nat) ∧
    (18 : Int) = ((Record.sampleDays.filter
      (fun r => r.Timestamp.Date = (⟨1730548800000000000, 0⟩ : Time).Date)).map
        Record.InputTokens).sum :=
  ⟨by decide,
   ((aggregateByDay_calendar_date Record.sampleDays ⟨1730548800000000000, 0⟩).2.2.2.2
      ⟨"2024-11-02", 2, 18, 2, 0⟩ (by decide) (by decide) (by decide)).1,
   ((aggregateByDay_calendar_date Record.sampleDays ⟨1730548800000000000, 0⟩).2.2.2.2
      ⟨"2024-11-02", 2, 18, 2, 0⟩ (by decide) (by decide) (by decide)).2.1⟩

/-! ## Properties of the persisted ledger -/

/-- C12 (ledger append-only): on a persisted ledger that holds the records `rs`
(or on no ledger file, `rs = []`), `RecordUsage(r)` succeeds exactly when the
document can be encoded (all years in 0..9999) and the directory and the file
can be written, and after a successful call `LoadRecords` returns `rs` followed
by exactly one new record, whose method, provider, model and four token counts
are those of `r` (its id and timestamp are the ones assigned by the call); the
records stored before are unchanged and keep their positions. -/
theorem ledger_append_only (env : LedgerEnv) (file : LedgerFile) (version : Option String)
    (rs : List Record) (r : Record)
    (hfile : (file = LedgerFile.missing ∧ rs = []) ∨ file = LedgerFile.document version rs) :
    ((∃ file1, RecordUsage env file r = .ok file1) ↔
      (marshalOk ⟨"", rs ++ [{ r with ID := generateID env.idNow, Timestamp := env.now }]⟩ = true
        ∧ env.mkdirOk = true ∧ env.writeOk = true)) ∧
    (∀ file1, RecordUsage env file r = .ok file1 →
      ∃ st new, LoadRecords file1 = .ok st ∧ st.Records = rs ++ [new] ∧
        new.ID = generateID env.idNow ∧ new.Timestamp = env.now ∧
        new.Method = r.Method ∧ new.Provider = r.Provider ∧ new.Model = r.Model ∧
        new.InputTokens = r.InputTokens ∧ new.OutputTokens = r.OutputTokens ∧
        new.CacheCreationTokens = r.CacheCreationTokens ∧
        new.CacheReadTokens = r.CacheReadTokens) := by
  have hm : ∀ v : String,
      marshalOk ⟨v, rs ++ [{ r with ID := generateID env.idNow, Timestamp := env.now }]⟩
        = marshalOk ⟨"", rs ++ [{ r with ID := generateID env.idNow, Timestamp := env.now }]⟩ :=
    fun _ => rfl
  rcases hfile with ⟨rfl, rfl⟩ | rfl
  · constructor
    · simp only [RecordUsage, List.nil_append]
      cases h1 : marshalOk ⟨"1.0", [{ r with ID := generateID env.idNow, Timestamp := env.now }]⟩
        <;> cases h2 : env.mkdirOk <;> cases h3 : env.writeOk <;>
        simp_all [marshalOk]
    · intro file1 h
      simp only [RecordUsage, List.nil_append] at h
      split_ifs at h
      cases h
      exact ⟨_, _, rfl, rfl, rfl, rfl, rfl, rfl, rfl, rfl, rfl, rfl, rfl⟩
  · constructor
    · simp only [RecordUsage]
      cases h1 : marshalOk ⟨version.getD "1.0",
          rs ++ [{ r with ID := generateID env.idNow, Timestamp := env.now }]⟩
        <;> cases h2 : env.mkdirOk <;> cases h3 : env.writeOk <;>
        simp_all [marshalOk]
    · intro file1 h
      simp only [RecordUsage] at h
      split_ifs at h
      cases h
      exact ⟨_, _, rfl, rfl, rfl, rfl, rfl, rfl, rfl, rfl, rfl, rfl, rfl⟩

/-- Witness for C12: on a ledger that holds one record, with a writable file, the
call succeeds. -/
theorem ledger_append_only_witness :
    ∃ file1, RecordUsage ⟨1730505600000000123, ⟨1730505600000000456, 3600⟩, true, true⟩
      (LedgerFile.document (some "1.0") [Record.at ⟨1730505599000000000, 0⟩ 5])
      (Record.usage "predict" "openai" "gpt-4o" 120 8) = .ok file1 :=
  (ledger_append_only ⟨1730505600000000123, ⟨1730505600000000456, 3600⟩, true, true⟩
    (LedgerFile.document (some "1.0") [Record.at ⟨1730505599000000000, 0⟩ 5]) (some "1.0")
    [Record.at ⟨1730505599000000000, 0⟩ 5] (Record.usage "predict" "openai" "gpt-4o" 120 8)
    (Or.inr rfl)).1.2 ⟨by decide, rfl, rfl⟩

/-- C13 (LoadRecords error contract): without a ledger file `LoadRecords`
returns the storage with version `1.0` and no records, and no error; when the
file cannot be read, or is read and is not a document `json.Unmarshal` accepts,
it returns an error and no storage; when the file holds such a document it
returns the records of the document, in order. -/
theorem loadRecords_contract (left : Storage) (version : Option String) (rs : List Record) :
    LoadRecords LedgerFile.missing = .ok { Version := "1.0", Records := [] } ∧
    LoadRecords LedgerFile.unreadable = .error LedgerError.read ∧
    LoadRecords (LedgerFile.invalid left) = .error LedgerError.unmarshal ∧
    (∃ st, LoadRecords (LedgerFile.document version rs) = .ok st ∧ st.Records = rs) :=
  ⟨rfl, rfl, rfl, _, rfl, rfl⟩

/-- C14 fails on the code: the id is the decimal text of the clock reading
`time.Now().UnixNano()` and nothing else, so two calls of `RecordUsage` that read
the same nanosecond (here two calls on an empty ledger) leave two records with
the same id. -/
theorem recordUsage_duplicate_id :
    ∃ file1 file2 st,
      RecordUsage ⟨1730505600000000123, ⟨1730505600000000456, 0⟩, true, true⟩
        LedgerFile.missing (Record.usage "predict" "openai" "gpt-4o" 120 8) = .ok file1 ∧
      RecordUsage ⟨1730505600000000123, ⟨1730505600000000789, 0⟩, true, true⟩
        file1 (Record.usage "complete" "openai" "gpt-4o" 90 5) = .ok file2 ∧
      LoadRecords file2 = .ok st ∧
      st.Records.map Record.ID = ["1730505600000000123", "1730505600000000123"] ∧
      st.Records.map Record.Method = ["predict", "complete"] :=
  ⟨_, _, _, rfl, rfl, rfl, by decide, by decide⟩

/-! ## Properties of runPredict -/

theorem Cache.find?_of_mem {c : Cache} (hu : Cache.uniqueKeys c) {e : CacheEntry} (he : e ∈ c) :
    c.find? (fun r => r.ContextHash = e.ContextHash) = some e := by
  cases hf : c.find? (fun r => r.ContextHash = e.ContextHash) with
  | none =>
    rw [List.find?_eq_none] at hf
    exact absurd (by simp) (hf e he)
  | some x =>
    have hx := List.mem_of_find?_eq_some hf
    have hk : x.ContextHash = e.ContextHash := by
      simpa using List.find?_some hf
    rw [Cache.eq_of_key_eq hu hx he hk]

theorem Cache.filter_ne_touch (c : Cache) (t : Int) (k : String) :
    (Cache.touch c t k).filter (fun r => r.ContextHash ≠ k)
      = c.filter (fun r => r.ContextHash ≠ k) := by
  induction c with
  | nil => rfl
  | cons a c ih =>
    have ih' : List.filter (fun r => decide (r.ContextHash ≠ k)) (Cache.touch c t k)
        = List.filter (fun r => decide (r.ContextHash ≠ k)) c := ih
    by_cases h : a.ContextHash = k
    · simp only [Cache.touch, List.map_cons, h, if_true, List.filter_cons] at ih' ⊢
      simpa using ih'
    · simp only [Cache.touch, List.map_cons, h, if_false, List.filter_cons] at ih' ⊢
      simpa [h] using ih'

theorem Cache.filter_eq_touch (c : Cache) (t : Int) (k : String) :
    (Cache.touch c t k).filter (fun r => r.ContextHash = k)
      = (c.filter (fun r => r.ContextHash = k)).map
          (fun r => { r with HitCount := r.HitCount + 1, LastUsed := t }) := by
  induction c with
  | nil => rfl
  | cons a c ih =>
    have ih' : List.filter (fun r => decide (r.ContextHash = k)) (Cache.touch c t k)
        = (List.filter (fun r => decide (r.ContextHash = k)) c).map
          (fun r => { r with HitCount := r.HitCount + 1, LastUsed := t }) := ih
    by_cases h : a.ContextHash = k
    · simp only [Cache.touch, List.map_cons, h, if_true, List.filter_cons] at ih' ⊢
      simpa [h] using ih'
    · simp only [Cache.touch, List.map_cons, h, if_false, List.filter_cons] at ih' ⊢
      simpa [h] using ih'

theorem Cache.filter_key_eq_singleton {c : Cache} (hu : Cache.uniqueKeys c) {e : CacheEntry}
    (he : e ∈ c) : c.filter (fun r => r.ContextHash = e.ContextHash) = [e] := by
  have hnd : (c.filter (fun r => r.ContextHash = e.ContextHash)).Nodup :=
    (List.Nodup.of_map _ hu).sublist (List.filter_sublist _)
  have hall : ∀ x ∈ c.filter (fun r => r.ContextHash = e.ContextHash), x = e := by
    intro x hx
    have := List.mem_filter.1 hx
    exact Cache.eq_of_key_eq hu this.1 he (by simpa using this.2)
  have hmem : e ∈ c.filter (fun r => r.ContextHash = e.ContextHash) :=
    List.mem_filter.2 ⟨he, by simp⟩
  cases hl : c.filter (fun r => r.ContextHash = e.ContextHash) with
  | nil => rw [hl] at hmem; simp at hmem
  | cons a l =>
    rw [hl] at hall hnd
    have ha := hall a (by simp)
    cases l with
    | nil => rw [ha]
    | cons b l =>
      have hb := hall b (by simp)
      rw [ha, hb] at hnd
      simp at hnd

/-- C15 (predict cache hit short-circuits): for every predict request, with the
cache enabled and openable, if the cache (keys unique) holds an entry `e` for the
fingerprint of the request (computed from the filtered history, `cwd` and the
branch), then the response is the cached command with `cached: true`, without
tokens and without error, the LLM collaborator is not called, `RecordUsage` is
not called, and the cache afterwards differs from the cache before only in that
entry, whose hit count is one higher and whose `last_used` is the time of the
lookup. -/
theorem predict_cache_hit_short_circuits (cfg : Config) (sha256hex : String → String)
    (llm : String → Option LLMResult) (env : PredictEnv) (c : Cache) (ledger : LedgerFile)
    (req : Request) (e : CacheEntry) (hen : cfg.CacheEnabled = true)
    (hu : Cache.uniqueKeys c) (he : e ∈ c)
    (hk : e.ContextHash
      = generateCacheKey sha256hex (FilterSensitive req.History) req.CWD req.GitBranch) :
    (runPredict cfg sha256hex llm env (some c) ledger req).response
        = some { Result := some { Command := e.Command, Cached := true },
                 Tokens := none, Error := "" } ∧
    (runPredict cfg sha256hex llm env (some c) ledger req).llmCalls = [] ∧
    (runPredict cfg sha256hex llm env (some c) ledger req).ledgerCall = none ∧
    ∃ c1, (runPredict cfg sha256hex llm env (some c) ledger req).cache = some c1 ∧
      c1.filter (fun r => r.ContextHash ≠ e.ContextHash)
        = c.filter (fun r => r.ContextHash ≠ e.ContextHash) ∧
      c1.filter (fun r => r.ContextHash = e.ContextHash)
        = [{ e with HitCount := e.HitCount + 1, LastUsed := unixSeconds env.tGet }] := by
  have hget : Cache.Get c env.tGet
      (generateCacheKey sha256hex (FilterSensitive req.History) req.CWD req.GitBranch)
      = (some e, Cache.touch c (unixSeconds env.tGet) e.ContextHash) := by
    rw [← hk]
    unfold Cache.Get
    rw [Cache.find?_of_mem hu he]
  have hrun : runPredict cfg sha256hex llm env (some c) ledger req
      = { response := some { Result := some { Command := e.Command, Cached := true },
                             Tokens := none, Error := "" },
          llmCalls := [], cache := some (Cache.touch c (unixSeconds env.tGet) e.ContextHash),
          ledgerCall := none } := by
    unfold runPredict
    simp only [hen, if_true, hget]
  rw [hrun]
  refine ⟨rfl, rfl, rfl, _, rfl, Cache.filter_ne_touch c _ _, ?_⟩
  rw [Cache.filter_eq_touch, Cache.filter_key_eq_singleton hu he]
  rfl

/-- Witness for C15: the cache holds `git commit` for the fingerprint of the
request; the response is that command, flagged as cached. -/
theorem predict_cache_hit_short_circuits_witness :
    (runPredict ⟨true, true, "openai"⟩ sampleDigest (fun _ => none)
        ⟨9000000000, 9000000000, ⟨9000000000, ⟨9000000000, 0⟩, true, true⟩⟩
        (some [⟨"git statusgit add ./repomain", "git commit", 5, 0, 5⟩])
        LedgerFile.missing Request.samplePredict).response
      = some { Result := some { Command := "git commit", Cached := true },
               Tokens := none, Error := "" } :=
  (predict_cache_hit_short_circuits ⟨true, true, "openai"⟩ sampleDigest (fun _ => none)
    ⟨9000000000, 9000000000, ⟨9000000000, ⟨9000000000, 0⟩, true, true⟩⟩
    [⟨"git statusgit add ./repomain", "git commit", 5, 0, 5⟩]
    LedgerFile.missing Request.samplePredict ⟨"git statusgit add ./repomain", "git commit", 5, 0, 5⟩
    rfl (by decide) (by decide) (by decide)).1

/-! ## Properties of the matcher -/

theorem Regex.mem_starEnds_succ (step : List Char → List (List Char)) (n : Nat)
    (s y : List Char) :
    y ∈ Regex.starEnds step (n + 1) s
      ↔ (∃ s1 ∈ step s, s1.length < s.length ∧ y ∈ Regex.starEnds step n s1) ∨ y = s := by
  simp only [Regex.starEnds, List.mem_append, List.mem_flatMap, List.mem_filter,
    decide_eq_true_eq, List.mem_singleton]
  constructor
  · rintro (⟨s1, ⟨h1, h2⟩, h3⟩ | h)
    · exact Or.inl ⟨s1, h1, h2, h3⟩
    · exact Or.inr h
  · rintro (⟨s1, h1, h2, h3⟩ | h)
    · exact Or.inl ⟨s1, ⟨h1, h2⟩, h3⟩
    · exact Or.inr h

theorem Regex.starEnds_suffix (step : List Char → List (List Char))
    (hstep : ∀ x y, y ∈ step x → y <:+ x) :
    ∀ (n : Nat) (s y : List Char), y ∈ Regex.starEnds step n s → y <:+ s := by
  intro n
  induction n with
  | zero =>
    intro s y h
    simp only [Regex.starEnds, List.mem_singleton] at h
    rw [h]
  | succ n ih =>
    intro s y h
    rcases (Regex.mem_starEnds_succ step n s y).1 h with ⟨s1, h1, -, h3⟩ | h
    · exact (ih s1 y h3).trans (hstep s s1 h1)
    · rw [h]

/-- Every way to match leaves a suffix of the input. -/
theorem Regex.ends_suffix (r : Regex) : ∀ (x y : List Char), y ∈ r.ends x → y <:+ x := by
  induction r with
  | empty =>
    intro x y h
    simp only [Regex.ends, List.mem_singleton] at h
    rw [h]
  | cls c =>
    intro x y h
    cases x with
    | nil => simp [Regex.ends] at h
    | cons ch s =>
      simp only [Regex.ends] at h
      split at h
      · simp only [List.mem_singleton] at h
        rw [h]
        exact List.suffix_cons ch s
      · simp at h
  | seq a b iha ihb =>
    intro x y h
    simp only [Regex.ends, List.mem_flatMap] at h
    obtain ⟨mid, h1, h2⟩ := h
    exact (ihb mid y h2).trans (iha x mid h1)
  | alt a b iha ihb =>
    intro x y h
    simp only [Regex.ends, List.mem_append] at h
    rcases h with h | h
    · exact iha x y h
    · exact ihb x y h
  | star a iha =>
    intro x y h
    simp only [Regex.ends] at h
    exact Regex.starEnds_suffix _ iha _ x y h

theorem suffix_append_of_length {w tail mid : List Char} (h : mid <:+ w ++ tail)
    (hl : tail.length ≤ mid.length) : ∃ mid1, mid = mid1 ++ tail ∧ mid1 <:+ w := by
  obtain ⟨p, hp⟩ := h
  have hlen : p.length ≤ w.length := by
    have := congrArg List.length hp
    simp only [List.length_append] at this
    omega
  refine ⟨w.drop p.length, ?_, List.drop_suffix _ _⟩
  have h1 : (w ++ tail).drop p.length = mid := by
    rw [← hp, List.drop_left]
  rw [← h1, List.drop_append_of_le_length hlen]

theorem Regex.starEnds_local (step : List Char → List (List Char))
    (hsuf : ∀ x y, y ∈ step x → y <:+ x)
    (hloc : ∀ w tail u, u ++ tail ∈ step (w ++ tail) ↔ u ∈ step w) :
    ∀ (n m : Nat) (w tail u : List Char), w.length + tail.length + 1 ≤ n → w.length + 1 ≤ m →
      (u ++ tail ∈ Regex.starEnds step n (w ++ tail) ↔ u ∈ Regex.starEnds step m w) := by
  intro n
  induction n with
  | zero => intro m w tail u hn; omega
  | succ n ih =>
    intro m w tail u hn hm
    obtain ⟨m, rfl⟩ : ∃ m', m = m' + 1 := ⟨m - 1, by omega⟩
    rw [Regex.mem_starEnds_succ, Regex.mem_starEnds_succ]
    constructor
    · rintro (⟨s1, h1, h2, h3⟩ | h)
      · have hs1 := hsuf _ _ h1
        have hu := Regex.starEnds_suffix step hsuf n s1 _ h3
        have hl : tail.length ≤ s1.length := by
          have := hu.length_le
          simp only [List.length_append] at this
          omega
        obtain ⟨s1', rfl, -⟩ := suffix_append_of_length hs1 hl
        simp only [List.length_append] at h2
        refine Or.inl ⟨s1', (hloc w tail s1').1 h1, by omega, ?_⟩
        exact (ih m s1' tail u (by omega) (by omega)).1 h3
      · exact Or.inr (List.append_cancel_right h)
    · rintro (⟨s1, h1, h2, h3⟩ | h)
      · refine Or.inl ⟨s1 ++ tail, (hloc w tail s1).2 h1, by simp; omega, ?_⟩
        exact (ih m s1 tail u (by omega) (by omega)).2 h3
      · exact Or.inr (by rw [h])

/-- A match does not depend on the text after it: the ways to match in `w`
followed by `tail` that stop before `tail` are the ways to match in `w`. -/
theorem Regex.ends_local (r : Regex) :
    ∀ (w tail u : List Char), u ++ tail ∈ r.ends (w ++ tail) ↔ u ∈ r.ends w := by
  induction r with
  | empty =>
    intro w tail u
    simp only [Regex.ends, List.mem_singleton]
    exact ⟨fun h => List.append_cancel_right h, fun h => by rw [h]⟩
  | cls c =>
    intro w tail u
    cases w with
    | nil =>
      simp only [List.nil_append, Regex.ends, List.not_mem_nil, iff_false]
      intro h
      have := (Regex.ends_suffix (.cls c) tail _ h).length_le
      cases tail with
      | nil => simp [Regex.ends] at h
      | cons ch s =>
        simp only [Regex.ends] at h
        split at h
        · simp only [List.mem_singleton] at h
          have := congrArg List.length h
          simp at this
          omega
        · simp at h
    | cons ch s =>
      simp only [List.cons_append, Regex.ends]
      split
      · simp only [List.mem_singleton]
        exact ⟨fun h => List.append_cancel_right h, fun h => by rw [h]; rfl⟩
      · simp
  | seq a b iha ihb =>
    intro w tail u
    simp only [Regex.ends, List.mem_flatMap]
    constructor
    · rintro ⟨mid, h1, h2⟩
      have hl : tail.length ≤ mid.length := by
        have := (Regex.ends_suffix b mid _ h2).length_le
        simp only [List.length_append] at this
        omega
      obtain ⟨mid1, rfl, -⟩ := suffix_append_of_length (Regex.ends_suffix a _ _ h1) hl
      exact ⟨mid1, (iha w tail mid1).1 h1, (ihb mid1 tail u).1 h2⟩
    · rintro ⟨mid, h1, h2⟩
      exact ⟨mid ++ tail, (iha w tail mid).2 h1, (ihb mid tail u).2 h2⟩
  | alt a b iha ihb =>
    intro w tail u
    simp only [Regex.ends, List.mem_append, iha w tail u, ihb w tail u]
  | star a iha =>
    intro w tail u
    simp only [Regex.ends]
    exact Regex.starEnds_local _ (Regex.ends_suffix a) iha _ _ w tail u
      (by simp) (by simp)

theorem Regex.fullMatch_iff (r : Regex) (w : List Char) :
    r.fullMatch w = true ↔ [] ∈ r.ends w := by
  unfold Regex.fullMatch
  rw [List.any_eq_true]
  constructor
  · rintro ⟨x, hx, he⟩
    rw [List.isEmpty_iff] at he
    rw [← he]; exact hx
  · intro h
    exact ⟨[], h, rfl⟩

/-- The text of a match is matched as a whole. -/
theorem Regex.fullMatch_of_mem_ends (r : Regex) (m post : List Char)
    (h : post ∈ r.ends (m ++ post)) : r.fullMatch m = true := by
  rw [Regex.fullMatch_iff]
  exact (Regex.ends_local r m post []).1 (by simpa using h)

/-- What `find` returns: a split of the input into the text before the match,
the match and the text after it. -/
theorem Regex.find_spec (r : Regex) : ∀ (x pre m post : List Char),
    r.find x = some (pre, m, post) → x = pre ++ m ++ post ∧ r.fullMatch m = true := by
  intro x
  induction x with
  | nil =>
    intro pre m post h
    simp only [Regex.find] at h
    split at h
    · rename_i y hy
      simp only [Option.some.injEq, Prod.mk.injEq] at h
      obtain ⟨rfl, rfl, rfl⟩ := h
      have hmem : y ∈ r.ends [] := List.mem_of_mem_head? hy
      have : y = [] := List.suffix_nil.1 (Regex.ends_suffix r [] y hmem)
      rw [this] at hmem
      exact ⟨rfl, (Regex.fullMatch_iff r []).2 hmem⟩
    · simp at h
  | cons c s ih =>
    intro pre m post h
    simp only [Regex.find] at h
    split at h
    · rename_i rest hy
      simp only [Option.some.injEq, Prod.mk.injEq] at h
      obtain ⟨rfl, rfl, rfl⟩ := h
      have hmem : rest ∈ r.ends (c :: s) := List.mem_of_mem_head? hy
      obtain ⟨p, hp⟩ := Regex.ends_suffix r _ _ hmem
      have hlen : (c :: s).length - rest.length = p.length := by
        have := congrArg List.length hp
        simp only [List.length_append] at this
        omega
      have htake : (c :: s).take ((c :: s).length - rest.length) = p := by
        rw [hlen, ← hp, List.take_left]
      rw [htake]
      refine ⟨by simpa using hp.symm, ?_⟩
      apply Regex.fullMatch_of_mem_ends r p rest
      rw [hp]; exact hmem
    · cases hf : r.find s with
      | none => rw [hf] at h; simp at h
      | some x =>
        obtain ⟨pre1, m1, post1⟩ := x
        rw [hf] at h
        simp only [Option.map_some', Option.some.injEq, Prod.mk.injEq] at h
        obtain ⟨rfl, rfl, rfl⟩ := h
        obtain ⟨h1, h2⟩ := ih pre1 m1 post1 hf
        exact ⟨by rw [h1]; simp, h2⟩

/-- A match from some position on makes `find` succeed. -/
theorem Regex.find_isSome_of_ends (r : Regex) (a b : List Char) (h : r.ends b ≠ []) :
    (r.find (a ++ b)).isSome = true := by
  have hb : (r.find b).isSome = true := by
    cases b with
    | nil =>
      simp only [Regex.find]
      cases he : r.ends [] with
      | nil => exact absurd he h
      | cons y ys => simp
    | cons c s =>
      simp only [Regex.find]
      cases he : r.ends (c :: s) with
      | nil => exact absurd he h
      | cons y ys => simp
  induction a with
  | nil => simpa using hb
  | cons c a ih =>
    simp only [List.cons_append, Regex.find]
    split
    · simp
    · simpa using ih
/-! ## Runs of token characters -/

theorem leadRun_le_length (x : List Char) : leadRun x ≤ x.length :=
  (List.takeWhile_sublist _).length_le

theorem maxRun_le_length : ∀ x : List Char, maxRun x ≤ x.length
  | [] => le_refl _
  | c :: x => by
    have h1 := leadRun_le_length (c :: x)
    have h2 := maxRun_le_length x
    simp only [maxRun, List.length_cons] at *
    omega

theorem maxRun_cons (c : Char) (x : List Char) :
    maxRun (c :: x) = max (leadRun (c :: x)) (maxRun x) := rfl

theorem leadRun_cons (c : Char) (x : List Char) :
    leadRun (c :: x) = if isTokenChar c = true then leadRun x + 1 else 0 := by
  unfold leadRun
  cases h : isTokenChar c <;> simp [List.takeWhile, h]

theorem leadRun_append_sep (a b : List Char) (c : Char) (hc : isTokenChar c = false) :
    leadRun (a ++ c :: b) = leadRun a := by
  induction a with
  | nil => rw [List.nil_append, leadRun_cons, hc]; rfl
  | cons x a ih => rw [List.cons_append, leadRun_cons, leadRun_cons, ih]

/-- A character that is not a token character separates the runs on its two
sides. -/
theorem maxRun_append_sep (a b : List Char) (c : Char) (hc : isTokenChar c = false) :
    maxRun (a ++ c :: b) = max (maxRun a) (maxRun b) := by
  induction a with
  | nil =>
    rw [List.nil_append, maxRun_cons, leadRun_cons, hc]
    simp [maxRun]
  | cons x a ih =>
    have h1 := leadRun_append_sep (x :: a) b c hc
    rw [List.cons_append] at h1
    rw [List.cons_append, maxRun_cons, maxRun_cons, ih, h1, max_assoc]

theorem maxRun_append_right (a b : List Char) : maxRun b ≤ maxRun (a ++ b) := by
  induction a with
  | nil => exact le_refl _
  | cons x a ih =>
    rw [List.cons_append, maxRun_cons]
    exact le_trans ih (le_max_right _ _)

theorem leadRun_append_left (a b : List Char) : leadRun a ≤ leadRun (a ++ b) := by
  induction a with
  | nil => exact Nat.zero_le _
  | cons x a ih =>
    rw [List.cons_append, leadRun_cons, leadRun_cons]
    split
    · omega
    · exact le_refl _

theorem maxRun_append_left (a b : List Char) : maxRun a ≤ maxRun (a ++ b) := by
  induction a with
  | nil => exact Nat.zero_le _
  | cons x a ih =>
    have h := leadRun_append_left (x :: a) b
    rw [List.cons_append] at h
    rw [List.cons_append, maxRun_cons, maxRun_cons]
    exact max_le_max h ih

theorem leadRun_of_all (w b : List Char) (hw : ∀ c ∈ w, isTokenChar c = true) :
    w.length ≤ leadRun (w ++ b) := by
  induction w with
  | nil => exact Nat.zero_le _
  | cons x w ih =>
    have hx := hw x (by simp)
    have := ih (fun c hc => hw c (List.mem_cons_of_mem _ hc))
    rw [List.cons_append, leadRun_cons, if_pos hx, List.length_cons]
    omega

/-- A text that contains a run of token characters has a longest run at least
that long. -/
theorem maxRun_of_contains (x w : List Char) (hw : ∀ c ∈ w, isTokenChar c = true)
    (h : w <:+: x) : w.length ≤ maxRun x := by
  obtain ⟨a, b, rfl⟩ := h
  rw [List.append_assoc]
  refine le_trans ?_ (maxRun_append_right a (w ++ b))
  cases w with
  | nil => exact Nat.zero_le _
  | cons c w =>
    have := leadRun_of_all (c :: w) b hw
    rw [List.cons_append] at this ⊢
    rw [maxRun_cons]
    exact le_trans this (le_max_left _ _)

/-- The marker bounds the runs on its two sides and holds a run of 8 itself. -/
theorem maxRun_marker (a b : List Char) :
    maxRun (a ++ redactedMarker ++ b) = max (maxRun a) (max 8 (maxRun b)) := by
  have h : a ++ redactedMarker ++ b = a ++ '[' :: ("REDACTED".data ++ ']' :: b) := by
    simp [redactedMarker]
  rw [h, maxRun_append_sep _ _ _ (by decide), maxRun_append_sep _ _ _ (by decide)]
  have : maxRun "REDACTED".data = 8 := by decide
  rw [this]

/-- Replacing matches by the marker creates no run longer than 8, so a bound
above 8 on the runs of the input bounds the runs of the result. -/
theorem Regex.replaceAllFrom_maxRun (r : Regex) (N : Nat) (hN : 8 < N) :
    ∀ (fuel : Nat) (atStart : Bool) (pending rest : List Char),
      maxRun (pending ++ rest) < N →
      maxRun (r.replaceAllFrom redactedMarker fuel atStart pending rest) < N := by
  intro fuel
  induction fuel with
  | zero => intro atStart pending rest h; simpa [Regex.replaceAllFrom] using h
  | succ fuel ih =>
    intro atStart pending rest h
    unfold Regex.replaceAllFrom
    cases hf : r.find rest with
    | none => simpa using h
    | some x =>
      obtain ⟨pre, m, post⟩ := x
      obtain ⟨hsplit, -⟩ := Regex.find_spec r rest pre m post hf
      have hpend : maxRun pending < N := lt_of_le_of_lt (maxRun_append_left _ _) h
      simp only
      by_cases hempty : (pre.isEmpty && m.isEmpty) = true
      · rw [if_pos hempty]
        simp only [Bool.and_eq_true, List.isEmpty_iff] at hempty
        obtain ⟨rfl, rfl⟩ := hempty
        cases rest with
        | nil =>
          simp only
          split
          · have := maxRun_marker pending []
            simp only [List.append_nil] at this
            rw [this]
            simp only [maxRun]
            omega
          · simpa using hpend
        | cons c rest1 =>
          simp only
          have hrec := ih false [c] rest1
            (lt_of_le_of_lt (by simpa using maxRun_append_right pending (c :: rest1)) h)
          split
          · rw [maxRun_marker]
            omega
          · rename_i hcond
            have hp : pending = [] := by
              cases pending with
              | nil => rfl
              | cons a l => simp at hcond
            subst hp
            simpa using hrec
      · rw [if_neg hempty]
        have hins : (!(pending.isEmpty && pre.isEmpty && m.isEmpty) || (atStart && pre.isEmpty))
            = true := by
          have : (pending.isEmpty && pre.isEmpty && m.isEmpty) = false := by
            rw [Bool.and_assoc]
            simp only [Bool.not_eq_true] at hempty
            rw [hempty, Bool.and_false]
          rw [this]; rfl
        rw [if_pos hins]
        have hpp : maxRun (pending ++ pre) < N := by
          refine lt_of_le_of_lt ?_ h
          rw [hsplit, ← List.append_assoc, ← List.append_assoc]
          exact le_trans (maxRun_append_left _ m) (maxRun_append_left _ post)
        have hpost : maxRun ([] ++ post) < N := by
          refine lt_of_le_of_lt ?_ h
          rw [hsplit, ← List.append_assoc, ← List.append_assoc]
          exact maxRun_append_right _ _
        have hrec := ih false [] post hpost
        rw [maxRun_marker]
        omega
/-! ## The bearer-token command through the filter -/

theorem maxRun_take_le (x : List Char) (k : Nat) : maxRun (x.take k) ≤ maxRun x := by
  have := maxRun_append_left (x.take k) (x.drop k)
  rwa [List.take_append_drop] at this

theorem maxRun_drop_le (x : List Char) (k : Nat) : maxRun (x.drop k) ≤ maxRun x := by
  have := maxRun_append_right (x.take k) (x.drop k)
  rwa [List.take_append_drop] at this

theorem bearerPrefix_length : bearerPrefix.length = 31 := by decide

theorem Regex.noInfixMatch_spec (r : Regex) (x : List Char) (h : r.noInfixMatch x = true)
    (i j : Nat) (hi : i ≤ x.length) (hj : j ≤ x.length) :
    r.fullMatch ((x.drop i).take j) = false := by
  unfold Regex.noInfixMatch at h
  rw [List.all_eq_true] at h
  have h1 := h i (List.mem_range.2 (by omega))
  rw [List.all_eq_true] at h1
  have h2 := h1 j (List.mem_range.2 (by omega))
  simpa using h2

/-- The runs of a proper start of the command are shorter than the token. -/
theorem maxRun_bearer_take (t : List Char) (hN : 20 ≤ t.length) (k : Nat)
    (hk : k < 31 + t.length) :
    maxRun ((bearerPrefix ++ t ++ [Char.ofNat 39]).take k) < t.length := by
  have h1 : (bearerPrefix ++ t ++ [Char.ofNat 39]).take k
      = ((bearerPrefix ++ t ++ [Char.ofNat 39]).take (31 + (t.length - 1))).take k := by
    rw [List.take_take, min_eq_left (by omega)]
  have h2 : (bearerPrefix ++ t ++ [Char.ofNat 39]).take (31 + (t.length - 1))
      = "curl -H 'Authorization: Bearer".data ++ ' ' :: t.take (t.length - 1) := by
    rw [List.append_assoc, List.take_append_eq_append_take, bearerPrefix_length,
      List.take_of_length_le (by rw [bearerPrefix_length]; omega),
      List.take_append_eq_append_take]
    have : 31 + (t.length - 1) - 31 - t.length = 0 := by omega
    simp [this, bearerPrefix]
  rw [h1]
  refine lt_of_le_of_lt (maxRun_take_le _ _) ?_
  rw [h2, maxRun_append_sep _ _ _ (by decide)]
  have h3 : maxRun "curl -H 'Authorization: Bearer".data = 13 := by decide
  have h4 := maxRun_le_length (t.take (t.length - 1))
  rw [List.length_take] at h4
  rw [h3]
  omega

/-- The runs of the command after the first character of the token are shorter
than the token. -/
theorem maxRun_bearer_drop (t : List Char) (hN : 20 ≤ t.length) (k : Nat) (hk : 32 ≤ k) :
    maxRun ((bearerPrefix ++ t ++ [Char.ofNat 39]).drop k) < t.length := by
  have h1 : (bearerPrefix ++ t ++ [Char.ofNat 39]).drop k
      = ((bearerPrefix ++ t ++ [Char.ofNat 39]).drop 32).drop (k - 32) := by
    rw [List.drop_drop]
    congr 1
    omega
  have h2 : (bearerPrefix ++ t ++ [Char.ofNat 39]).drop 32 = t.drop 1 ++ [Char.ofNat 39] := by
    rw [List.append_assoc, List.drop_append_eq_append_drop, bearerPrefix_length,
      List.drop_of_length_le (by rw [bearerPrefix_length]; omega),
      List.drop_append_eq_append_drop]
    have : 32 - 31 - t.length = 0 := by omega
    simp [this]
  rw [h1]
  refine lt_of_le_of_lt (maxRun_drop_le _ _) ?_
  rw [h2, maxRun_append_sep _ _ _ (by decide)]
  have h4 := maxRun_le_length (t.drop 1)
  rw [List.length_drop] at h4
  simp only [maxRun]
  omega

/-- One pattern on the bearer-token command: either it changes nothing, or no
run of token characters as long as the token is left.  The pattern is one that
matches no part of the text in front of the token, and matches neither the
closing quote nor the empty text. -/
theorem Regex.replaceAll_bearer (r : Regex) (h1 : r.noInfixMatch bearerPrefix = true)
    (h2 : r.fullMatch [Char.ofNat 39] = false) (h3 : r.fullMatch [] = false)
    (t : List Char) (hN : 20 ≤ t.length) (fuel : Nat) :
    r.replaceAllFrom redactedMarker (fuel + 1) true [] (bearerPrefix ++ t ++ [Char.ofNat 39])
        = bearerPrefix ++ t ++ [Char.ofNat 39] ∨
    maxRun (r.replaceAllFrom redactedMarker (fuel + 1) true []
        (bearerPrefix ++ t ++ [Char.ofNat 39])) < t.length := by
  cases hf : r.find (bearerPrefix ++ t ++ [Char.ofNat 39]) with
  | none =>
    left
    unfold Regex.replaceAllFrom
    simp only [hf, List.nil_append]
  | some x =>
    right
    obtain ⟨pre, m, post⟩ := x
    obtain ⟨hsplit, hm⟩ := Regex.find_spec r _ pre m post hf
    have hmne : m ≠ [] := by
      intro e
      rw [e, h3] at hm
      exact Bool.false_ne_true hm
    have hme : m.isEmpty = false := by
      cases m with
      | nil => exact absurd rfl hmne
      | cons a l => rfl
    have hlen : pre.length + m.length + post.length = 31 + t.length + 1 := by
      have := congrArg List.length hsplit
      simp only [List.length_append, bearerPrefix_length, List.length_singleton] at this
      omega
    have hpre : pre = (bearerPrefix ++ t ++ [Char.ofNat 39]).take pre.length := by
      rw [hsplit, List.append_assoc, List.take_left]
    have hpost : post = (bearerPrefix ++ t ++ [Char.ofNat 39]).drop (pre.length + m.length) := by
      rw [hsplit, ← List.length_append, List.drop_left]
    have hmid : m = ((bearerPrefix ++ t ++ [Char.ofNat 39]).drop pre.length).take m.length := by
      rw [hsplit, List.append_assoc, List.drop_left, List.take_left]
    unfold Regex.replaceAllFrom
    simp only [hf, hme, Bool.and_false, Bool.false_eq_true, if_false, List.isEmpty_nil,
      Bool.true_and, Bool.not_false, Bool.true_or, if_true, List.nil_append]
    by_cases hA : pre.length + m.length ≤ 31
    · exfalso
      have hmid2 : m = (bearerPrefix.drop pre.length).take m.length := by
        have h := hmid
        rw [List.append_assoc, List.drop_append_of_le_length
          (by rw [bearerPrefix_length]; omega), List.take_append_of_le_length
          (by rw [List.length_drop, bearerPrefix_length]; omega)] at h
        exact h
      have := Regex.noInfixMatch_spec r bearerPrefix h1 pre.length m.length
        (by rw [bearerPrefix_length]; omega) (by rw [bearerPrefix_length]; omega)
      rw [← hmid2, hm] at this
      exact Bool.false_ne_true this.symm
    · by_cases hB : 31 + t.length ≤ pre.length
      · exfalso
        have hml : m.length = 1 := by
          have := List.length_pos.2 hmne
          omega
        have hpl : pre.length = 31 + t.length := by omega
        have hmq : m = [Char.ofNat 39] := by
          have h := hmid
          have hl : (bearerPrefix ++ t).length = 31 + t.length := by
            rw [List.length_append, bearerPrefix_length]
          rw [hml, hpl, ← hl, List.drop_left] at h
          exact h
        rw [hmq, h2] at hm
        exact Bool.false_ne_true hm
      · have hp1 : maxRun pre < t.length := by
          rw [hpre]
          exact maxRun_bearer_take t hN _ (by omega)
        have hp2 : maxRun ([] ++ post) < t.length := by
          rw [List.nil_append, hpost]
          exact maxRun_bearer_drop t hN _ (by omega)
        have hrec := Regex.replaceAllFrom_maxRun r t.length (by omega) fuel false [] post hp2
        rw [maxRun_marker]
        omega
/-- None of the ten patterns matches a part of the text in front of the token,
the closing quote or the empty text. -/
theorem sensitivePatterns_bearer_checks :
    sensitivePatterns.all (fun p => p.noInfixMatch bearerPrefix &&
      !(p.fullMatch [Char.ofNat 39]) && !(p.fullMatch [])) = true := by
  decide

/-- The patterns of a list, one after the other, on the bearer-token command:
the text is still the command, or no run as long as the token is left. -/
theorem filter_fold_bearer (ps : List Regex)
    (hps : ∀ p ∈ ps, p.noInfixMatch bearerPrefix = true ∧
      p.fullMatch [Char.ofNat 39] = false ∧ p.fullMatch [] = false)
    (t : List Char) (hN : 20 ≤ t.length) :
    ∀ x : String,
      (x.data = bearerPrefix ++ t ++ [Char.ofNat 39] ∨ maxRun x.data < t.length) →
      ((ps.foldl (fun result p => p.ReplaceAllString result "[REDACTED]") x).data
          = bearerPrefix ++ t ++ [Char.ofNat 39] ∨
       maxRun (ps.foldl (fun result p => p.ReplaceAllString result "[REDACTED]") x).data
          < t.length) := by
  induction ps with
  | nil => intro x h; exact h
  | cons p ps ih =>
    intro x h
    simp only [List.foldl_cons]
    apply ih (fun q hq => hps q (List.mem_cons_of_mem _ hq))
    obtain ⟨c1, c2, c3⟩ := hps p (List.mem_cons_self _ _)
    show (Regex.replaceAllFrom p redactedMarker (x.data.length + 1) true [] x.data
        = bearerPrefix ++ t ++ [Char.ofNat 39]) ∨
      maxRun (Regex.replaceAllFrom p redactedMarker (x.data.length + 1) true [] x.data)
        < t.length
    rcases h with h | h
    · rw [h]
      exact Regex.replaceAll_bearer p c1 c2 c3 t hN _
    · right
      exact Regex.replaceAllFrom_maxRun p t.length (by omega) _ true [] x.data
        (by simpa using h)

theorem Regex.mem_ends_seq (a b : Regex) (x mid rest : List Char) (h1 : mid ∈ a.ends x)
    (h2 : rest ∈ b.ends mid) : rest ∈ (Regex.seq a b).ends x := by
  simp only [Regex.ends, List.mem_flatMap]
  exact ⟨mid, h1, h2⟩

theorem Regex.self_mem_starEnds (step : List Char → List (List Char)) (n : Nat)
    (s : List Char) : s ∈ Regex.starEnds step n s := by
  cases n <;> simp [Regex.starEnds]

theorem Regex.mem_ends_rep (a : Regex) (w : List Char)
    (h : ∀ c ∈ w, ∀ s, s ∈ a.ends (c :: s)) :
    ∀ rest, rest ∈ (Regex.rep w.length a).ends (w ++ rest) := by
  induction w with
  | nil => intro rest; simp [Regex.rep, Regex.ends]
  | cons c w ih =>
    intro rest
    exact Regex.mem_ends_seq a _ _ (w ++ rest) rest (h c (by simp) _)
      (ih (fun d hd => h d (List.mem_cons_of_mem _ hd)) rest)

theorem tokenCharI_of_isTokenChar (c : Char) (h : isTokenChar c = true) (s : List Char) :
    s ∈ Regex.tokenCharI.ends (c :: s) := by
  have ht : (⟨false, [('a', 'z'), ('A', 'Z'), ('0', '9'), ('_', '_'), ('-', '-'),
      (Char.ofNat 0x17F, Char.ofNat 0x17F), (Char.ofNat 0x212A, Char.ofNat 0x212A)]⟩ :
      CharClass).test c = true := by
    simp only [isTokenChar, tokenClass, CharClass.test, List.any_cons, List.any_nil,
      Bool.or_false] at h ⊢
    revert h
    generalize (Nat.ble ('a' : Char).toNat c.toNat && Nat.ble c.toNat ('z' : Char).toNat) = b1
    generalize (Nat.ble ('A' : Char).toNat c.toNat && Nat.ble c.toNat ('Z' : Char).toNat) = b2
    generalize (Nat.ble ('0' : Char).toNat c.toNat && Nat.ble c.toNat ('9' : Char).toNat) = b3
    generalize (Nat.ble ('_' : Char).toNat c.toNat && Nat.ble c.toNat ('_' : Char).toNat) = b4
    generalize (Nat.ble ('-' : Char).toNat c.toNat && Nat.ble c.toNat ('-' : Char).toNat) = b5
    cases b1 <;> cases b2 <;> cases b3 <;> cases b4 <;> cases b5 <;> simp
  simp only [Regex.tokenCharI, Regex.ends, ht, if_true, List.mem_singleton]

/-- The bearer pattern matches in the command. -/
theorem bearer_pattern_matches (t : List Char) (hN : 20 ≤ t.length)
    (ht : ∀ c ∈ t, isTokenChar c = true) :
    ((Regex.cat [.litI "bearer", .plus .space, .atLeast 20 .tokenCharI]).find
      (bearerPrefix ++ t ++ [Char.ofNat 39])).isSome = true := by
  have hsplit : bearerPrefix ++ t ++ [Char.ofNat 39]
      = "curl -H 'Authorization: ".data ++ ("Bearer".data ++ ' ' :: (t ++ [Char.ofNat 39])) := by
    simp [bearerPrefix]
  rw [hsplit]
  apply Regex.find_isSome_of_ends
  have hA : (' ' :: (t ++ [Char.ofNat 39])) ∈ (Regex.litI "bearer").ends
      ("Bearer".data ++ ' ' :: (t ++ [Char.ofNat 39])) := by
    have := (Regex.ends_local (Regex.litI "bearer") "Bearer".data
      (' ' :: (t ++ [Char.ofNat 39])) []).2 (by decide)
    simpa using this
  have hB : (t ++ [Char.ofNat 39]) ∈ (Regex.plus Regex.space).ends
      (' ' :: (t ++ [Char.ofNat 39])) := by
    have := (Regex.ends_local (Regex.plus Regex.space) [' '] (t ++ [Char.ofNat 39]) []).2
      (by decide)
    simpa using this
  have htake : ∀ c ∈ t.take 20, ∀ s, s ∈ Regex.tokenCharI.ends (c :: s) :=
    fun c hc s => tokenCharI_of_isTokenChar c (ht c (List.mem_of_mem_take hc)) s
  have hrep := Regex.mem_ends_rep Regex.tokenCharI (t.take 20) htake
    (t.drop 20 ++ [Char.ofNat 39])
  rw [List.length_take, min_eq_left hN, ← List.append_assoc, List.take_append_drop] at hrep
  have hC : (t.drop 20 ++ [Char.ofNat 39]) ∈ (Regex.atLeast 20 Regex.tokenCharI).ends
      (t ++ [Char.ofNat 39]) :=
    Regex.mem_ends_seq _ _ _ _ _ hrep (Regex.self_mem_starEnds _ _ _)
  have hD : (t.drop 20 ++ [Char.ofNat 39]) ∈ Regex.empty.ends (t.drop 20 ++ [Char.ofNat 39]) := by
    simp [Regex.ends]
  have hall : (t.drop 20 ++ [Char.ofNat 39]) ∈
      (Regex.cat [.litI "bearer", .plus .space, .atLeast 20 .tokenCharI]).ends
        ("Bearer".data ++ ' ' :: (t ++ [Char.ofNat 39])) :=
    Regex.mem_ends_seq _ _ _ _ _ hA
      (Regex.mem_ends_seq _ _ _ _ _ hB (Regex.mem_ends_seq _ _ _ _ _ hC hD))
  exact List.ne_nil_of_mem hall

theorem bearer_pattern_mem :
    Regex.cat [.litI "bearer", .plus .space, .atLeast 20 .tokenCharI] ∈ sensitivePatterns := by
  simp [sensitivePatterns]

theorem bearer_data (t : String) :
    ("curl -H 'Authorization: Bearer " ++ t ++ "'").data
      = bearerPrefix ++ t.data ++ [Char.ofNat 39] := by
  simp [String.data_append, bearerPrefix]

/-- C17 (bearer-token redaction): for every token `t` of at least 20 characters
drawn from `[A-Za-z0-9_-]`, `FilterSensitive` applied to the one command
`curl -H 'Authorization: Bearer t'` returns a list of one text, which contains
the marker `[REDACTED]` and does not contain `t`; `IsSensitive` is true for that
command and false for `ls -la`. -/
theorem bearer_token_redaction (t : String) (hlen : 20 ≤ t.length)
    (hchars : ∀ c ∈ t.data, isTokenChar c = true) :
    (∃ out, FilterSensitive ["curl -H 'Authorization: Bearer " ++ t ++ "'"] = [out] ∧
      stringsContains out "[REDACTED]" ∧ ¬ stringsContains out t) ∧
    IsSensitive ("curl -H 'Authorization: Bearer " ++ t ++ "'") = true ∧
    IsSensitive "ls -la" = false := by
  have hN : 20 ≤ t.data.length := hlen
  have hdata := bearer_data t
  have hsens : IsSensitive ("curl -H 'Authorization: Bearer " ++ t ++ "'") = true := by
    unfold IsSensitive
    rw [List.any_eq_true]
    refine ⟨_, bearer_pattern_mem, ?_⟩
    unfold Regex.MatchString
    rw [hdata]
    exact bearer_pattern_matches t.data hN hchars
  have hmark := filter_fold_of_match sensitivePatterns "[REDACTED]" _ hsens
  have hchecks : ∀ p ∈ sensitivePatterns, p.noInfixMatch bearerPrefix = true ∧
      p.fullMatch [Char.ofNat 39] = false ∧ p.fullMatch [] = false := by
    intro p hp
    have := (List.all_eq_true.1 sensitivePatterns_bearer_checks) p hp
    simpa [Bool.and_eq_true, and_assoc] using this
  have hdisj := filter_fold_bearer sensitivePatterns hchecks t.data hN
    ("curl -H 'Authorization: Bearer " ++ t ++ "'") (Or.inl hdata)
  have hrun : maxRun (filterCommand ("curl -H 'Authorization: Bearer " ++ t ++ "'")).data
      < t.data.length := by
    rcases hdisj with h | h
    · exfalso
      have hm : redactedMarker <:+: bearerPrefix ++ t.data ++ [Char.ofNat 39] := by
        have := hmark
        unfold stringsContains at this
        rw [h] at this
        exact this
      have hmem : '[' ∈ bearerPrefix ++ t.data ++ [Char.ofNat 39] :=
        hm.subset (by decide)
      simp only [List.mem_append, List.mem_singleton] at hmem
      rcases hmem with (h1 | h1) | h1
      · exact absurd h1 (by decide)
      · exact absurd (hchars _ h1) (by decide)
      · exact absurd h1 (by decide)
    · exact h
  refine ⟨⟨filterCommand ("curl -H 'Authorization: Bearer " ++ t ++ "'"), rfl, hmark, ?_⟩,
    hsens, by decide⟩
  intro hcontains
  have := maxRun_of_contains _ t.data hchars hcontains
  omega

/-- Witness for C17: the token `abcd1234567890ABCDEF`. -/
theorem bearer_token_redaction_witness :
    (∃ out, FilterSensitive ["curl -H 'Authorization: Bearer " ++ "abcd1234567890ABCDEF" ++ "'"]
        = [out] ∧
      stringsContains out "[REDACTED]" ∧ ¬ stringsContains out "abcd1234567890ABCDEF") ∧
    IsSensitive ("curl -H 'Authorization: Bearer " ++ "abcd1234567890ABCDEF" ++ "'") = true ∧
    IsSensitive "ls -la" = false :=
  bearer_token_redaction "abcd1234567890ABCDEF" (by decide) (by decide)

end Llmsh
